import Mathlib

/-!
# planet-dump-ng : `dump_reader.cpp`

A shallow embedding of the ingest front end (`to_line_filter`, `copy_line`,
`filter_copy_contents`) and of the external merge sort store (`block_writer`,
`block_reader`, `compare_first`, `thread_control_block`, `db_writer`, the
`!HAVE_LEVELDB` branch) of `src/dump_reader.cpp`, followed by theorems about them.

Conventions of the embedding.

* `std::string` is a list of bytes, a byte is a `Fin 256` (the value of the
  `unsigned char`).
* The filesystem is an association list from file names to file contents.  The
  gzip layer (`gzip_compressor` pushed on the writer, `gzip_decompressor` on the
  reader) is a lossless codec, so a file is represented by the byte stream that goes
  into the compressor and comes out of the decompressor.
* `uint16_t` fields are written in the byte order of the host; the order is the
  parameter `be` (`true` for a big-endian host) of the functions that touch them.
* Loops of the source become recursions on a counter that is computed from the state
  by the function that starts the loop; a loop that would need more steps yields
  `none`, and the theorems show that this never happens.
* `boost::iostreams::read` on the `filtering_streambuf` of a `block_reader` hands out the
  bytes that are left, at most the number asked for, and returns their number, but `-1`
  when it hands out none (`sgetn` returned `0`), also when none was asked for.
* Resource failures (a file that cannot be opened, a failing `fread`, a thread that
  cannot be started) are outside the embedding.
* `std::sort` is a parameter of the functions that call it.
* The coordinator `db_writer` builds the tasks; the thread of a task is a function of the
  filesystem (`run`), and `run_all` runs the threads of a task and of the tasks below it
  one after the other, each when the thread that waits for it gets to its `join`.
-/

namespace DumpReader

/-! ## Strings -/

abbrev Byte := Fin 256

/-- The type `std::string`. -/
abbrev Str := List Byte

/-- A string literal of the source, as bytes. -/
def bytes (s : String) : Str := s.toList.map (fun c => Fin.ofNat c.toNat)

/-- The type `kv_pair_t`, a `std::pair<std::string, std::string>`. -/
abbrev kv_pair_t := Str × Str

/-- The exceptions of the source that the embedding can raise. -/
inductive error where
  | early_termination_error : error
  | copy_header_parse_error (copy_header : Str) : error
  | runtime_error (what : Str) : error
  | filesystem_error (what : Str) : error
  deriving DecidableEq, Repr

instance {ε α : Type} [DecidableEq ε] [DecidableEq α] : DecidableEq (Except ε α) := fun a b =>
  match a, b with
  | Except.ok x, Except.ok y =>
    if h : x = y then isTrue (by rw [h]) else isFalse (fun e => h (Except.ok.inj e))
  | Except.error x, Except.error y =>
    if h : x = y then isTrue (by rw [h]) else isFalse (fun e => h (Except.error.inj e))
  | Except.ok _, Except.error _ => isFalse (fun e => by cases e)
  | Except.error _, Except.ok _ => isFalse (fun e => by cases e)

/-! ## `uint16_t` fields in host byte order -/

/-- The two bytes of the object representation of a `uint16_t` holding `n`. -/
def u16_bytes (be : Bool) (n : Nat) : Str :=
  let lo : Byte := Fin.ofNat (n % 256)
  let hi : Byte := Fin.ofNat (n / 256 % 256)
  if be then [hi, lo] else [lo, hi]

/-- The `uint16_t` whose object representation is the two bytes `b`. -/
def u16_value (be : Bool) (b : Str) : Nat :=
  match b with
  | [x, y] => if be then x.val * 256 + y.val else x.val + y.val * 256
  | _ => 0

/-- The conversion `uint16_t(n)` of a `size_t`. -/
def to_uint16 (n : Nat) : Nat := n % 65536

/-! ## Filesystem -/

abbrev FileSystem := List (Str × Str)

/-- The content of the file called `name`, if there is one. -/
def fs_read (fs : FileSystem) (name : Str) : Option Str :=
  match fs with
  | [] => none
  | (n, c) :: rest => if n = name then some c else fs_read rest name

/-- The call `fs::exists(name)`. -/
def fs_exists (fs : FileSystem) (name : Str) : Bool := (fs_read fs name).isSome

/-- The call `fs::remove(name)`: a file that is not there is not an error. -/
def fs_remove (fs : FileSystem) (name : Str) : FileSystem :=
  fs.filter (fun e => decide (e.1 ≠ name))

/-- Replace (or create) the file called `name`. -/
def fs_write (fs : FileSystem) (name : Str) (content : Str) : FileSystem :=
  (name, content) :: fs_remove fs name

/-- The call `fs::rename(old, new)`; it throws when `old` does not exist. -/
def fs_rename (fs : FileSystem) (old new : Str) : Option FileSystem :=
  match fs_read fs old with
  | none => none
  | some c => if old = new then some fs else some (fs_write (fs_remove fs old) new c)

/-- Lower-case hexadecimal digit. -/
def hex_digit (d : Nat) : Byte :=
  if d < 10 then Fin.ofNat (48 + d) else Fin.ofNat (87 + d)

/-- The digits of `n` in base 16, most significant first (`[]` for `0`). -/
def hex_digits : Nat → Nat → Str
  | 0, _ => []
  | fuel + 1, n => if n = 0 then [] else hex_digits fuel (n / 16) ++ [hex_digit (n % 16)]

/-- The conversion `%08x`: at least eight digits, padded with `0` on the left. -/
def hex08 (n : Nat) : Str :=
  let ds := hex_digits n n
  List.replicate (8 - ds.length) (Fin.ofNat 48) ++ ds

/-- The format `"%1$s/%2$s_%3$08x.data"` used by `block_reader`, `block_writer` and
`thread_control_block::file_name`. -/
def format_file_name (subdir pfx : Str) (block_counter : Nat) : Str :=
  subdir ++ bytes "/" ++ pfx ++ bytes "_" ++ hex08 block_counter ++ bytes ".data"

/-! ## `block_writer` -/

/-- The struct `block_writer`: the name of the file behind `m_out` and the bytes pushed
into `m_stream` so far. -/
structure block_writer where
  file_name : Str
  m_stream : Str
  deriving DecidableEq, Repr

/-- The constructor of `block_writer`: an existing file of that name is removed and
the file is opened, which creates it empty. -/
def block_writer.ctor (fs : FileSystem) (subdir bit : Str) (block_counter : Nat) :
    FileSystem × block_writer :=
  let file_name := format_file_name subdir bit block_counter
  let fs1 := if fs_exists fs file_name then fs_remove fs file_name else fs
  (fs_write fs1 file_name [], { file_name := file_name, m_stream := [] })

/-- The call `block_writer::operator()(kv)`. -/
def block_writer.call (be : Bool) (w : block_writer) (kv : kv_pair_t) : block_writer :=
  let k := kv.1
  let v := kv.2
  let key_size := to_uint16 k.length
  let val_size := to_uint16 v.length
  { w with m_stream := w.m_stream ++ u16_bytes be key_size ++ u16_bytes be val_size ++ k ++ v }

/-- The destructor of `block_writer`: the stream is closed and its bytes are in the
file, unless the file was unlinked while it was open. -/
def block_writer.dtor (fs : FileSystem) (w : block_writer) : FileSystem :=
  if fs_exists fs w.file_name then fs_write fs w.file_name w.m_stream else fs

/-! ## `block_reader` -/

/-- The struct `block_reader`; `m_stream` holds the bytes not yet read. -/
structure block_reader where
  m_file_name : Str
  m_end : Bool
  m_stream : Str
  m_current : kv_pair_t
  deriving DecidableEq, Repr

/-- The call `bio::read(stream, buf, n)`: the bytes delivered and the rest of the
stream. -/
def bio_read (stream : Str) (n : Nat) : Str × Str := (stream.take n, stream.drop n)

/-- The value that the call `bio::read(stream, buf, n)` returns when it has delivered the
bytes `got`: their number, and `-1` when there is none.  For a `std::streambuf` the
function is `(amt = t.sgetn(s, n)) != 0 ? amt : -1`, so a call that asks for no byte
returns `-1` as well. -/
def bio_read_result (got : Str) : Int := if got.length = 0 then -1 else (got.length : Int)

/-- The call `s.resize(n)`. -/
def resize (s : Str) (n : Nat) : Str := s.take n ++ List.replicate (n - s.length) 0

/-- The buffer `s` after `got` was read into its beginning. -/
def read_into (s got : Str) : Str := got ++ s.drop got.length

/-- The call `block_reader::next()`. -/
def block_reader.next (be : Bool) (r : block_reader) : block_reader :=
  let (kb, s1) := bio_read r.m_stream 2
  if bio_read_result kb ≠ 2 then { r with m_stream := s1, m_end := true } else
  let ksz := u16_value be kb
  let (vb, s2) := bio_read s1 2
  if bio_read_result vb ≠ 2 then { r with m_stream := s2, m_end := true } else
  let vsz := u16_value be vb
  let (kd, s3) := bio_read s2 ksz
  let first := read_into (resize r.m_current.1 ksz) kd
  if bio_read_result kd ≠ (ksz : Int) then
    { r with m_stream := s3, m_end := true, m_current := (first, r.m_current.2) } else
  let (vd, s4) := bio_read s3 vsz
  let second := read_into (resize r.m_current.2 vsz) vd
  if bio_read_result vd ≠ (vsz : Int) then
    { r with m_stream := s4, m_end := true, m_current := (first, second) } else
  { r with m_stream := s4, m_current := (first, second) }

/-- The constructor of `block_reader`. -/
def block_reader.ctor (be : Bool) (fs : FileSystem) (subdir pfx : Str) (block_counter : Nat) :
    Except error block_reader :=
  let m_file_name := format_file_name subdir pfx block_counter
  match fs_read fs m_file_name with
  | none =>
    Except.error (error.runtime_error
      (bytes "File '" ++ m_file_name ++ bytes "' does not exist."))
  | some content =>
    Except.ok (block_reader.next be
      { m_file_name := m_file_name, m_end := false, m_stream := content, m_current := ([], []) })

/-- The call `block_reader::at_end()`. -/
def block_reader.at_end (r : block_reader) : Bool := r.m_end

/-- The call `block_reader::value()`. -/
def block_reader.value (r : block_reader) : kv_pair_t := r.m_current

/-- The call `block_reader::file_name()`. -/
def block_reader.file_name (r : block_reader) : Str := r.m_file_name

/-! ## `compare_first` -/

/-- The loop of `compare_first::operator()` on the keys, from position `i` on, where
the two arguments are the keys from that position: the loop runs while both have a
byte at `i`, and after it `end == a.first.size()` holds iff the first key has no byte
left. -/
def compare_first_keys : Str → Str → Bool
  | [], _ => true
  | _ :: _, [] => false
  | ac :: a, bc :: b =>
    if ac < bc then true
    else if ac > bc then false
    else compare_first_keys a b

/-- The call `compare_first::operator()(a, b)`. -/
def compare_first (a b : kv_pair_t) : Bool := compare_first_keys a.1 b.1

/-! ## `thread_control_block` -/

/-- The struct `thread_control_block`.  The thread handle `m_thread` has no field:
joining a task means that its run is over, and `m_error` is what it left. -/
inductive thread_control_block where
  | mk (m_subdir : Str) (m_pfx : Str) (m_block_number : Nat) (m_strings : List kv_pair_t)
      (m_waits : List thread_control_block) (m_error : Option error) : thread_control_block

namespace thread_control_block

def m_subdir : thread_control_block → Str
  | mk s _ _ _ _ _ => s

def m_pfx : thread_control_block → Str
  | mk _ p _ _ _ _ => p

def m_block_number : thread_control_block → Nat
  | mk _ _ n _ _ _ => n

def m_strings : thread_control_block → List kv_pair_t
  | mk _ _ _ l _ _ => l

def m_waits : thread_control_block → List thread_control_block
  | mk _ _ _ _ w _ => w

def m_error : thread_control_block → Option error
  | mk _ _ _ _ _ e => e

/-- The constructor of `thread_control_block`: it takes the strings of the caller
(who is left with an empty vector) and starts the thread. -/
def ctor (subdir pfx : Str) (block_number : Nat) (strings : List kv_pair_t)
    (waits : List thread_control_block) : thread_control_block :=
  mk subdir pfx block_number strings waits none

/-- The call `thread_control_block::file_name()`. -/
def file_name (t : thread_control_block) : Str :=
  format_file_name t.m_subdir t.m_pfx t.m_block_number

def set_strings (t : thread_control_block) (l : List kv_pair_t) : thread_control_block :=
  mk t.m_subdir t.m_pfx t.m_block_number l t.m_waits t.m_error

def set_waits (t : thread_control_block) (w : List thread_control_block) :
    thread_control_block :=
  mk t.m_subdir t.m_pfx t.m_block_number t.m_strings w t.m_error

def set_error (t : thread_control_block) (e : Option error) : thread_control_block :=
  mk t.m_subdir t.m_pfx t.m_block_number t.m_strings t.m_waits e

end thread_control_block

/-- What a member function of a task leaves behind: the filesystem, the task, and the
exception that left the function, if one did. -/
structure outcome where
  fs : FileSystem
  tcb : thread_control_block
  thrown : Option error

/-- The first loop of the k-way branch of `run_merge`: every predecessor is joined, its
captured exception is rethrown, and a `block_reader` on its file is appended to
`readers`. -/
def open_readers (be : Bool) (fs : FileSystem) :
    List thread_control_block → Except error (List block_reader)
  | [] => Except.ok []
  | tcb2 :: rest =>
    match tcb2.m_error with
    | some e => Except.error e
    | none =>
      match block_reader.ctor be fs tcb2.m_subdir tcb2.m_pfx tcb2.m_block_number with
      | Except.error e => Except.error e
      | Except.ok r =>
        match open_readers be fs rest with
        | Except.error e => Except.error e
        | Except.ok rs => Except.ok (r :: rs)

/-- The same loop with what it leaves behind when an exception ends it: the readers
constructed up to that point, which stay in the vector `readers`, and the exception, if
there is one. -/
def open_readers_trace (be : Bool) (fs : FileSystem) :
    List thread_control_block → List block_reader × Option error
  | [] => ([], none)
  | tcb2 :: rest =>
    match tcb2.m_error with
    | some e => ([], some e)
    | none =>
      match block_reader.ctor be fs tcb2.m_subdir tcb2.m_pfx tcb2.m_block_number with
      | Except.error e => ([], some e)
      | Except.ok r =>
        ((r :: (open_readers_trace be fs rest).1), (open_readers_trace be fs rest).2)

/-- The inner loop of `run_merge`: `itr` walks over the readers after the first one,
`min_itr` (a position in the list) and `min_pair` follow the reader whose value
`comp` accepts against the current minimum. -/
def find_min (min_itr : Nat) (min_pair : kv_pair_t) (itr : Nat) :
    List block_reader → Nat × kv_pair_t
  | [] => (min_itr, min_pair)
  | r :: rest =>
    if compare_first r.value min_pair then find_min itr r.value (itr + 1) rest
    else find_min min_itr min_pair (itr + 1) rest

/-- The loop `while (!readers.empty())` of `run_merge`. -/
def merge_loop (be : Bool) :
    Nat → FileSystem → List block_reader → block_writer → Option (FileSystem × block_writer)
  | 0, _, _, _ => none
  | fuel + 1, fs, readers, writer =>
    match readers with
    | [] => some (fs, writer)
    | r0 :: rest =>
      let (min_itr, min_pair) := find_min 0 r0.value 1 rest
      let writer := writer.call be min_pair
      match readers.get? min_itr with
      | none => none
      | some r =>
        let r := r.next be
        if r.at_end then
          merge_loop be fuel (fs_remove fs r.file_name) (readers.eraseIdx min_itr) writer
        else
          merge_loop be fuel fs (readers.set min_itr r) writer

/-- A number of rounds that the loop of `run_merge` cannot exceed: a round removes a
reader or takes a record of at least four bytes from a stream. -/
def merge_rounds (readers : List block_reader) : Nat :=
  (readers.map (fun r => r.m_stream.length + 1)).sum + 1

/-- The call `thread_control_block::run_merge()`. -/
def run_merge (be : Bool) (fs : FileSystem) (t : thread_control_block) : Option outcome :=
  match t.m_waits with
  | [tcb2] =>
    match tcb2.m_error with
    | some e => some { fs := fs, tcb := t, thrown := some e }
    | none =>
      let part_file_name := tcb2.file_name
      let final_file_name := t.file_name
      match fs_rename fs part_file_name final_file_name with
      | none =>
        some { fs := fs, tcb := t,
               thrown := some (error.filesystem_error (bytes "rename: " ++ part_file_name)) }
      | some fs1 => some { fs := fs1, tcb := t, thrown := none }
  | waits =>
    match open_readers be fs waits with
    | Except.error e => some { fs := fs, tcb := t, thrown := some e }
    | Except.ok readers =>
      let t := t.set_waits []
      let (fs1, writer) := block_writer.ctor fs t.m_subdir t.m_pfx t.m_block_number
      match merge_loop be (merge_rounds readers) fs1 readers writer with
      | none => none
      | some (fs2, writer) => some { fs := writer.dtor fs2, tcb := t, thrown := none }

/-- The library function `std::sort` on a vector of pairs, as far as the embedding
needs it: the comparator and the vector go in, the vector after the call comes out.
The repository does not define it; the functions that call it take it as `std_sort`.
The C++ standard says what comes out only for a comparator that is a strict weak
ordering on the values of the vector. -/
abbrev sort_function := (kv_pair_t → kv_pair_t → Bool) → List kv_pair_t → List kv_pair_t

/-- The call `thread_control_block::run_write()`. -/
def run_write (std_sort : sort_function) (be : Bool) (fs : FileSystem)
    (t : thread_control_block) : outcome :=
  let (fs1, writer) := block_writer.ctor fs t.m_subdir t.m_pfx t.m_block_number
  let strings := std_sort compare_first t.m_strings
  let writer := strings.foldl (block_writer.call be) writer
  { fs := writer.dtor fs1, tcb := t.set_strings [], thrown := none }

/-- The thread body `thread_control_block::run(tcb)`. -/
def run (std_sort : sort_function) (be : Bool) (fs : FileSystem) (t : thread_control_block) :
    Option (FileSystem × thread_control_block) :=
  if t.m_waits.length > 0 then
    match run_merge be fs t with
    | none => none
    | some o =>
      match o.thrown with
      | some e => some (o.fs, o.tcb.set_error (some e))
      | none => some (o.fs, o.tcb)
  else
    let o := run_write std_sort be fs t
    some (o.fs, o.tcb)

/-! ## `db_writer` -/

/-- The macro `MAX_MERGESORT_BLOCK_SIZE`. -/
def MAX_MERGESORT_BLOCK_SIZE : Nat := 67108864

/-- The value `std::numeric_limits<uint16_t>::max()`. -/
def uint16_max : Nat := 65535

/-- The struct `db_writer` of the branch without LevelDB. -/
structure db_writer where
  m_subdir : Str
  m_block_counter : Nat
  m_bytes_this_block : Nat
  m_strings : List kv_pair_t
  m_blocks : List thread_control_block
  m_blocks2 : List thread_control_block
  m_blocks3 : List thread_control_block

/-- The constructor of `db_writer`. -/
def db_writer.ctor (table_name : Str) : db_writer :=
  { m_subdir := table_name, m_block_counter := 0, m_bytes_this_block := 0, m_strings := [],
    m_blocks := [], m_blocks2 := [], m_blocks3 := [] }

/-- The call `db_writer::flush_block()`. -/
def db_writer.flush_block (w : db_writer) : db_writer :=
  let part_1 := bytes "part"
  let part_2 := bytes "part2"
  let part_3 := bytes "part3"
  let w := { w with
    m_blocks := w.m_blocks ++
      [thread_control_block.ctor w.m_subdir part_1 w.m_block_counter w.m_strings []],
    m_strings := [] }
  let w :=
    if w.m_blocks.length ≥ 16 then
      let w := { w with
        m_blocks2 := w.m_blocks2 ++
          [thread_control_block.ctor w.m_subdir part_2 w.m_block_counter w.m_strings w.m_blocks],
        m_strings := [],
        m_blocks := [] }
      if w.m_blocks2.length ≥ 16 then
        { w with
          m_blocks3 := w.m_blocks3 ++
            [thread_control_block.ctor w.m_subdir part_3 w.m_block_counter w.m_strings
              w.m_blocks2],
          m_strings := [],
          m_blocks2 := [] }
      else w
    else w
  { w with m_bytes_this_block := 0, m_block_counter := w.m_block_counter + 1 }

/-- The call `db_writer::put(k, v)`: the exception that leaves it, if one does, and the
writer after the call. -/
def db_writer.put (w : db_writer) (k v : Str) : Option error × db_writer :=
  if k.length > uint16_max then
    (some (error.runtime_error (bytes "Key too large for uint16_t.")), w)
  else if v.length > uint16_max then
    (some (error.runtime_error (bytes "Value too large for uint16_t.")), w)
  else
    let bytes := k.length + v.length + 2 * 2
    let w := if w.m_bytes_this_block + bytes > MAX_MERGESORT_BLOCK_SIZE then w.flush_block else w
    (none, { w with m_strings := w.m_strings ++ [(k, v)],
                    m_bytes_this_block := w.m_bytes_this_block + bytes })

/-! ## `process` -/

/-- The struct `process`, seen from `read`: the bytes that the child process still has
to deliver on its standard output, and how coming calls of `read` are cut short (an
entry `c` lets the next call deliver at most `c + 1` bytes; when the list is used up
every call delivers all it is asked for, as far as bytes are left). -/
structure process where
  pending : Str
  short_reads : List Nat
  deriving DecidableEq, Repr

/-- The call `process::read(buf, len)`: the bytes put into `buf`, whose number is the
return value, and the process after the call. -/
def process.read (p : process) (len : Nat) : Str × process :=
  match p.short_reads with
  | [] => (p.pending.take len, { p with pending := p.pending.drop len })
  | c :: cs =>
    let n := min len (c + 1)
    (p.pending.take n, { pending := p.pending.drop n, short_reads := cs })

/-! ## `to_line_filter` -/

/-- The struct `to_line_filter<process>`; the two iterators are offsets into
`m_buffer`. -/
structure to_line_filter where
  m_source : process
  m_buffer : Str
  m_buffer_pos : Nat
  m_buffer_end : Nat
  deriving DecidableEq, Repr

/-- The constructor of `to_line_filter`. -/
def to_line_filter.ctor (source : process) (buffer_size : Nat) : to_line_filter :=
  { m_source := source, m_buffer := List.replicate buffer_size 0, m_buffer_pos := 0,
    m_buffer_end := 0 }

/-- The bytes `chunk` stored at `&buf[at_]`. -/
def store_at (buf : Str) (at_ : Nat) (chunk : Str) : Str :=
  buf.take at_ ++ chunk ++ buf.drop (at_ + chunk.length)

/-- The loop of `to_line_filter::refill()`. -/
def refill_loop : Nat → process → Str → Nat → Option (process × Str × Nat)
  | 0, _, _, _ => none
  | fuel + 1, m_source, m_buffer, bytes =>
    if bytes < m_buffer.length then
      let (chunk, m_source) := m_source.read (m_buffer.length - bytes)
      let len := chunk.length
      if len = 0 then some (m_source, m_buffer, bytes)
      else refill_loop fuel m_source (store_at m_buffer bytes chunk) (bytes + len)
    else some (m_source, m_buffer, bytes)

/-- The call `to_line_filter::refill()`: the return value and the filter after it. -/
def to_line_filter.refill (f : to_line_filter) : Option (Nat × to_line_filter) :=
  match refill_loop (f.m_buffer.length + 1) f.m_source f.m_buffer 0 with
  | none => none
  | some (m_source, m_buffer, bytes) =>
    some (bytes, { m_source := m_source, m_buffer := m_buffer, m_buffer_pos := 0,
                   m_buffer_end := bytes })

/-- The bytes of `buf` in the iterator range `[b, e)`. -/
def buffer_range (buf : Str) (b e : Nat) : Str := (buf.take e).drop b

/-- The character `'\n'`. -/
def newline : Byte := 10

/-- The `do ... while` loop of `to_line_filter::read`, with the two statements that
follow it. -/
def to_line_filter.read_loop :
    Nat → to_line_filter → Str → Nat → Option (Nat × Str × to_line_filter)
  | 0, _, _, _ => none
  | fuel + 1, f, line, begin_pos =>
    let continue_at (f : to_line_filter) (line : Str) (begin_pos : Nat) :
        Option (Nat × Str × to_line_filter) :=
      let c := f.m_buffer.getD f.m_buffer_pos 0
      if c ≠ newline then
        to_line_filter.read_loop fuel { f with m_buffer_pos := f.m_buffer_pos + 1 } line begin_pos
      else
        let line := line ++ buffer_range f.m_buffer begin_pos f.m_buffer_pos
        some (1, line, { f with m_buffer_pos := f.m_buffer_pos + 1 })
    if f.m_buffer_pos = f.m_buffer_end then
      let line := line ++ buffer_range f.m_buffer begin_pos f.m_buffer_pos
      match f.refill with
      | none => none
      | some (bytes, f) =>
        if bytes = 0 then some (0, line, f)
        else continue_at f line f.m_buffer_pos
    else continue_at f line begin_pos

/-- The call `to_line_filter::read(line)`: the return value, `line` after the call and
the filter after the call. -/
def to_line_filter.read (f : to_line_filter) : Option (Nat × Str × to_line_filter) :=
  to_line_filter.read_loop
    ((f.m_buffer_end - f.m_buffer_pos) + f.m_source.pending.length + 2) f [] f.m_buffer_pos

/-! ## `copy_line`

The grammar is run by `qi::phrase_parse` with the skipper `qi::space`.  No rule of it
is wrapped in `lexeme[]`, so every primitive parser (`lit`, `alpha`, `alnum`, `char_`)
first skips white space and then looks at the input. -/

/-- The character class of `qi::space` (`isspace` of the C locale). -/
def is_space (c : Byte) : Bool := c.val = 32 || (9 ≤ c.val && c.val ≤ 13)

/-- The character class of `qi::alpha`. -/
def is_alpha (c : Byte) : Bool := (65 ≤ c.val && c.val ≤ 90) || (97 ≤ c.val && c.val ≤ 122)

/-- The character class of `qi::alnum`. -/
def is_alnum (c : Byte) : Bool := is_alpha c || (48 ≤ c.val && c.val ≤ 57)

/-- The pre-skip `qi::skip_over(first, last, qi::space)`. -/
def skip_over (s : Str) : Str := s.dropWhile is_space

/-- Is `l` the beginning of `s`? -/
def starts_with (l s : Str) : Bool := decide (s.take l.length = l)

/-- The parser `lit(l)` for a string `l`: the input after the match, if it matches. -/
def lit (l : Str) (s : Str) : Option Str :=
  let s := skip_over s
  if starts_with l s then some (s.drop l.length) else none

/-- The parser `*(alnum | char_('_'))`: the characters matched and the input left. -/
def ident_tail : Str → Str × Str
  | [] => ([], [])
  | c :: s =>
    if is_space c then ident_tail s
    else if is_alnum c || c = 95 then ((c :: (ident_tail s).1), (ident_tail s).2)
    else ([], c :: s)

/-- The parser `*(char_ - '"' - '\\')`: the characters matched and the input left. -/
def quoted_body : Str → Str × Str
  | [] => ([], [])
  | c :: s =>
    if is_space c then quoted_body s
    else if c = 34 || c = 92 then ([], c :: s)
    else ((c :: (quoted_body s).1), (quoted_body s).2)

/-- The first alternative of `ident`, `alpha >> *(alnum | char_('_'))`. -/
def ident_unquoted (s : Str) : Option (Str × Str) :=
  match skip_over s with
  | c :: s1 => if is_alpha c then some (c :: (ident_tail s1).1, (ident_tail s1).2) else none
  | [] => none

/-- The second alternative of `ident`,
`lit("\"") >> *(char_ - '"' - '\\') >> lit("\"")`. -/
def ident_quoted (s : Str) : Option (Str × Str) :=
  match lit [34] s with
  | none => none
  | some s1 =>
    match lit [34] (quoted_body s1).2 with
    | none => none
    | some s2 => some ((quoted_body s1).1, s2)

/-- The rule `ident`: its attribute and the input left. -/
def ident (s : Str) : Option (Str × Str) :=
  match ident_unquoted s with
  | some r => some r
  | none => ident_quoted s

/-- The repetition inside `ident % lit(',')` after the first `ident`: as long as a
`','` and an `ident` follow, the attribute is appended; a `','` without an `ident`
after it is given back. -/
def ident_list_tail : Nat → Str → Option (List Str × Str)
  | 0, _ => none
  | fuel + 1, s =>
    match lit [44] s with
    | none => some ([], s)
    | some s1 =>
      match ident s1 with
      | none => some ([], s)
      | some (name, s2) =>
        match ident_list_tail fuel s2 with
        | none => none
        | some (names, s3) => some (name :: names, s3)

/-- The call `qi::phrase_parse(begin, end, m_grammar, qi::space, column_names)` for the
grammar `copy_line(table_name)`: `some none` when it returns `false`, `some (some l)`
when it returns `true` with `column_names == l`. -/
def copy_line (table_name : Str) (line : Str) : Option (Option (List Str)) :=
  match lit (bytes "COPY") line with
  | none => some none
  | some s1 =>
    match lit table_name s1 with
    | none => some none
    | some s2 =>
      match lit (bytes "(") s2 with
      | none => some none
      | some s3 =>
        match ident s3 with
        | none => some none
        | some (name, s4) =>
          match ident_list_tail (s4.length + 1) s4 with
          | none => none
          | some (names, s5) =>
            match lit (bytes ") FROM stdin;") s5 with
            | none => some none
            | some _ => some (some (name :: names))

/-! ## `filter_copy_contents` -/

/-- The struct `filter_copy_contents<to_line_filter<process>>`; `m_start_prefix`,
`m_end_line` and `m_grammar` are constants of the constructor. -/
structure filter_copy_contents where
  m_source : to_line_filter
  m_in_copy : Bool
  m_table_name : Str
  deriving DecidableEq, Repr

/-- The constructor of `filter_copy_contents`. -/
def filter_copy_contents.ctor (source : to_line_filter) (table_name : Str) :
    filter_copy_contents :=
  { m_source := source, m_in_copy := false, m_table_name := table_name }

/-- The member `m_start_prefix`. -/
def m_start_pfx : Str := bytes "COPY "

/-- The member `m_end_line`. -/
def m_end_line : Str := bytes "\\."

/-- The loop of `filter_copy_contents::init()` with the statements after it: what the
call returns or throws, and the filter after it. -/
def filter_copy_contents.init_loop :
    Nat → filter_copy_contents → Option (Except error (List Str) × filter_copy_contents)
  | 0, _ => none
  | fuel + 1, f =>
    match f.m_source.read with
    | none => none
    | some (got_data, line, source) =>
      let f := { f with m_source := source }
      if got_data = 0 then some (Except.error error.early_termination_error, f)
      else if line.take m_start_pfx.length = m_start_pfx then
        match copy_line f.m_table_name line with
        | none => none
        | some none => some (Except.error (error.copy_header_parse_error line), f)
        | some (some column_names) =>
          let f := { f with m_in_copy := true }
          if !f.m_in_copy then some (Except.error error.early_termination_error, f)
          else if column_names.isEmpty then some (Except.error error.early_termination_error, f)
          else some (Except.ok column_names, f)
      else filter_copy_contents.init_loop fuel f

/-- The bytes that a line filter has not handed out yet: the unread part of its buffer
and what its source still has to deliver. -/
def to_line_filter.unread (f : to_line_filter) : Str :=
  buffer_range f.m_buffer f.m_buffer_pos f.m_buffer_end ++ f.m_source.pending

/-- The call `filter_copy_contents::init()`. -/
def filter_copy_contents.init (f : filter_copy_contents) :
    Option (Except error (List Str) × filter_copy_contents) :=
  filter_copy_contents.init_loop (f.m_source.unread.length + 2) f

/-- The loop of `filter_copy_contents::read(line)`. -/
def filter_copy_contents.read_loop :
    Nat → filter_copy_contents → Option (Nat × Str × filter_copy_contents)
  | 0, _ => none
  | fuel + 1, f =>
    match f.m_source.read with
    | none => none
    | some (got_data, line, source) =>
      let f := { f with m_source := source }
      if got_data = 0 then some (got_data, line, f)
      else
        let f := if f.m_in_copy && decide (line = m_end_line) then { f with m_in_copy := false }
                 else f
        if !f.m_in_copy then filter_copy_contents.read_loop fuel f
        else some (got_data, line, f)

/-- The call `filter_copy_contents::read(line)`: the return value, `line` after the
call and the filter after the call. -/
def filter_copy_contents.read (f : filter_copy_contents) :
    Option (Nat × Str × filter_copy_contents) :=
  filter_copy_contents.read_loop (f.m_source.unread.length + 2) f

/-! ## Notions used in the statements -/

/-- The bytes of one record of a spill file: `u16 key_len`, `u16 val_len`, the key, the
value, where the two lengths are those of the key and of the value. -/
def record (be : Bool) (kv : kv_pair_t) : Str :=
  u16_bytes be (to_uint16 kv.1.length) ++ u16_bytes be (to_uint16 kv.2.length) ++ kv.1 ++ kv.2

/-- The content of a spill file that holds the pairs `l`, in this order. -/
def encode (be : Bool) (l : List kv_pair_t) : Str := (l.map (record be)).flatten

/-- Key and value are shorter than `2^16` bytes. -/
def fits (kv : kv_pair_t) : Prop := kv.1.length < 65536 ∧ kv.2.length < 65536

instance (kv : kv_pair_t) : Decidable (fits kv) := by unfold fits; infer_instance

/-- Key and value are shorter than `2^16` bytes and neither is empty. -/
def readable (kv : kv_pair_t) : Prop := fits kv ∧ kv.1 ≠ [] ∧ kv.2 ≠ []

instance (kv : kv_pair_t) : Decidable (readable kv) := by unfold readable; infer_instance

/-- The keys of `l` are in nondecreasing lexicographic order of their unsigned bytes
(the order of `List (Fin 256)`). -/
def sorted_by_key (l : List kv_pair_t) : Prop := l.Pairwise (fun a b => a.1 ≤ b.1)

/-- The reader is not at its end, its current pair is the first pair of `l` and its
stream holds the other pairs of `l`. -/
def reader_at (be : Bool) (r : block_reader) (l : List kv_pair_t) : Prop :=
  ∃ kv rest, l = kv :: rest ∧ r.m_end = false ∧ r.m_current = kv ∧ r.m_stream = encode be rest

/-- The call `db_writer::combine_blocks()` up to the construction of the final task:
the writer after it and the task `tcb`, which is then joined and whose captured
exception, if any, is rethrown. -/
def db_writer.combine_blocks (w : db_writer) : db_writer × thread_control_block :=
  let w := if w.m_blocks2.length > 0 then
      { w with m_blocks := w.m_blocks ++ w.m_blocks2, m_blocks2 := [] } else w
  let w := if w.m_blocks3.length > 0 then
      { w with m_blocks := w.m_blocks ++ w.m_blocks3, m_blocks3 := [] } else w
  let tcb := thread_control_block.ctor w.m_subdir (bytes "final") 0 w.m_strings w.m_blocks
  ({ w with m_strings := [] }, tcb)

/-- The call `db_writer::finish()`, up to the same point. -/
def db_writer.finish (w : db_writer) : db_writer × thread_control_block :=
  let w := if w.m_strings.length > 0 then w.flush_block else w
  w.combine_blocks

/-- The calls `put(k, v)` for the pairs of `l`, in this order, on the writer `w`. -/
def db_writer.put_all (w : db_writer) (l : List kv_pair_t) : db_writer :=
  l.foldl (fun w kv => (w.put kv.1 kv.2).2) w

/-- The requirement of the C++ standard on the comparator of `std::sort`
(`[alg.sorting]`): `comp` induces a strict weak ordering on the values of the range, that
is, it is irreflexive and transitive, and so is the equivalence "neither `comp a b` nor
`comp b a`".  A call whose comparator does not meet it has undefined behaviour. -/
def strict_weak_ordering_on (comp : kv_pair_t → kv_pair_t → Bool) (xs : List kv_pair_t) :
    Prop :=
  (∀ a ∈ xs, comp a a = false) ∧
  (∀ a ∈ xs, ∀ b ∈ xs, ∀ c ∈ xs, comp a b = true → comp b c = true → comp a c = true) ∧
  (∀ a ∈ xs, ∀ b ∈ xs, ∀ c ∈ xs, (comp a b = false ∧ comp b a = false) →
    (comp b c = false ∧ comp c b = false) → (comp a c = false ∧ comp c a = false))

/-! ## Concrete inputs -/

/-- A finished stage-1 task of table `t` with block number `n`. -/
def ex_part (n : Nat) : thread_control_block :=
  thread_control_block.ctor (bytes "t") (bytes "part") n [] []

/-- A stage-2 task that waits for the stage-1 tasks `0` and `1`. -/
def ex_merge : thread_control_block :=
  thread_control_block.ctor (bytes "t") (bytes "part2") 1 [] [ex_part 0, ex_part 1]

/-- Two spill files with one pair each, of the same key. -/
def ex_fs_tie : FileSystem :=
  [((ex_part 0).file_name, encode false [(bytes "k", bytes "a")]),
   ((ex_part 1).file_name, encode false [(bytes "k", bytes "b")])]

/-- A spill file without a record and one with a single pair. -/
def ex_fs_empty : FileSystem :=
  [((ex_part 0).file_name, encode false []),
   ((ex_part 1).file_name, encode false [(bytes "k", bytes "b")])]

/-- Two sorted spill files. -/
def ex_fs_sorted : FileSystem :=
  [((ex_part 0).file_name,
      encode false [(bytes "apple", bytes "1"), (bytes "cherry", bytes "3")]),
   ((ex_part 1).file_name, encode false [(bytes "banana", bytes "2")])]

/-- Two sorted spill files; the first pair of the first file has an empty value. -/
def ex_fs_empty_value : FileSystem :=
  [((ex_part 0).file_name, encode false [(bytes "a", []), (bytes "c", bytes "y")]),
   ((ex_part 1).file_name, encode false [(bytes "b", bytes "x")])]

/-- The filesystem after a `block_writer` for `t/part_00000000.data` was constructed in an
empty directory, called on the pairs of `l` in their order and destroyed. -/
def ex_written (be : Bool) (l : List kv_pair_t) : FileSystem :=
  block_writer.dtor (block_writer.ctor [] (bytes "t") (bytes "part") 0).1
    (l.foldl (block_writer.call be) (block_writer.ctor [] (bytes "t") (bytes "part") 0).2)

/-- Seventeen pairs with the same key. -/
def ex_equal_keys : List kv_pair_t := List.replicate 17 (bytes "k", bytes "v")

/-! ## Notions used in the statements about the front end -/

/-- The filter is in a state that its member functions leave behind: the two iterators
are in order and inside the buffer, and the buffer has room for a byte. -/
def line_filter_ok (f : to_line_filter) : Prop :=
  f.m_buffer_pos ≤ f.m_buffer_end ∧ f.m_buffer_end ≤ f.m_buffer.length ∧ 1 ≤ f.m_buffer.length

/-- The byte stream that consists of the given lines, each followed by `'\n'`. -/
def join_lines (lines : List Str) : Str := (lines.map (fun l => l ++ [newline])).flatten

/-- What `k` successive calls of `to_line_filter::read` return and leave in `line`. -/
def to_line_filter.read_many : Nat → to_line_filter → Option (List (Nat × Str) × to_line_filter)
  | 0, f => some ([], f)
  | k + 1, f =>
    match f.read with
    | none => none
    | some (ret, line, f) =>
      match to_line_filter.read_many k f with
      | none => none
      | some (rs, f) => some ((ret, line) :: rs, f)

/-- What `k` successive calls of `filter_copy_contents::read` return and leave in
`line`. -/
def filter_copy_contents.read_many :
    Nat → filter_copy_contents → Option (List (Nat × Str) × filter_copy_contents)
  | 0, f => some ([], f)
  | k + 1, f =>
    match f.read with
    | none => none
    | some (ret, line, f) =>
      match filter_copy_contents.read_many k f with
      | none => none
      | some (rs, f) => some ((ret, line) :: rs, f)

/-- The results of `k` calls that find the stream at its end: each returns `0`; the
first leaves the unterminated rest `tail` of the stream in `line`, the others leave it
empty. -/
def end_reads (tail : Str) : Nat → List (Nat × Str)
  | 0 => []
  | k + 1 => (0, tail) :: List.replicate k (0, [])

/-- The lines before the header: complete lines that do not begin with `COPY `. -/
def skipped (pre : List Str) : Prop :=
  ∀ l ∈ pre, newline ∉ l ∧ l.take m_start_pfx.length ≠ m_start_pfx

instance (pre : List Str) : Decidable (skipped pre) := by unfold skipped; infer_instance

/-- The wiring of `dump_reader::pimpl`: the COPY filter for `table_name` on a line
filter with a buffer of `buffer_size` bytes (`1024 * 1024` in the source) on the
process. -/
def pimpl_cont_filter (source : process) (buffer_size : Nat) (table_name : Str) :
    filter_copy_contents :=
  filter_copy_contents.ctor (to_line_filter.ctor source buffer_size) table_name

/-- The data rows of a COPY section: the lines before the first line `\.`. -/
def data_rows (lines : List Str) : List Str := lines.takeWhile (fun l => decide (l ≠ m_end_line))

/-! ## Notions used in the statements about the order and the header -/

/-- Lexicographic "at most" on byte strings, written out: the first string is a
beginning of the second, or at the first position where the two differ the first has the
smaller unsigned byte. -/
def lex_le (a b : Str) : Prop :=
  (∃ e, b = a ++ e) ∨
  ∃ (c : Str) (x y : Byte) (ra rb : Str), a = c ++ x :: ra ∧ b = c ++ y :: rb ∧ x.val < y.val

/-- The stream has a complete line (one that is ended by `'\n'`) that begins with
`COPY `. -/
def has_copy_line (stream : Str) : Prop :=
  ∃ (before : List Str) (line rest : Str), (∀ l ∈ before, newline ∉ l) ∧ newline ∉ line ∧
    line.take m_start_pfx.length = m_start_pfx ∧
    stream = join_lines before ++ line ++ newline :: rest

/-- The whole records at the beginning of a byte sequence, by the format of the file: as
long as the bytes left hold the two length fields and a key and a value of these
lengths, they are a record; the first bytes that do not end the list. -/
def whole_records (be : Bool) : Nat → Str → List kv_pair_t
  | 0, _ => []
  | fuel + 1, s =>
    match s with
    | a :: b :: c :: d :: rest =>
      let key_size := u16_value be [a, b]
      let val_size := u16_value be [c, d]
      if key_size + val_size ≤ rest.length then
        (rest.take key_size, (rest.drop key_size).take val_size) ::
          whole_records be fuel (rest.drop (key_size + val_size))
      else []
    | _ => []

/-- The records of the longest beginning of `s` that parses as whole records (a record
takes at least four bytes, so `s.length` steps are enough). -/
def decode (be : Bool) (s : Str) : List kv_pair_t := whole_records be s.length s

/-- A spill file whose last record is cut off: one whole record and three more
bytes. -/
def ex_fs_truncated : FileSystem :=
  [((ex_part 0).file_name, encode false [(bytes "k", bytes "v")] ++ [1, 0, 0])]

/-- A stage-2 task whose second predecessor has failed. -/
def ex_merge_failed : thread_control_block :=
  thread_control_block.ctor (bytes "t") (bytes "part2") 1 []
    [ex_part 0, (ex_part 1).set_error (some (error.runtime_error (bytes "No space left")))]

/-! ## Notions used in the statements about `std::sort` -/

instance (comp : kv_pair_t → kv_pair_t → Bool) (xs : List kv_pair_t) :
    Decidable (strict_weak_ordering_on comp xs) := by
  unfold strict_weak_ordering_on; infer_instance

/-- What the C++ standard says about `std::sort` (`[sort]`, `[alg.sorting]`): when `comp`
induces a strict weak ordering on the values of the vector, the vector after the call is
a rearrangement of the vector before it in which no element is `comp`-before an earlier
one.  For any other comparator the standard says nothing about the call. -/
def meets_sort_requirements (s : sort_function) : Prop :=
  ∀ comp xs, strict_weak_ordering_on comp xs →
    (s comp xs).Perm xs ∧ (s comp xs).Pairwise (fun a b => comp b a = false)

/-- A function that meets the requirements on `std::sort`: an insertion sort where the
standard says what the call does, and elsewhere a vector of the same size that holds
its first element at every place. -/
def ex_sort : sort_function := fun comp xs =>
  if strict_weak_ordering_on comp xs then
    (xs.attach.insertionSort (fun p q => comp q.1 p.1 = false)).map Subtype.val
  else List.replicate xs.length (xs.headD ([], []))

/-- Seventeen pairs with the same key and different values. -/
def ex_equal_keys_values : List kv_pair_t :=
  (List.range 17).map (fun i => (bytes "k", [Fin.ofNat i]))

/-! ## Notions used in the statements about the coordinator -/

mutual
/-- A task and all tasks below it: its predecessors, their predecessors, and so on. -/
def all_tasks : thread_control_block → List thread_control_block
  | thread_control_block.mk s p n l w e => thread_control_block.mk s p n l w e :: all_tasks_list w
/-- The tasks of a list and all tasks below them. -/
def all_tasks_list : List thread_control_block → List thread_control_block
  | [] => []
  | t :: ts => all_tasks t ++ all_tasks_list ts
end

/-- All tasks that the coordinator has spawned and not yet destroyed: a task is held by
one of the three lists or is a predecessor of a task that is. -/
def db_writer.spawned (w : db_writer) : List thread_control_block :=
  all_tasks_list (w.m_blocks ++ w.m_blocks2 ++ w.m_blocks3)

/-- Stage and block number of a task, the two arguments of `file_name()` that differ
between the tasks of a coordinator. -/
def thread_control_block.stage_key (t : thread_control_block) : Str × Nat :=
  (t.m_pfx, t.m_block_number)

/-- A call that reaches the coordinator: `put(k, v)`, or the `flush_block()` that `finish`
makes. -/
inductive coordinator_call where
  | put (k v : Str) : coordinator_call
  | flush_block : coordinator_call

/-- The coordinator after a call; a `put` that throws leaves it as it was. -/
def db_writer.call (w : db_writer) : coordinator_call → db_writer
  | coordinator_call.put k v => (w.put k v).2
  | coordinator_call.flush_block => w.flush_block

/-- The coordinator after a sequence of calls. -/
def db_writer.calls (w : db_writer) (cs : List coordinator_call) : db_writer :=
  cs.foldl db_writer.call w

/-- Does `put(k, v)` get to its call of `flush_block`?  It does when neither check throws
and the byte count with the new pair is above the maximum. -/
def db_writer.put_flushes (w : db_writer) (k v : Str) : Bool :=
  decide (¬ k.length > uint16_max) && decide (¬ v.length > uint16_max) &&
    decide (w.m_bytes_this_block + (k.length + v.length + 2 * 2) > MAX_MERGESORT_BLOCK_SIZE)

/-- The number of times `flush_block` runs during a sequence of calls. -/
def db_writer.flushes (w : db_writer) : List coordinator_call → Nat
  | [] => 0
  | coordinator_call.put k v :: cs =>
    (if w.put_flushes k v then 1 else 0) + db_writer.flushes (w.put k v).2 cs
  | coordinator_call.flush_block :: cs => 1 + db_writer.flushes w.flush_block cs

/-- The digit that a character of a `%x` conversion stands for. -/
def hex_digit_value (c : Byte) : Nat := if c.val < 58 then c.val - 48 else c.val - 87

/-- The number that a string of hexadecimal digits stands for. -/
def hex_value (s : Str) : Nat := s.foldl (fun acc c => acc * 16 + hex_digit_value c) 0

/-- The bytes that a batch accounts for: `key_len + val_len + 4` for each of its
pairs. -/
def batch_bytes (l : List kv_pair_t) : Nat :=
  (l.map (fun kv => kv.1.length + kv.2.length + 4)).sum

/-- The shape of a task that the coordinator of table `table_name` has spawned before
the run `n` of `flush_block`: a stage-1 task has no predecessors and a batch within the
byte limit; a stage-2 task has no batch, its block number `b` is the one of a sixteenth
run and it waits for the stage-1 tasks with the block numbers `b - 15, ..., b`; a stage-3
task has no batch, its block number `b` is the one of a 256th run and it waits for the
stage-2 tasks with the block numbers `b - 240, b - 224, ..., b`. -/
def task_shape (table_name : Str) (n : Nat) (t : thread_control_block) : Prop :=
  t.m_subdir = table_name ∧ t.m_error = none ∧ t.m_block_number < n ∧
  ((t.m_pfx = bytes "part" ∧ t.m_waits = [] ∧
      batch_bytes t.m_strings ≤ MAX_MERGESORT_BLOCK_SIZE) ∨
   (t.m_pfx = bytes "part2" ∧ t.m_strings = [] ∧ t.m_block_number % 16 = 15 ∧
      t.m_waits.map thread_control_block.stage_key =
        (List.range' (t.m_block_number - 15) 16).map (fun b => (bytes "part", b))) ∨
   (t.m_pfx = bytes "part3" ∧ t.m_strings = [] ∧ t.m_block_number % 256 = 255 ∧
      t.m_waits.map thread_control_block.stage_key =
        (List.range 16).map (fun i => (bytes "part2", t.m_block_number - 240 + 16 * i))))

/-- The state of the coordinator of table `table_name` after `n` runs of `flush_block`:
the block counter, the stages and block numbers of the tasks in the three lists, the
shape of every spawned task, their number in each stage, and the byte count. -/
structure coordinator_inv (table_name : Str) (w : db_writer) (n : Nat) : Prop where
  subdir : w.m_subdir = table_name
  counter : w.m_block_counter = n
  blocks : w.m_blocks.map thread_control_block.stage_key =
    (List.range' (n - n % 16) (n % 16)).map (fun b => (bytes "part", b))
  blocks2 : w.m_blocks2.map thread_control_block.stage_key =
    (List.range (n / 16 % 16)).map (fun i => (bytes "part2", n / 256 * 256 + 16 * i + 15))
  blocks3 : w.m_blocks3.map thread_control_block.stage_key =
    (List.range (n / 256)).map (fun j => (bytes "part3", 256 * j + 255))
  shape : ∀ t ∈ w.spawned, task_shape table_name n t
  nodup : (w.spawned.map thread_control_block.stage_key).Nodup
  stage1 : ∀ b < n, (bytes "part", b) ∈ w.spawned.map thread_control_block.stage_key
  count1 : w.spawned.countP (fun t => decide (t.m_pfx = bytes "part")) = n
  count2 : w.spawned.countP (fun t => decide (t.m_pfx = bytes "part2")) = n / 16
  count3 : w.spawned.countP (fun t => decide (t.m_pfx = bytes "part3")) = n / 256
  bytes_sum : w.m_bytes_this_block = batch_bytes w.m_strings
  bytes_max : w.m_bytes_this_block ≤ MAX_MERGESORT_BLOCK_SIZE

/-! ## The threads of the tasks, run one after the other -/

/-- The loop `while (!readers.empty())` of `run_merge` once more: the vector `readers` at
the beginning of every round.  A round calls `value()` on every reader of the vector,
on the first one for `min_pair` and on the others in the scan. -/
def merge_loop_trace (be : Bool) : Nat → List block_reader → List (List block_reader)
  | 0, _ => []
  | fuel + 1, readers =>
    match readers with
    | [] => []
    | r0 :: rest =>
      match readers.get? (find_min 0 r0.value 1 rest).1 with
      | none => [readers]
      | some r =>
        if (r.next be).at_end then
          readers :: merge_loop_trace be fuel (readers.eraseIdx (find_min 0 r0.value 1 rest).1)
        else
          readers ::
            merge_loop_trace be fuel (readers.set (find_min 0 r0.value 1 rest).1 (r.next be))

/-- The rounds of the merge loop of a call of `run_merge`: none in the branch of the
single predecessor and when the first loop throws. -/
def run_merge_rounds (be : Bool) (fs : FileSystem) (t : thread_control_block) :
    List (List block_reader) :=
  match t.m_waits with
  | [_] => []
  | waits =>
    match open_readers be fs waits with
    | Except.error _ => []
    | Except.ok readers => merge_loop_trace be (merge_rounds readers) readers

mutual
/-- The thread of a task and the threads of all tasks below it, run to their ends one
after the other: a thread runs when the thread that waits for it gets to its `join`, the
predecessors in the order of `m_waits`.  The result is the filesystem and the task after
the run, and the calls of `run_merge` that were made, each with the filesystem that it
found and the task. -/
def run_all (std_sort : sort_function) (be : Bool) :
    thread_control_block → FileSystem →
      Option (FileSystem × thread_control_block × List (FileSystem × thread_control_block))
  | thread_control_block.mk s p n l w e, fs =>
    match run_all_list std_sort be w fs with
    | none => none
    | some (fs1, w1, merges) =>
      match run std_sort be fs1 (thread_control_block.mk s p n l w1 e) with
      | none => none
      | some (fs2, t) =>
        some (fs2, t,
          if w1.length > 0 then merges ++ [(fs1, thread_control_block.mk s p n l w1 e)]
          else merges)
/-- The threads of the tasks of a list and of all tasks below them. -/
def run_all_list (std_sort : sort_function) (be : Bool) :
    List thread_control_block → FileSystem →
      Option (FileSystem × List thread_control_block ×
        List (FileSystem × thread_control_block))
  | [], fs => some (fs, [], [])
  | t :: ts, fs =>
    match run_all std_sort be t fs with
    | none => none
    | some (fs1, t1, merges1) =>
      match run_all_list std_sort be ts fs1 with
      | none => none
      | some (fs2, ts1, merges2) => some (fs2, t1 :: ts1, merges1 ++ merges2)
end

/-- An insertion sort with the comparator in the place of "at most". -/
def ex_insertion_sort : sort_function :=
  fun comp xs => xs.insertionSort (fun a b => comp a b = true)

/-- A call of `run_merge`, given by the filesystem that it finds and the task, is safe:
the file of every predecessor is there and holds at least one whole record, and in no
round of the merge loop a reader of the vector `readers` is at its end, so that
`value()` is not called on a reader that is at its end. -/
def merge_call_safe (be : Bool) (m : FileSystem × thread_control_block) : Prop :=
  (∀ p ∈ m.2.m_waits, ∃ c, fs_read m.1 p.file_name = some c ∧ decode be c ≠ []) ∧
  ∀ rs ∈ run_merge_rounds be m.1 m.2, ∀ r ∈ rs, r.at_end = false

/-- The tasks `ts` are as the coordinator spawns them: none has a captured exception, the
batch of a task without predecessors is not empty and its pairs are within the size
limit and have no empty key or value, and no two tasks have the same file name. -/
def tasks_ready (ts : List thread_control_block) : Prop :=
  (∀ u ∈ ts, u.m_error = none ∧
    (u.m_waits = [] → u.m_strings ≠ [] ∧ ∀ kv ∈ u.m_strings, readable kv)) ∧
  (ts.map thread_control_block.file_name).Nodup

/-- The run of the thread of `t` and of the threads below it ends; then `t` has no
captured exception, its file holds the records of a non-empty list of pairs within the
size limit and without an empty key or value, the files that are not files of these
tasks are as before, and every call of `run_merge` that was made is safe. -/
def run_all_result (std_sort : sort_function) (be : Bool) (t : thread_control_block)
    (fs : FileSystem) : Prop :=
  ∃ fs' t' merges L, run_all std_sort be t fs = some (fs', t', merges) ∧
    t'.m_error = none ∧ t'.file_name = t.file_name ∧
    fs_read fs' t.file_name = some (encode be L) ∧ (∀ kv ∈ L, readable kv) ∧ L ≠ [] ∧
    (∀ name, name ∉ (all_tasks t).map thread_control_block.file_name →
      fs_read fs' name = fs_read fs name) ∧
    ∀ m ∈ merges, merge_call_safe be m

/-- All pairs in the batches of the coordinator and of the stage-1 tasks have the
property `P`. -/
def batches_hold (P : kv_pair_t → Prop) (w : db_writer) : Prop :=
  (∀ t ∈ w.spawned, t.m_pfx = bytes "part" → ∀ kv ∈ t.m_strings, P kv) ∧
  ∀ kv ∈ w.m_strings, P kv

/-- A batch that accounts for exactly `67108864` bytes: 1024 pairs with different keys
of two bytes and values of 65530 bytes. -/
def ex_full_batch : List kv_pair_t :=
  (List.range 1024).map
    (fun i => ([Fin.ofNat (i / 256), Fin.ofNat (i % 256)], List.replicate 65530 0))

/-- The batches of the coordinator and of the stage-1 tasks hold pairs within the size
limit, and no stage-1 task has an empty batch. -/
def batches_ready (w : db_writer) : Prop :=
  (∀ t ∈ w.spawned, t.m_pfx = bytes "part" → t.m_strings ≠ [] ∧ ∀ kv ∈ t.m_strings, fits kv) ∧
  ∀ kv ∈ w.m_strings, fits kv

/-! # Theorems -/

/-! ## The record codec -/

theorem u16_bytes_length (be : Bool) (n : Nat) : (u16_bytes be n).length = 2 := by
  unfold u16_bytes; cases be <;> simp

theorem u16_value_bytes (be : Bool) (n : Nat) (h : n < 65536) :
    u16_value be (u16_bytes be n) = n := by
  unfold u16_value u16_bytes
  cases be <;> simp [Fin.ofNat] <;> omega

theorem resize_length (s : Str) (n : Nat) : (resize s n).length = n := by
  unfold resize; simp; omega

theorem read_into_full (s got : Str) (h : s.length = got.length) : read_into s got = got := by
  unfold read_into
  rw [List.drop_of_length_le (by omega)]; simp

theorem call_foldl_stream (be : Bool) (l : List kv_pair_t) (w : block_writer) :
    (l.foldl (block_writer.call be) w).m_stream = w.m_stream ++ encode be l := by
  induction l generalizing w with
  | nil => simp [encode]
  | cons kv l ih =>
    rw [List.foldl_cons, ih]
    simp [block_writer.call, encode, record, List.append_assoc]

theorem call_foldl_file_name (be : Bool) (l : List kv_pair_t) (w : block_writer) :
    (l.foldl (block_writer.call be) w).file_name = w.file_name := by
  induction l generalizing w with
  | nil => rfl
  | cons kv l ih => rw [List.foldl_cons, ih]; rfl

theorem bio_read_result_eq (got : Str) (n : Nat) (hn : 0 < n) (h : got.length = n) :
    bio_read_result got = (n : Int) := by
  unfold bio_read_result
  rw [if_neg (by omega), h]

theorem bio_read_result_ne (got : Str) (n : Nat) (h : got.length ≠ n) :
    bio_read_result got ≠ (n : Int) := by
  unfold bio_read_result
  split
  · omega
  · intro he
    exact h (by exact_mod_cast he)

theorem bio_read_result_nil (n : Nat) : bio_read_result [] ≠ (n : Int) := by
  unfold bio_read_result
  simp only [List.length_nil, if_true]
  omega

theorem bio_read_result_inv (got : Str) (n : Nat) (h : bio_read_result got = (n : Int)) :
    got.length = n ∧ 0 < n := by
  unfold bio_read_result at h
  split at h
  · omega
  · have e : got.length = n := by exact_mod_cast h
    omega

theorem next_nil (be : Bool) (r : block_reader) (h : r.m_stream = []) :
    r.next be = { r with m_end := true } := by
  unfold block_reader.next bio_read
  have := bio_read_result_nil 2
  simp only [h, List.take_nil, List.drop_nil]
  rw [if_pos (by exact_mod_cast this)]

theorem next_record (be : Bool) (r : block_reader) (kv : kv_pair_t) (rest : Str)
    (hf : readable kv) (h : r.m_stream = record be kv ++ rest) :
    r.next be = { r with m_stream := rest, m_current := kv } := by
  obtain ⟨k, v⟩ := kv
  obtain ⟨⟨hk, hv⟩, hk0, hv0⟩ := hf
  simp only at hk hv hk0 hv0
  have hkpos : 0 < k.length := List.length_pos.mpr hk0
  have hvpos : 0 < v.length := List.length_pos.mpr hv0
  have e1 : to_uint16 k.length = k.length := Nat.mod_eq_of_lt hk
  have e2 : to_uint16 v.length = v.length := Nat.mod_eq_of_lt hv
  have hs : r.m_stream = u16_bytes be k.length ++ (u16_bytes be v.length ++ (k ++ (v ++ rest))) := by
    rw [h]; simp [record, e1, e2, List.append_assoc]
  have l1 := u16_bytes_length be k.length
  have l2 := u16_bytes_length be v.length
  have t1 : List.take 2 r.m_stream = u16_bytes be k.length := by
    rw [hs, List.take_append_of_le_length (by omega), List.take_of_length_le (by omega)]
  have d1 : List.drop 2 r.m_stream = u16_bytes be v.length ++ (k ++ (v ++ rest)) := by
    rw [hs, List.drop_append_of_le_length (by omega), List.drop_of_length_le (by omega)]; simp
  have t2 : List.take 2 (u16_bytes be v.length ++ (k ++ (v ++ rest))) = u16_bytes be v.length := by
    rw [List.take_append_of_le_length (by omega), List.take_of_length_le (by omega)]
  have d2 : List.drop 2 (u16_bytes be v.length ++ (k ++ (v ++ rest))) = k ++ (v ++ rest) := by
    rw [List.drop_append_of_le_length (by omega), List.drop_of_length_le (by omega)]; simp
  have r1 : bio_read_result (u16_bytes be k.length) = 2 :=
    bio_read_result_eq _ 2 (by decide) l1
  have r2 : bio_read_result (u16_bytes be v.length) = 2 :=
    bio_read_result_eq _ 2 (by decide) l2
  have r3 : bio_read_result k = (k.length : Int) := bio_read_result_eq _ _ hkpos rfl
  have r4 : bio_read_result v = (v.length : Int) := bio_read_result_eq _ _ hvpos rfl
  unfold block_reader.next bio_read
  simp only [t1, d1, t2, d2, r1, r2, r3, r4, u16_value_bytes be _ hk, u16_value_bytes be _ hv,
    List.take_left', List.drop_left', ne_eq, not_true_eq_false, if_false, ite_false]
  simp [read_into_full, resize_length]

/-! ## Filesystem and reader -/

theorem fs_read_remove_same (fs : FileSystem) (name : Str) : fs_read (fs_remove fs name) name = none := by
  induction fs with
  | nil => rfl
  | cons e fs ih =>
    obtain ⟨n, c⟩ := e
    by_cases h : n = name
    · simp [fs_remove, List.filter_cons, h]; simpa [fs_remove] using ih
    · simp only [fs_remove, List.filter_cons, ne_eq, h, not_false_eq_true, decide_True, if_true]
      simp only [fs_read, h, if_false]; simpa [fs_remove] using ih

theorem fs_read_remove_other (fs : FileSystem) (name other : Str) (h : other ≠ name) :
    fs_read (fs_remove fs name) other = fs_read fs other := by
  induction fs with
  | nil => rfl
  | cons e fs ih =>
    obtain ⟨n, c⟩ := e
    have ih2 : fs_read (List.filter (fun e => decide (e.1 ≠ name)) fs) other = fs_read fs other := ih
    by_cases hn : n = name
    · have hno : ¬ n = other := by rw [hn]; exact fun e => h e.symm
      simp only [fs_remove, List.filter_cons, hn, ne_eq, not_true_eq_false, decide_False]
      rw [← hn]
      simp only [fs_read, hno, if_false]
      rw [hn]; exact ih2
    · simp only [fs_remove, List.filter_cons, ne_eq, hn, not_false_eq_true, decide_True, if_true]
      simp only [fs_read]
      split
      · rfl
      · exact ih2

theorem fs_read_write_same (fs : FileSystem) (name c : Str) : fs_read (fs_write fs name c) name = some c := by
  simp [fs_write, fs_read]

theorem fs_read_write_other (fs : FileSystem) (name other c : Str) (h : other ≠ name) :
    fs_read (fs_write fs name c) other = fs_read fs other := by
  simp only [fs_write, fs_read]
  rw [if_neg (fun e => h e.symm)]
  exact fs_read_remove_other fs name other h

theorem ctor_writer_read (fs : FileSystem) (subdir bit : Str) (n : Nat) :
    fs_read (block_writer.ctor fs subdir bit n).1 (format_file_name subdir bit n) = some [] := by
  simp [block_writer.ctor, fs_read_write_same]

theorem ctor_writer_read_other (fs : FileSystem) (subdir bit : Str) (n : Nat) (other : Str)
    (h : other ≠ format_file_name subdir bit n) :
    fs_read (block_writer.ctor fs subdir bit n).1 other = fs_read fs other := by
  simp only [block_writer.ctor]
  rw [fs_read_write_other _ _ _ _ h]
  split
  · exact fs_read_remove_other _ _ _ h
  · rfl

theorem iterate_next_encode (be : Bool) (l : List kv_pair_t) (hl : ∀ kv ∈ l, readable kv)
    (r : block_reader) (hend : r.m_end = false) (kv0 : kv_pair_t) (rest : Str)
    (hcur : r.m_current = kv0) (hs : r.m_stream = encode be l ++ rest) :
    ∀ i, i ≤ l.length →
      ((block_reader.next be)^[i] r).m_end = false ∧
      (kv0 :: l)[i]? = some ((block_reader.next be)^[i] r).m_current ∧
      ((block_reader.next be)^[i] r).m_stream = encode be (l.drop i) ++ rest := by
  induction l generalizing r kv0 with
  | nil =>
    intro i hi
    have : i = 0 := by simpa using hi
    subst this
    simp [hend, hcur, hs]
  | cons kv l ih =>
    intro i hi
    cases i with
    | zero => simp [hend, hcur, hs]
    | succ i =>
      have hn := next_record be r kv (encode be l ++ rest) (hl kv (List.mem_cons_self _ _))
        (by rw [hs]; simp [encode, List.append_assoc])
      rw [Function.iterate_succ_apply]
      have := ih (fun x hx => hl x (List.mem_cons_of_mem _ hx)) (r.next be)
        (by rw [hn]; exact hend) kv (by rw [hn]) (by rw [hn]) i (by simpa using hi)
      simpa using this

/-! ## Order, lists and the scan for the minimum -/

theorem compare_first_keys_iff (a b : Str) : compare_first_keys a b = true ↔ a ≤ b := by
  induction a generalizing b with
  | nil => simp [compare_first_keys, List.nil_le]
  | cons x a ih =>
    cases b with
    | nil =>
      simp only [compare_first_keys, Bool.false_eq_true, false_iff, not_le]
      exact List.nil_lt_cons x a
    | cons y b =>
      simp only [compare_first_keys]
      rcases lt_trichotomy x y with h | h | h
      · simp only [h, if_true, true_iff]
        exact le_of_lt (List.Lex.rel h)
      · subst h
        simp only [lt_irrefl, if_false, gt_iff_lt]
        rw [ih b, ← not_lt, ← not_lt]
        exact not_congr (List.Lex.cons_iff).symm
      · have h' : ¬ x < y := not_lt.mpr (le_of_lt h)
        simp only [h', if_false, gt_iff_lt, h, if_true, Bool.false_eq_true, false_iff, not_le]
        exact List.Lex.rel h

theorem compare_first_iff (a b : kv_pair_t) : compare_first a b = true ↔ a.1 ≤ b.1 :=
  compare_first_keys_iff a.1 b.1

theorem forall₂_getElem? {α β : Type} {R : α → β → Prop} {l1 : List α} {l2 : List β}
    (h : List.Forall₂ R l1 l2) (i : Nat) (a : α) (ha : l1[i]? = some a) :
    ∃ b, l2[i]? = some b ∧ R a b := by
  induction h generalizing i with
  | nil => simp at ha
  | cons hab _ ih =>
    cases i with
    | zero => simp at ha; subst ha; exact ⟨_, by simp, hab⟩
    | succ i => simpa using ih i (by simpa using ha)

theorem forall₂_set {α β : Type} {R : α → β → Prop} {l1 : List α} {l2 : List β}
    (h : List.Forall₂ R l1 l2) (i : Nat) (a : α) (b : β) (hab : R a b) :
    List.Forall₂ R (l1.set i a) (l2.set i b) := by
  induction h generalizing i with
  | nil => simp
  | cons hxy _ ih =>
    cases i with
    | zero => simp only [List.set_cons_zero]; exact List.Forall₂.cons hab (by assumption)
    | succ i => simp only [List.set_cons_succ]; exact List.Forall₂.cons hxy (ih i)

theorem forall₂_eraseIdx {α β : Type} {R : α → β → Prop} {l1 : List α} {l2 : List β}
    (h : List.Forall₂ R l1 l2) (i : Nat) :
    List.Forall₂ R (l1.eraseIdx i) (l2.eraseIdx i) := by
  induction h generalizing i with
  | nil => simp
  | cons hxy hrest ih =>
    cases i with
    | zero => simpa using hrest
    | succ i => simp only [List.eraseIdx_cons_succ]; exact List.Forall₂.cons hxy (ih i)

theorem forall₂_mem_right {α β : Type} {R : α → β → Prop} {l1 : List α} {l2 : List β}
    (h : List.Forall₂ R l1 l2) (b : β) (hb : b ∈ l2) : ∃ a ∈ l1, R a b := by
  induction h with
  | nil => simp at hb
  | cons hxy _ ih =>
    rcases List.mem_cons.mp hb with e | e
    · subst e; exact ⟨_, List.mem_cons_self _ _, hxy⟩
    · obtain ⟨a, ha, hr⟩ := ih e
      exact ⟨a, List.mem_cons_of_mem _ ha, hr⟩

theorem flatten_set_perm {α : Type} (Ls : List (List α)) (j : Nat) (p : α) (tl : List α)
    (h : Ls[j]? = some (p :: tl)) : (p :: (Ls.set j tl).flatten).Perm Ls.flatten := by
  induction Ls generalizing j with
  | nil => simp at h
  | cons L Ls ih =>
    cases j with
    | zero =>
      simp at h; subst h; simp
    | succ j =>
      simp only [List.set_cons_succ, List.flatten_cons]
      have := ih j (by simpa using h)
      exact (List.perm_middle.symm).trans (List.Perm.append_left L this)

theorem flatten_eraseIdx_perm {α : Type} (Ls : List (List α)) (j : Nat) (p : α)
    (h : Ls[j]? = some [p]) : (p :: (Ls.eraseIdx j).flatten).Perm Ls.flatten := by
  induction Ls generalizing j with
  | nil => simp at h
  | cons L Ls ih =>
    cases j with
    | zero =>
      simp at h; subst h; simp
    | succ j =>
      simp only [List.eraseIdx_cons_succ, List.flatten_cons]
      have := ih j (by simpa using h)
      exact (List.perm_middle.symm).trans (List.Perm.append_left L this)

theorem mem_of_mem_set {α : Type} (l : List α) (j : Nat) (a x : α) (h : x ∈ l.set j a) :
    x = a ∨ x ∈ l := by
  induction l generalizing j with
  | nil => simp at h
  | cons y l ih =>
    cases j with
    | zero =>
      simp only [List.set_cons_zero, List.mem_cons] at h
      rcases h with h | h
      · exact Or.inl h
      · exact Or.inr (List.mem_cons_of_mem _ h)
    | succ j =>
      simp only [List.set_cons_succ, List.mem_cons] at h
      rcases h with h | h
      · exact Or.inr (by rw [h]; exact List.mem_cons_self _ _)
      · rcases ih j h with e | e
        · exact Or.inl e
        · exact Or.inr (List.mem_cons_of_mem _ e)

theorem mem_of_mem_eraseIdx {α : Type} (l : List α) (j : Nat) (x : α) (h : x ∈ l.eraseIdx j) :
    x ∈ l := by
  induction l generalizing j with
  | nil => simp at h
  | cons y l ih =>
    cases j with
    | zero => simp only [List.eraseIdx_cons_zero] at h; exact List.mem_cons_of_mem _ h
    | succ j =>
      simp only [List.eraseIdx_cons_succ, List.mem_cons] at h
      rcases h with h | h
      · rw [h]; exact List.mem_cons_self _ _
      · exact List.mem_cons_of_mem _ (ih j h)

/-- What the scan of `run_merge` for the minimum returns. -/
theorem find_min_spec (pre rest : List block_reader) (mi : Nat) (mp : kv_pair_t)
    (hmi : Option.map block_reader.value pre[mi]? = some mp)
    (hle : ∀ r ∈ pre, compare_first mp r.value = true) :
    ∃ r, (pre ++ rest)[(find_min mi mp pre.length rest).1]? = some r ∧
      r.value = (find_min mi mp pre.length rest).2 ∧
      ∀ r' ∈ pre ++ rest, compare_first (find_min mi mp pre.length rest).2 r'.value = true := by
  induction rest generalizing pre mi mp with
  | nil =>
    simp only [find_min, List.append_nil]
    cases hg : pre[mi]? with
    | none => simp [hg] at hmi
    | some r =>
      refine ⟨r, rfl, ?_, hle⟩
      simpa [hg] using hmi
  | cons r rest ih =>
    simp only [find_min]
    have hlen : (pre ++ [r]).length = pre.length + 1 := by simp
    split
    · rename_i hc
      have := ih (pre ++ [r]) pre.length r.value (by simp)
        (by
          intro r' hr'
          rcases List.mem_append.mp hr' with h | h
          · have h1 := (compare_first_iff _ _).mp hc
            have h2 := (compare_first_iff _ _).mp (hle r' h)
            exact (compare_first_iff _ _).mpr (le_trans h1 h2)
          · simp at h; subst h
            exact (compare_first_iff _ _).mpr (le_refl _))
      rw [hlen] at this
      simpa [List.append_assoc] using this
    · rename_i hc
      have := ih (pre ++ [r]) mi mp
        (by
          cases hg : pre[mi]? with
          | none => simp [hg] at hmi
          | some r0 =>
            have hlt : mi < pre.length := by
              by_contra hcon
              rw [List.getElem?_eq_none (by omega)] at hg
              cases hg
            rw [List.getElem?_append_left hlt, hg]
            simpa [hg] using hmi)
        (by
          intro r' hr'
          rcases List.mem_append.mp hr' with h | h
          · exact hle r' h
          · simp at h; subst h
            have h1 : ¬ r'.value.1 ≤ mp.1 := fun hh => hc ((compare_first_iff _ _).mpr hh)
            exact (compare_first_iff _ _).mpr (le_of_lt (not_le.mp h1)))
      rw [hlen] at this
      simpa [List.append_assoc] using this

/-! ## The loop of `run_merge` -/

theorem fs_read_remove (fs : FileSystem) (name x : Str) :
    fs_read (fs_remove fs name) x = if x = name then none else fs_read fs x := by
  by_cases h : x = name
  · subst h; simp [fs_read_remove_same]
  · simp [h, fs_read_remove_other fs name x h]

/-- The measure that decreases in every round of the loop of `run_merge`. -/
theorem merge_rounds_cons (r : block_reader) (rs : List block_reader) :
    merge_rounds (r :: rs) = merge_rounds rs + (r.m_stream.length + 1) := by
  simp [merge_rounds]; omega

theorem merge_rounds_set (rs : List block_reader) (j : Nat) (r r' : block_reader)
    (h : rs[j]? = some r) :
    merge_rounds (rs.set j r') + r.m_stream.length = merge_rounds rs + r'.m_stream.length := by
  induction rs generalizing j with
  | nil => simp at h
  | cons x rs ih =>
    cases j with
    | zero =>
      simp at h; subst h
      simp only [List.set_cons_zero, merge_rounds_cons]; omega
    | succ j =>
      have := ih j (by simpa using h)
      simp only [List.set_cons_succ, merge_rounds_cons]; omega

theorem merge_rounds_eraseIdx (rs : List block_reader) (j : Nat) (r : block_reader)
    (h : rs[j]? = some r) :
    merge_rounds (rs.eraseIdx j) + (r.m_stream.length + 1) = merge_rounds rs := by
  induction rs generalizing j with
  | nil => simp at h
  | cons x rs ih =>
    cases j with
    | zero =>
      simp at h; subst h
      simp only [List.eraseIdx_cons_zero, merge_rounds_cons]
    | succ j =>
      have := ih j (by simpa using h)
      simp only [List.eraseIdx_cons_succ, merge_rounds_cons]; omega

theorem names_set (rs : List block_reader) (j : Nat) (r r' : block_reader)
    (h : rs[j]? = some r) (hn : r'.file_name = r.file_name) :
    (rs.set j r').map block_reader.file_name = rs.map block_reader.file_name := by
  induction rs generalizing j with
  | nil => simp
  | cons x rs ih =>
    cases j with
    | zero => simp at h; subst h; simp [hn]
    | succ j => simp only [List.set_cons_succ, List.map_cons]; rw [ih j (by simpa using h)]

theorem mem_names_eraseIdx (rs : List block_reader) (j : Nat) (r : block_reader)
    (h : rs[j]? = some r) (x : Str) :
    x ∈ rs.map block_reader.file_name ↔
      (x = r.file_name ∨ x ∈ (rs.eraseIdx j).map block_reader.file_name) := by
  induction rs generalizing j with
  | nil => simp at h
  | cons y rs ih =>
    cases j with
    | zero => simp at h; subst h; simp
    | succ j =>
      have := ih j (by simpa using h)
      simp only [List.eraseIdx_cons_succ, List.map_cons, List.mem_cons, this]
      tauto

theorem encode_nil (be : Bool) : encode be [] = [] := rfl

theorem encode_cons (be : Bool) (kv : kv_pair_t) (l : List kv_pair_t) :
    encode be (kv :: l) = record be kv ++ encode be l := by
  simp [encode]

theorem record_length (be : Bool) (kv : kv_pair_t) : 4 ≤ (record be kv).length := by
  simp [record, u16_bytes_length]; omega

theorem call_stream (be : Bool) (w : block_writer) (kv : kv_pair_t) :
    block_writer.call be w kv = { w with m_stream := w.m_stream ++ record be kv } := by
  simp [block_writer.call, record, List.append_assoc]

/-- The loop of `run_merge` on readers that stand on sorted, non-empty lists: it ends,
what it writes is a sorted arrangement of all their pairs, and exactly the files of the
readers are removed. -/
theorem merge_loop_spec (be : Bool) : ∀ (fuel : Nat) (fs : FileSystem) (rs : List block_reader)
    (Ls : List (List kv_pair_t)) (w : block_writer),
    List.Forall₂ (reader_at be) rs Ls → (∀ L ∈ Ls, ∀ kv ∈ L, readable kv) →
    (∀ L ∈ Ls, sorted_by_key L) → merge_rounds rs ≤ fuel →
    ∃ out fs', merge_loop be fuel fs rs w =
        some (fs', { w with m_stream := w.m_stream ++ encode be out }) ∧
      out.Perm Ls.flatten ∧ sorted_by_key out ∧
      ∀ name, fs_read fs' name =
        if name ∈ rs.map block_reader.file_name then none else fs_read fs name := by
  intro fuel
  induction fuel with
  | zero =>
    intro fs rs Ls w _ _ _ hfuel
    simp [merge_rounds] at hfuel
  | succ fuel ih =>
    intro fs rs Ls w hR hfit hsort hfuel
    cases rs with
    | nil =>
      cases hR
      exact ⟨[], fs, by simp [merge_loop, encode_nil], by simp, by simp [sorted_by_key],
        by simp⟩
    | cons r0 rest =>
      obtain ⟨rj, hj, hval, hmin⟩ := find_min_spec [r0] rest 0 r0.value (by simp)
        (by intro r hr; simp at hr; subst hr; exact (compare_first_iff _ _).mpr (le_refl _))
      simp only [List.length_singleton, List.singleton_append] at hj hval hmin
      generalize hfm : find_min 0 r0.value 1 rest = res at hj hval hmin
      obtain ⟨j, p⟩ := res
      simp only at hj hval hmin
      obtain ⟨L, hL, hat⟩ := forall₂_getElem? hR j rj hj
      obtain ⟨kv, tl, hLe, hend, hcur, hstream⟩ := hat
      have hp : kv = p := by rw [← hcur]; exact hval
      subst hp
      have hLmem : (kv :: tl) ∈ Ls := by rw [← hLe]; exact List.mem_iff_getElem?.mpr ⟨j, hL⟩
      have hrjmem : rj ∈ r0 :: rest := List.mem_iff_getElem?.mpr ⟨j, hj⟩
      -- every pair still to be written is not below the minimum
      have hlow : ∀ x ∈ Ls.flatten, kv.1 ≤ x.1 := by
        intro x hx
        obtain ⟨L', hL', hxL'⟩ := List.mem_flatten.mp hx
        obtain ⟨r', hr', hat'⟩ := forall₂_mem_right hR L' hL'
        obtain ⟨h', t', hL'e, _, hcur', _⟩ := hat'
        have h1 : kv.1 ≤ h'.1 := by
          have := (compare_first_iff _ _).mp (hmin r' hr')
          rw [block_reader.value, hcur'] at this
          exact this
        rw [hL'e] at hxL'
        rcases List.mem_cons.mp hxL' with e | e
        · rw [e]; exact h1
        · have hs := hsort L' hL'
          rw [hL'e, sorted_by_key, List.pairwise_cons] at hs
          exact le_trans h1 (hs.1 x e)
      cases tl with
      | nil =>
        have hnext : rj.next be = { rj with m_end := true } :=
          next_nil be rj (by rw [hstream]; rfl)
        have hR' := forall₂_eraseIdx hR j
        obtain ⟨out, fs', hloop, hperm, hsorted, hfs⟩ :=
          ih (fs_remove fs rj.file_name) ((r0 :: rest).eraseIdx j) (Ls.eraseIdx j)
            (w.call be kv) hR'
            (fun L hL' => hfit L (mem_of_mem_eraseIdx _ _ _ hL'))
            (fun L hL' => hsort L (mem_of_mem_eraseIdx _ _ _ hL'))
            (by have := merge_rounds_eraseIdx (r0 :: rest) j rj hj; omega)
        have hpm : (kv :: (Ls.eraseIdx j).flatten).Perm Ls.flatten :=
          flatten_eraseIdx_perm Ls j kv (by rw [hL, hLe])
        refine ⟨kv :: out, fs', ?_, ?_, ?_, ?_⟩
        · simp only [merge_loop, hfm, List.get?_eq_getElem?, hj, hnext, block_reader.at_end,
            if_true]
          simp only [block_reader.file_name] at hloop ⊢
          rw [hloop, call_stream, encode_cons]
          simp [List.append_assoc]
        · exact (List.Perm.cons kv hperm).trans hpm
        · rw [sorted_by_key, List.pairwise_cons]
          refine ⟨fun x hx => hlow x ?_, hsorted⟩
          exact hpm.subset (List.mem_cons_of_mem _ (hperm.subset hx))
        · intro name
          rw [hfs name, fs_read_remove]
          have := mem_names_eraseIdx (r0 :: rest) j rj hj name
          by_cases h1 : name ∈ ((r0 :: rest).eraseIdx j).map block_reader.file_name
          · rw [if_pos h1, if_pos (this.mpr (Or.inr h1))]
          · by_cases h2 : name = rj.file_name
            · rw [if_neg h1, if_pos h2, if_pos (this.mpr (Or.inl h2))]
            · rw [if_neg h1, if_neg h2, if_neg (fun h => (this.mp h).elim h2 h1)]
      | cons kv' tl' =>
        have hfit' : readable kv' := hfit _ hLmem kv' (by simp)
        have hnext : rj.next be = { rj with m_stream := encode be tl', m_current := kv' } :=
          next_record be rj kv' (encode be tl') hfit' (by rw [hstream, encode_cons])
        have hat' : reader_at be (rj.next be) (kv' :: tl') := by
          rw [hnext]; exact ⟨kv', tl', rfl, hend, rfl, rfl⟩
        have hR' := forall₂_set hR j (rj.next be) (kv' :: tl') hat'
        have hsub : ∀ L ∈ Ls.set j (kv' :: tl'), L = kv' :: tl' ∨ L ∈ Ls :=
          fun L hL' => mem_of_mem_set _ _ _ _ hL'
        obtain ⟨out, fs', hloop, hperm, hsorted, hfs⟩ :=
          ih fs ((r0 :: rest).set j (rj.next be)) (Ls.set j (kv' :: tl')) (w.call be kv) hR'
            (by
              intro L hL' x hx
              rcases hsub L hL' with e | e
              · subst e; exact hfit _ hLmem x (List.mem_cons_of_mem _ hx)
              · exact hfit L e x hx)
            (by
              intro L hL'
              rcases hsub L hL' with e | e
              · subst e
                have := hsort _ hLmem
                rw [sorted_by_key, List.pairwise_cons] at this
                exact this.2
              · exact hsort L e)
            (by
              have := merge_rounds_set (r0 :: rest) j rj (rj.next be) hj
              rw [hnext] at this
              simp only at this
              rw [hstream, encode_cons, List.length_append] at this
              have := record_length be kv'
              rw [hnext]; omega)
        have hpm : (kv :: (Ls.set j (kv' :: tl')).flatten).Perm Ls.flatten :=
          flatten_set_perm Ls j kv (kv' :: tl') (by rw [hL, hLe])
        refine ⟨kv :: out, fs', ?_, ?_, ?_, ?_⟩
        · have hne : (rj.next be).at_end = false := by rw [hnext]; exact hend
          simp only [merge_loop, hfm, List.get?_eq_getElem?, hj, hne, Bool.false_eq_true,
            if_false]
          rw [hloop, call_stream, encode_cons]
          simp [List.append_assoc]
        · exact (List.Perm.cons kv hperm).trans hpm
        · rw [sorted_by_key, List.pairwise_cons]
          refine ⟨fun x hx => hlow x ?_, hsorted⟩
          exact hpm.subset (List.mem_cons_of_mem _ (hperm.subset hx))
        · intro name
          rw [hfs name, names_set (r0 :: rest) j rj (rj.next be) hj (by rw [hnext]; rfl)]

/-! ## `run_merge` -/

theorem next_file_name (be : Bool) (r : block_reader) : (r.next be).m_file_name = r.m_file_name := by
  unfold block_reader.next bio_read
  simp only
  split
  · rfl
  · split
    · rfl
    · split
      · rfl
      · split <;> rfl

theorem open_readers_spec (be : Bool) (fs : FileSystem) (ps : List thread_control_block)
    (Ls : List (List kv_pair_t))
    (h : List.Forall₂ (fun p L => p.m_error = none ∧
      fs_read fs p.file_name = some (encode be L) ∧ (∀ kv ∈ L, readable kv) ∧ L ≠ []) ps Ls) :
    ∃ rs, open_readers be fs ps = Except.ok rs ∧ List.Forall₂ (reader_at be) rs Ls ∧
      rs.map block_reader.file_name = ps.map thread_control_block.file_name := by
  induction h with
  | nil => exact ⟨[], rfl, List.Forall₂.nil, rfl⟩
  | @cons p L ps' Ls' hpl _ ih =>
    obtain ⟨rs, hrs, hR, hnames⟩ := ih
    obtain ⟨herr, hread, hfit, hne⟩ := hpl
    cases L with
    | nil => exact absurd rfl hne
    | cons kv tl =>
      have hread' : fs_read fs (format_file_name p.m_subdir p.m_pfx p.m_block_number) =
          some (encode be (kv :: tl)) := hread
      let r0 : block_reader :=
        { m_file_name := format_file_name p.m_subdir p.m_pfx p.m_block_number, m_end := false,
          m_stream := encode be (kv :: tl), m_current := ([], []) }
      have hn : r0.next be = { r0 with m_stream := encode be tl, m_current := kv } :=
        next_record be r0 kv (encode be tl)
          (hfit kv (List.mem_cons_self _ _)) (by simp [r0, encode_cons])
      refine ⟨r0.next be :: rs, ?_, List.Forall₂.cons ?_ hR, ?_⟩
      · simp only [open_readers, herr, block_reader.ctor, hread', hrs, r0]
      · rw [hn]; exact ⟨kv, tl, rfl, rfl, rfl, rfl⟩
      · simp only [List.map_cons, hnames, block_reader.file_name, next_file_name]
        rfl

theorem fs_exists_of_read {fs : FileSystem} {name c : Str} (h : fs_read fs name = some c) :
    fs_exists fs name = true := by
  simp [fs_exists, h]

theorem dtor_read (fs : FileSystem) (w : block_writer) (c : Str)
    (h : fs_read fs w.file_name = some c) :
    fs_read (w.dtor fs) w.file_name = some w.m_stream := by
  simp [block_writer.dtor, fs_exists_of_read h, fs_read_write_same]

theorem dtor_read_other (fs : FileSystem) (w : block_writer) (other : Str)
    (h : other ≠ w.file_name) : fs_read (w.dtor fs) other = fs_read fs other := by
  unfold block_writer.dtor
  split
  · exact fs_read_write_other _ _ _ _ h
  · rfl

theorem fs_rename_read (fs fs1 : FileSystem) (old new c : Str) (h : fs_read fs old = some c)
    (hr : fs_rename fs old new = some fs1) : fs_read fs1 new = some c := by
  unfold fs_rename at hr
  rw [h] at hr
  simp only at hr
  split at hr
  · rename_i e; cases hr; rw [← e]; exact h
  · cases hr; exact fs_read_write_same _ _ _

theorem fs_rename_some (fs : FileSystem) (old new c : Str) (h : fs_read fs old = some c) :
    ∃ fs1, fs_rename fs old new = some fs1 := by
  unfold fs_rename
  rw [h]
  simp only
  split
  · exact ⟨_, rfl⟩
  · exact ⟨_, rfl⟩

theorem forall₂_imp' {α β : Type} {R S : α → β → Prop} {l1 : List α} {l2 : List β}
    (h : List.Forall₂ R l1 l2) (hi : ∀ a b, a ∈ l1 → b ∈ l2 → R a b → S a b) :
    List.Forall₂ S l1 l2 := by
  induction h with
  | nil => exact List.Forall₂.nil
  | cons hab _ ih =>
    exact List.Forall₂.cons (hi _ _ (List.mem_cons_self _ _) (List.mem_cons_self _ _) hab)
      (ih (fun a b ha hb => hi a b (List.mem_cons_of_mem _ ha) (List.mem_cons_of_mem _ hb)))

theorem set_waits_file_name (t : thread_control_block) (w : List thread_control_block) :
    (t.set_waits w).file_name = t.file_name := by
  cases t; rfl

/-- The k-way branch of `run_merge`. -/
theorem run_merge_kway (be : Bool) (fs : FileSystem) (t : thread_control_block)
    (Ls : List (List kv_pair_t)) (hlen : t.m_waits.length ≠ 1)
    (hP : List.Forall₂ (fun p L => p.m_error = none ∧
      fs_read fs p.file_name = some (encode be L) ∧ (∀ kv ∈ L, readable kv) ∧ L ≠ []) t.m_waits Ls)
    (hsort : ∀ L ∈ Ls, sorted_by_key L)
    (hnames : ∀ p ∈ t.m_waits, p.file_name ≠ t.file_name) :
    ∃ o out, run_merge be fs t = some o ∧ o.thrown = none ∧
      fs_read o.fs t.file_name = some (encode be out) ∧ out.Perm Ls.flatten ∧
      sorted_by_key out ∧
      (∀ p ∈ t.m_waits, fs_read o.fs p.file_name = none) ∧
      (∀ name, name ≠ t.file_name → name ∉ t.m_waits.map thread_control_block.file_name →
        fs_read o.fs name = fs_read fs name) := by
  obtain ⟨rs, hopen, hR, hrn⟩ := open_readers_spec be fs t.m_waits Ls hP
  have hname : format_file_name (t.set_waits []).m_subdir (t.set_waits []).m_pfx
      (t.set_waits []).m_block_number = t.file_name := set_waits_file_name t []
  obtain ⟨out, fs', hloop, hperm, hsorted, hfs⟩ :=
    merge_loop_spec be (merge_rounds rs)
      (block_writer.ctor fs (t.set_waits []).m_subdir (t.set_waits []).m_pfx
        (t.set_waits []).m_block_number).1 rs Ls
      (block_writer.ctor fs (t.set_waits []).m_subdir (t.set_waits []).m_pfx
        (t.set_waits []).m_block_number).2 hR
      (fun L hL => by
        obtain ⟨p, _, hp⟩ := forall₂_mem_right hP L hL
        exact hp.2.2.1)
      hsort (le_refl _)
  have hnotin : t.file_name ∉ rs.map block_reader.file_name := by
    rw [hrn]
    intro hmem
    obtain ⟨p, hp, he⟩ := List.mem_map.mp hmem
    exact hnames p hp he
  have hwname : (block_writer.ctor fs (t.set_waits []).m_subdir (t.set_waits []).m_pfx
      (t.set_waits []).m_block_number).2.file_name = t.file_name := hname
  have hout : fs_read fs' t.file_name = some [] := by
    rw [hfs, if_neg hnotin, ← hname]
    exact ctor_writer_read _ _ _ _
  have hrun : run_merge be fs t = some
      { fs := block_writer.dtor fs'
          { (block_writer.ctor fs (t.set_waits []).m_subdir (t.set_waits []).m_pfx
              (t.set_waits []).m_block_number).2 with
            m_stream := (block_writer.ctor fs (t.set_waits []).m_subdir (t.set_waits []).m_pfx
              (t.set_waits []).m_block_number).2.m_stream ++ encode be out },
        tcb := t.set_waits [], thrown := none } := by
    unfold run_merge
    split
    · rename_i tcb2 heq
      rw [heq] at hlen
      exact absurd rfl hlen
    · simp only [hopen, hloop]
  refine ⟨_, out, hrun, rfl, ?_, hperm, hsorted, ?_, ?_⟩
  · simp only
    have := dtor_read fs'
      { (block_writer.ctor fs (t.set_waits []).m_subdir (t.set_waits []).m_pfx
          (t.set_waits []).m_block_number).2 with
        m_stream := (block_writer.ctor fs (t.set_waits []).m_subdir (t.set_waits []).m_pfx
          (t.set_waits []).m_block_number).2.m_stream ++ encode be out } []
      (by rw [hwname]; exact hout)
    rw [hwname] at this
    rw [this]
    simp [block_writer.ctor]
  · intro p hp
    simp only
    rw [dtor_read_other _ _ _ (by rw [hwname]; exact hnames p hp), hfs,
      if_pos (by rw [hrn]; exact List.mem_map_of_mem _ hp)]
  · intro name hne hnot
    simp only
    rw [dtor_read_other _ _ _ (by rw [hwname]; exact hne), hfs, if_neg (by rw [hrn]; exact hnot)]
    exact ctor_writer_read_other _ _ _ _ _ (by rw [hname]; exact hne)

/-! ## Claims about the codec and `put` -/

/-- The round trip of the record codec for pairs without an empty key or value.  Let `l`
be a list of pairs whose keys and values are not empty and shorter than `2^16` bytes.  A
`block_writer` is constructed, called on the pairs of `l` in their order and destroyed.
Then the constructor of `block_reader` on the same file succeeds; after `i < l.length`
calls of `next` the reader is not at its end and its value is the pair `l[i]`, with the
same bytes; after `l.length` calls of `next`, and not before, it is at its end. -/
theorem round_trip_nonempty_fields (be : Bool) (fs : FileSystem) (subdir bit : Str)
    (n : Nat) (l : List kv_pair_t) (hl : ∀ kv ∈ l, readable kv) :
    ∃ r0, block_reader.ctor be
        (block_writer.dtor (block_writer.ctor fs subdir bit n).1
          (l.foldl (block_writer.call be) (block_writer.ctor fs subdir bit n).2)) subdir bit n =
        Except.ok r0 ∧
      (∀ i (h : i < l.length), ((block_reader.next be)^[i] r0).at_end = false ∧
        ((block_reader.next be)^[i] r0).value = l[i]) ∧
      ((block_reader.next be)^[l.length] r0).at_end = true := by
  have hname : (l.foldl (block_writer.call be) (block_writer.ctor fs subdir bit n).2).file_name =
      format_file_name subdir bit n := by
    rw [call_foldl_file_name]; rfl
  have hfile : fs_read (block_writer.dtor (block_writer.ctor fs subdir bit n).1
      (l.foldl (block_writer.call be) (block_writer.ctor fs subdir bit n).2))
      (format_file_name subdir bit n) = some (encode be l) := by
    have := dtor_read (block_writer.ctor fs subdir bit n).1
      (l.foldl (block_writer.call be) (block_writer.ctor fs subdir bit n).2) []
      (by rw [hname]; exact ctor_writer_read fs subdir bit n)
    rw [hname, call_foldl_stream] at this
    simpa [block_writer.ctor] using this
  obtain ⟨r, hr⟩ : ∃ r : block_reader, r = ⟨format_file_name subdir bit n, false, encode be l,
    ([], [])⟩ := ⟨_, rfl⟩
  have hre : r.m_end = false := by rw [hr]
  have hrs : r.m_stream = encode be l := by rw [hr]
  refine ⟨r.next be, by simp only [block_reader.ctor, hfile, hr], ?_⟩
  clear hr
  cases l with
  | nil =>
    have := next_nil be r (by rw [hrs]; rfl)
    refine ⟨fun i h => absurd h (by simp), ?_⟩
    simp [this, block_reader.at_end]
  | cons kv l =>
    have hn := next_record be r kv (encode be l) (hl kv (List.mem_cons_self _ _))
      (by rw [hrs, encode_cons])
    have hit := iterate_next_encode be l (fun x hx => hl x (List.mem_cons_of_mem _ hx))
      (r.next be) (by rw [hn]; exact hre) kv [] (by rw [hn]) (by rw [hn]; simp)
    refine ⟨fun i h => ?_, ?_⟩
    · obtain ⟨h1, h2, _⟩ := hit i (by simp at h; omega)
      refine ⟨h1, ?_⟩
      rw [List.getElem?_eq_getElem h] at h2
      exact (Option.some.inj h2).symm
    · obtain ⟨_, _, h3⟩ := hit l.length (le_refl _)
      rw [List.length_cons, Function.iterate_succ_apply']
      have := next_nil be ((block_reader.next be)^[l.length] (r.next be))
        (by rw [h3]; simp [encode_nil])
      rw [this]; rfl

set_option maxRecDepth 100000 in
/-- Claim C3 fails on the code.  A `block_writer` writes the three pairs `(banana, 2)`,
`("", "")`, `(apple, 1)`, whose keys and values are all shorter than `2^16` bytes.  The
`block_reader` on the file holds `(banana, 2)` after its construction, and after one call
of `next` it is at its end: the call `bio::read` for the key of no bytes returns `-1`,
which is not the key size `0`.  The pairs `("", "")` and `(apple, 1)` are not read back.
In the same way the reader on a file with the pairs `(a, "")`, `(c, y)` is at its end
right after its construction, for both byte orders. -/
theorem block_reader_ends_at_empty_field :
    (∀ kv ∈ [(bytes "banana", bytes "2"), (([], []) : kv_pair_t), (bytes "apple", bytes "1")],
      kv.1.length < 65536 ∧ kv.2.length < 65536) ∧
    fs_read (ex_written true [(bytes "banana", bytes "2"), ([], []), (bytes "apple", bytes "1")])
        (bytes "t/part_00000000.data") =
      some (encode true [(bytes "banana", bytes "2"), ([], []), (bytes "apple", bytes "1")]) ∧
    (block_reader.ctor true
        (ex_written true [(bytes "banana", bytes "2"), ([], []), (bytes "apple", bytes "1")])
        (bytes "t") (bytes "part") 0).map (fun r => (r.at_end, r.value)) =
      Except.ok (false, (bytes "banana", bytes "2")) ∧
    (block_reader.ctor true
        (ex_written true [(bytes "banana", bytes "2"), ([], []), (bytes "apple", bytes "1")])
        (bytes "t") (bytes "part") 0).map (fun r => (r.next true).at_end) = Except.ok true ∧
    (block_reader.ctor false (ex_written false [(bytes "a", []), (bytes "c", bytes "y")])
        (bytes "t") (bytes "part") 0).map (fun r => r.at_end) = Except.ok true ∧
    (block_reader.ctor true (ex_written true [(bytes "a", []), (bytes "c", bytes "y")])
        (bytes "t") (bytes "part") 0).map (fun r => r.at_end) = Except.ok true ∧
    bio_read_result [] = -1 := by
  decide

/-- Claim C4.  The call `put(k, v)` throws if and only if `k` or `v` has `2^16` bytes or
more, and when it throws the writer (batch, byte counter, block counter and the three
task lists, so also the tasks spawned so far) is the one before the call. -/
theorem put_fails_iff_oversize (w : db_writer) (k v : Str) :
    ((w.put k v).1.isSome = true ↔ (65536 ≤ k.length ∨ 65536 ≤ v.length)) ∧
    ((w.put k v).1.isSome = true → (w.put k v).2 = w) := by
  unfold db_writer.put uint16_max
  by_cases hk : k.length > 65535
  · simp [hk]; omega
  · by_cases hv : v.length > 65535
    · simp [hk, hv]; omega
    · simp [hk, hv]; omega

/-- Claim C5 fails as stated: `block_writer::operator()` does not reject a pair with a
key of `2^16` bytes.  It writes the two length fields, which hold `0` for the key, and
then all `2^16` bytes of the key. -/
theorem block_writer_call_oversize :
    65536 ≤ (List.replicate 65536 (0 : Byte)).length ∧
    (block_writer.call false { file_name := [], m_stream := [] }
      (List.replicate 65536 0, [])).m_stream = [0, 0, 0, 0] ++ List.replicate 65536 0 := by
  have key : ∀ k : Str, k.length = 65536 →
      (block_writer.call false { file_name := [], m_stream := [] } (k, [])).m_stream =
        [0, 0, 0, 0] ++ k := by
    intro k hk
    simp [block_writer.call, to_uint16, u16_bytes, hk, Fin.ofNat]
  exact ⟨le_of_eq (List.length_replicate _ _).symm, key _ (List.length_replicate _ _)⟩

/-- Claim C5 as amended.  `block_writer::operator()` checks no length and rejects
nothing: for every pair it appends two fields of two bytes, which hold the lengths of
key and value modulo `2^16`, and then all bytes of the key and of the value.  The fields
hold the lengths themselves for every pair that `db_writer::put` accepts, which is
where pairs of `2^16` bytes or more are rejected. -/
theorem block_writer_call_unchecked (be : Bool) (w : block_writer) (kv : kv_pair_t) :
    ∃ kf vf, (w.call be kv).m_stream = w.m_stream ++ kf ++ vf ++ kv.1 ++ kv.2 ∧
      kf.length = 2 ∧ vf.length = 2 ∧
      u16_value be kf = kv.1.length % 65536 ∧ u16_value be vf = kv.2.length % 65536 ∧
      (w.call be kv).file_name = w.file_name ∧
      ∀ dw : db_writer, (dw.put kv.1 kv.2).1 = none →
        u16_value be kf = kv.1.length ∧ u16_value be vf = kv.2.length := by
  refine ⟨u16_bytes be (to_uint16 kv.1.length), u16_bytes be (to_uint16 kv.2.length), rfl,
    u16_bytes_length _ _, u16_bytes_length _ _,
    u16_value_bytes be _ (Nat.mod_lt _ (by norm_num)),
    u16_value_bytes be _ (Nat.mod_lt _ (by norm_num)), rfl, ?_⟩
  intro dw hput
  have h1 : kv.1.length < 65536 := by
    by_contra hc
    have hk : kv.1.length > 65535 := by omega
    simp [db_writer.put, uint16_max, hk] at hput
  have h2 : kv.2.length < 65536 := by
    by_contra hc
    have hk : ¬ kv.1.length > 65535 := by omega
    have hv : kv.2.length > 65535 := by omega
    simp [db_writer.put, uint16_max, hk, hv] at hput
  have e1 := u16_value_bytes be (to_uint16 kv.1.length) (Nat.mod_lt _ (by norm_num))
  have e2 := u16_value_bytes be (to_uint16 kv.2.length) (Nat.mod_lt _ (by norm_num))
  rw [e1, e2]
  exact ⟨Nat.mod_eq_of_lt h1, Nat.mod_eq_of_lt h2⟩

/-! ## Claims about `run_merge` and `finish` -/

/-- Claim C2 as amended.  Let the task `t` have `n >= 1` predecessors, all completed
without a captured exception, the file of the `i`-th holding the key-sorted list `Ls[i]`
of pairs.  Let either `n = 1`, or let every `Ls[i]` be non-empty, every pair in it have
a key and a value that are not empty and shorter than `2^16` bytes, and no predecessor
have the file name of `t`.  Then `run_merge` ends without an exception, and the file of
`t` holds a list `out` that is a rearrangement of all pairs of all `Ls[i]` (duplicates
kept) and is sorted in nondecreasing unsigned lexicographic order of the keys. -/
theorem run_merge_sorted_union (be : Bool) (fs : FileSystem) (t : thread_control_block)
    (Ls : List (List kv_pair_t)) (_hn : 1 ≤ t.m_waits.length)
    (hP : List.Forall₂ (fun p L => p.m_error = none ∧
      fs_read fs p.file_name = some (encode be L) ∧ sorted_by_key L) t.m_waits Ls)
    (hk : t.m_waits.length = 1 ∨
      ((∀ L ∈ Ls, L ≠ [] ∧ ∀ kv ∈ L, readable kv) ∧
        ∀ p ∈ t.m_waits, p.file_name ≠ t.file_name)) :
    ∃ o out, run_merge be fs t = some o ∧ o.thrown = none ∧
      fs_read o.fs t.file_name = some (encode be out) ∧ out.Perm Ls.flatten ∧
      sorted_by_key out := by
  by_cases h1 : t.m_waits.length = 1
  · obtain ⟨p, hp⟩ := List.length_eq_one.mp h1
    rw [hp] at hP
    cases hP with
    | cons hpl hrest =>
      cases hrest
      rename_i L
      obtain ⟨herr, hread, hsorted⟩ := hpl
      obtain ⟨fs1, hren⟩ := fs_rename_some fs p.file_name t.file_name _ hread
      refine ⟨{ fs := fs1, tcb := t, thrown := none }, L, ?_, rfl, ?_, by simp, hsorted⟩
      · unfold run_merge
        rw [hp]
        simp only [herr, hren]
      · exact fs_rename_read fs fs1 _ _ _ hread hren
  · rcases hk with hk | ⟨hne, hnames⟩
    · exact absurd hk h1
    · obtain ⟨o, out, h2, h3, h4, h5, h6, _⟩ := run_merge_kway be fs t Ls h1
        (forall₂_imp' hP (fun p L _ hL h => ⟨h.1, h.2.1, (hne L hL).2, (hne L hL).1⟩))
        (fun L hL => by
          obtain ⟨p, _, hp⟩ := forall₂_mem_right hP L hL
          exact hp.2.2)
        hnames
      exact ⟨o, out, h2, h3, h4, h5, h6⟩

set_option maxRecDepth 100000 in
theorem run_merge_sorted_union_witness :
    1 ≤ ex_merge.m_waits.length ∧
    ∃ o out, run_merge false ex_fs_sorted ex_merge = some o ∧ o.thrown = none ∧
      fs_read o.fs ex_merge.file_name = some (encode false out) ∧
      out.Perm ([[(bytes "apple", bytes "1"), (bytes "cherry", bytes "3")],
        [(bytes "banana", bytes "2")]] : List (List kv_pair_t)).flatten ∧
      sorted_by_key out :=
  ⟨by decide, run_merge_sorted_union false ex_fs_sorted ex_merge
    [[(bytes "apple", bytes "1"), (bytes "cherry", bytes "3")], [(bytes "banana", bytes "2")]]
    (by decide)
    (List.Forall₂.cons ⟨rfl, by decide, by unfold sorted_by_key; decide⟩
      (List.Forall₂.cons ⟨rfl, by decide, by unfold sorted_by_key; decide⟩
        List.Forall₂.nil))
    (Or.inr ⟨by decide, by decide⟩)⟩

set_option maxRecDepth 100000 in
/-- Claim C2 fails as stated, at two inputs.  In both, the two predecessors of `ex_merge`
completed without an exception and their files hold key-sorted lists of pairs.  In the
first the file of the first predecessor holds no pair and the file of the second the one
pair `(k, b)`: the output file of `run_merge` holds two records, the pair of two empty
strings and `(k, b)`, so a pair is added.  In the second the files hold `(a, "")`, `(c, y)`
and `(b, x)`: the output file holds `(a, "")` and `(b, x)`, so the pair `(c, y)` is
dropped.  In neither case the output is the content of a rearrangement of the pairs of
the predecessors. -/
theorem run_merge_adds_or_drops_pairs :
    (ex_merge.m_waits.map thread_control_block.m_error = [none, none] ∧
      fs_read ex_fs_empty (ex_part 0).file_name = some (encode false []) ∧
      fs_read ex_fs_empty (ex_part 1).file_name = some (encode false [(bytes "k", bytes "b")]) ∧
      fs_read ex_fs_empty_value (ex_part 0).file_name =
        some (encode false [(bytes "a", []), (bytes "c", bytes "y")]) ∧
      fs_read ex_fs_empty_value (ex_part 1).file_name =
        some (encode false [(bytes "b", bytes "x")]) ∧
      sorted_by_key [(bytes "a", []), (bytes "c", bytes "y")]) ∧
    (run_merge false ex_fs_empty ex_merge).map
        (fun o => (o.thrown, fs_read o.fs ex_merge.file_name)) =
      some (none, some (encode false [([], []), (bytes "k", bytes "b")])) ∧
    (¬ ∃ out : List kv_pair_t,
      encode false out = encode false [([], []), (bytes "k", bytes "b")] ∧
      out.Perm ([[], [(bytes "k", bytes "b")]] : List (List kv_pair_t)).flatten) ∧
    (run_merge false ex_fs_empty_value ex_merge).map
        (fun o => (o.thrown, fs_read o.fs ex_merge.file_name)) =
      some (none, some (encode false [(bytes "a", []), (bytes "b", bytes "x")])) ∧
    ¬ ∃ out : List kv_pair_t,
      encode false out = encode false [(bytes "a", []), (bytes "b", bytes "x")] ∧
      out.Perm ([[(bytes "a", []), (bytes "c", bytes "y")], [(bytes "b", bytes "x")]] :
        List (List kv_pair_t)).flatten := by
  refine ⟨⟨by decide, by decide, by decide, by decide, by decide,
    by unfold sorted_by_key; decide⟩, by decide, ?_, by decide, ?_⟩
  · rintro ⟨out, he, hp⟩
    have : out = [(bytes "k", bytes "b")] := by simpa using hp
    subst this
    revert he
    decide
  · rintro ⟨out, he, hp⟩
    have hlen := congrArg List.length he
    have hl3 : out.length = 3 := by
      have := hp.length_eq
      simpa using this
    have hge : ∀ l : List kv_pair_t, 4 * l.length ≤ (encode false l).length := by
      intro l
      induction l with
      | nil => simp [encode]
      | cons kv l ih =>
        have := record_length false kv
        rw [encode_cons, List.length_append, List.length_cons]
        omega
    have h12 := hge out
    rw [hlen, hl3] at h12
    revert h12
    decide

set_option maxRecDepth 100000 in
/-- Claim C6 fails on the code.  The first predecessor of `ex_merge` holds `(k, a)`, the
second `(k, b)`: the two current keys are equal and minimal.  `run_merge` writes the pair
of the second (the last) reader first and the pair of the first reader after it, because
`compare_first` accepts the later pair against the current minimum of the same key. -/
theorem run_merge_tie_last_wins :
    (fs_read ex_fs_tie (ex_part 0).file_name = some (encode false [(bytes "k", bytes "a")]) ∧
      fs_read ex_fs_tie (ex_part 1).file_name = some (encode false [(bytes "k", bytes "b")])) ∧
    (run_merge false ex_fs_tie ex_merge).map
        (fun o => (o.thrown, fs_read o.fs ex_merge.file_name)) =
      some (none, some (encode false [(bytes "k", bytes "b"), (bytes "k", bytes "a")])) ∧
    encode false [(bytes "k", bytes "b"), (bytes "k", bytes "a")] ≠
      encode false [(bytes "k", bytes "a"), (bytes "k", bytes "b")] ∧
    compare_first (bytes "k", bytes "b") (bytes "k", bytes "a") = true := by
  decide

set_option maxRecDepth 100000 in
/-- Claim C1 fails on the code.  After seventeen accepted calls `put("k", "v")`,
`finish` flushes one batch: the final task waits for one stage-1 task, which has no
predecessors and therefore runs `run_write` on these seventeen pairs.  `run_write`
hands them to `std::sort` with `compare_first`, which is `true` for every two of them in
both orders: on this batch it is not the strict weak ordering that `std::sort` requires
of its comparator. -/
theorem finish_hands_equal_keys_to_sort :
    (((db_writer.ctor (bytes "t")).put_all ex_equal_keys).finish.2.m_waits.map
        thread_control_block.m_strings = [ex_equal_keys]) ∧
    (((db_writer.ctor (bytes "t")).put_all ex_equal_keys).finish.2.m_waits.map
        (fun p => p.m_waits.length) = [0]) ∧
    ex_equal_keys.length = 17 ∧
    (∀ a ∈ ex_equal_keys, ∀ b ∈ ex_equal_keys, compare_first a b = true) ∧
    ¬ strict_weak_ordering_on compare_first ex_equal_keys := by
  refine ⟨by decide, by decide, by decide, by decide, ?_⟩
  intro h
  have h1 := h.1 (bytes "k", bytes "v") (by decide)
  revert h1
  decide

/-! ## `process::read` and `refill` -/

theorem process_read_spec (p : process) (len : Nat) :
    (p.read len).1 ++ (p.read len).2.pending = p.pending ∧ (p.read len).1.length ≤ len ∧
    (1 ≤ len → p.pending ≠ [] → 1 ≤ (p.read len).1.length) := by
  unfold process.read
  cases hs : p.short_reads with
  | nil =>
    simp only [List.take_append_drop, List.length_take, true_and]
    refine ⟨Nat.min_le_left _ _, fun h1 h2 => ?_⟩
    have : 1 ≤ p.pending.length := List.length_pos.mpr h2
    omega
  | cons c cs =>
    simp only [List.take_append_drop, List.length_take, true_and]
    refine ⟨by omega, fun h1 h2 => ?_⟩
    have : 1 ≤ p.pending.length := List.length_pos.mpr h2
    omega

theorem store_at_length (buf : Str) (n : Nat) (chunk : Str) (h : n + chunk.length ≤ buf.length) :
    (store_at buf n chunk).length = buf.length := by
  unfold store_at
  simp only [List.length_append, List.length_take, List.length_drop]
  omega

theorem store_at_take (buf : Str) (n : Nat) (chunk : Str) (h : n ≤ buf.length) :
    (store_at buf n chunk).take n = buf.take n := by
  unfold store_at
  rw [List.append_assoc, List.take_append_of_le_length (by simp; omega)]
  rw [List.take_take]; simp

theorem store_at_range (buf : Str) (n : Nat) (chunk : Str) (h : n ≤ buf.length) :
    buffer_range (store_at buf n chunk) n (n + chunk.length) = chunk := by
  unfold store_at buffer_range
  have hl : (List.take n buf).length = n := by simp; omega
  rw [List.append_assoc, List.take_append_eq_append_take, List.drop_append_eq_append_drop]
  simp only [hl, List.length_take]
  have e1 : min (n + chunk.length) n = n := by omega
  simp [e1, List.take_take]

theorem buffer_range_self (buf : Str) (a : Nat) : buffer_range buf a a = [] := by
  unfold buffer_range
  apply List.drop_of_length_le
  simp

theorem buffer_range_head (buf : Str) (pos e : Nat) (h1 : pos < e) (h2 : e ≤ buf.length) :
    buffer_range buf pos e = buf.getD pos 0 :: buffer_range buf (pos + 1) e := by
  unfold buffer_range
  have hl : pos < (List.take e buf).length := by simp; omega
  rw [List.drop_eq_getElem_cons hl]
  congr 1
  rw [List.getElem_take, List.getD_eq_getElem?_getD, List.getElem?_eq_getElem (by omega)]
  rfl

theorem buffer_range_snoc (buf : Str) (a b : Nat) (h1 : a ≤ b) (h2 : b < buf.length) :
    buffer_range buf a (b + 1) = buffer_range buf a b ++ [buf.getD b 0] := by
  unfold buffer_range
  rw [List.take_succ, List.drop_append_of_le_length (by simp; omega)]
  congr 1
  rw [List.getD_eq_getElem?_getD, List.getElem?_eq_getElem h2]
  rfl

theorem buffer_range_split (buf : Str) (a b c : Nat) (hab : a ≤ b) (hbc : b ≤ c)
    (hc : c ≤ buf.length) :
    buffer_range buf a c = buffer_range buf a b ++ buffer_range buf b c := by
  unfold buffer_range
  have h1 : List.take b buf = List.take b (List.take c buf) := by
    rw [List.take_take]; congr 1; omega
  rw [h1]
  conv_lhs => rw [← List.take_append_drop b (List.take c buf)]
  rw [List.drop_append_of_le_length (by simp; omega)]

theorem refill_loop_spec : ∀ (fuel : Nat) (src : process) (buf : Str) (bytes : Nat),
    bytes ≤ buf.length → buf.length - bytes < fuel →
    ∃ src' buf' bytes', refill_loop fuel src buf bytes = some (src', buf', bytes') ∧
      buf'.length = buf.length ∧ bytes ≤ bytes' ∧ bytes' ≤ buf.length ∧
      buf'.take bytes = buf.take bytes ∧
      buffer_range buf' bytes bytes' ++ src'.pending = src.pending ∧
      (bytes < buf.length → src.pending ≠ [] → bytes < bytes') := by
  intro fuel
  induction fuel with
  | zero => intro src buf bytes _ h; omega
  | succ fuel ih =>
    intro src buf bytes hb hf
    unfold refill_loop
    by_cases hlt : bytes < buf.length
    · obtain ⟨hcat, hlen, hpos⟩ := process_read_spec src (buf.length - bytes)
      simp only [hlt, if_true]
      by_cases hz : (src.read (buf.length - bytes)).1.length = 0
      · simp only [hz, if_true]
        refine ⟨_, _, _, rfl, rfl, le_refl _, hb, rfl, ?_, ?_⟩
        · rw [buffer_range_self, List.nil_append]
          have : (src.read (buf.length - bytes)).1 = [] := List.length_eq_zero.mp hz
          rw [this, List.nil_append] at hcat
          exact hcat
        · intro _ hne
          have := hpos (by omega) hne
          omega
      · simp only [hz, if_false]
        have hfit : bytes + (src.read (buf.length - bytes)).1.length ≤ buf.length := by omega
        have hsl := store_at_length buf bytes (src.read (buf.length - bytes)).1 hfit
        obtain ⟨src', buf', bytes', hrun, hl', hle1, hle2, htake, hrange, _⟩ :=
          ih (src.read (buf.length - bytes)).2
            (store_at buf bytes (src.read (buf.length - bytes)).1)
            (bytes + (src.read (buf.length - bytes)).1.length) (by omega) (by omega)
        refine ⟨src', buf', bytes', hrun, by omega, by omega, by omega, ?_, ?_, ?_⟩
        · have := congrArg (List.take bytes) htake
          rw [List.take_take, List.take_take] at this
          rw [Nat.min_eq_left (by omega)] at this
          rw [this, store_at_take buf bytes _ hb]
        · rw [buffer_range_split buf' bytes (bytes + (src.read (buf.length - bytes)).1.length)
            bytes' (by omega) hle1 (by omega)]
          have e : buffer_range buf' bytes (bytes + (src.read (buf.length - bytes)).1.length) =
              (src.read (buf.length - bytes)).1 := by
            have h1 : buffer_range buf' bytes
                (bytes + (src.read (buf.length - bytes)).1.length) =
                buffer_range (store_at buf bytes (src.read (buf.length - bytes)).1) bytes
                  (bytes + (src.read (buf.length - bytes)).1.length) := by
              unfold buffer_range
              rw [htake]
            rw [h1]
            exact store_at_range buf bytes (src.read (buf.length - bytes)).1 hb
          rw [e, List.append_assoc, hrange, hcat]
        · intro _ _; omega
    · simp only [hlt, if_false]
      refine ⟨_, _, _, rfl, rfl, le_refl _, hb, rfl, ?_, ?_⟩
      · rw [buffer_range_self, List.nil_append]
      · intro h
        first
          | exact absurd h hlt
          | exact False.elim h

theorem refill_spec (f : to_line_filter) (hok : 1 ≤ f.m_buffer.length) :
    ∃ bytes f', f.refill = some (bytes, f') ∧ f'.m_buffer_pos = 0 ∧ f'.m_buffer_end = bytes ∧
      line_filter_ok f' ∧ f'.unread = f.m_source.pending ∧
      (bytes = 0 ↔ f.m_source.pending = []) := by
  obtain ⟨src', buf', bytes', hrun, hl, _, hle, _, hrange, hprog⟩ :=
    refill_loop_spec (f.m_buffer.length + 1) f.m_source f.m_buffer 0 (Nat.zero_le _) (by omega)
  refine ⟨bytes', ⟨src', buf', 0, bytes'⟩, by simp only [to_line_filter.refill, hrun], rfl, rfl,
    ?_, ?_, ?_⟩
  · exact ⟨Nat.zero_le _, by simp only; omega, by simp only; omega⟩
  · simpa [to_line_filter.unread] using hrange
  · constructor
    · intro h0
      subst h0
      rw [buffer_range_self, List.nil_append] at hrange
      by_contra hne
      have := hprog (by omega) hne
      omega
    · intro he
      rw [he] at hrange
      have : buffer_range buf' 0 bytes' = [] := by
        cases hb : buffer_range buf' 0 bytes' with
        | nil => rfl
        | cons x xs => rw [hb] at hrange; simp at hrange
      have hlen := congrArg List.length this
      simp only [buffer_range, List.drop_zero, List.length_take, List.length_nil] at hlen
      omega

/-! ## `to_line_filter::read` -/

theorem read_loop_step (fuel : Nat) (f : to_line_filter) (line : Str) (begin_pos : Nat)
    (h : f.m_buffer_pos ≠ f.m_buffer_end) :
    to_line_filter.read_loop (fuel + 1) f line begin_pos =
      if f.m_buffer.getD f.m_buffer_pos 0 ≠ newline then
        to_line_filter.read_loop fuel { f with m_buffer_pos := f.m_buffer_pos + 1 } line begin_pos
      else
        some (1, line ++ buffer_range f.m_buffer begin_pos f.m_buffer_pos,
          { f with m_buffer_pos := f.m_buffer_pos + 1 }) := by
  rw [to_line_filter.read_loop]
  simp only [h, if_false]

theorem read_loop_refill (fuel : Nat) (f : to_line_filter) (line : Str) (begin_pos : Nat)
    (bytes : Nat) (g : to_line_filter)
    (h : f.m_buffer_pos = f.m_buffer_end) (hre : f.refill = some (bytes, g)) :
    to_line_filter.read_loop (fuel + 1) f line begin_pos =
      if bytes = 0 then some (0, line ++ buffer_range f.m_buffer begin_pos f.m_buffer_pos, g)
      else if g.m_buffer.getD g.m_buffer_pos 0 ≠ newline then
        to_line_filter.read_loop fuel { g with m_buffer_pos := g.m_buffer_pos + 1 }
          (line ++ buffer_range f.m_buffer begin_pos f.m_buffer_pos) g.m_buffer_pos
      else
        some (1, (line ++ buffer_range f.m_buffer begin_pos f.m_buffer_pos) ++
            buffer_range g.m_buffer g.m_buffer_pos g.m_buffer_pos,
          { g with m_buffer_pos := g.m_buffer_pos + 1 }) := by
  rw [to_line_filter.read_loop]
  simp only [h, if_true, hre]

theorem unread_head (f : to_line_filter) (hok : line_filter_ok f)
    (h : f.m_buffer_pos ≠ f.m_buffer_end) :
    f.unread = f.m_buffer.getD f.m_buffer_pos 0 ::
      ({ f with m_buffer_pos := f.m_buffer_pos + 1 } : to_line_filter).unread := by
  obtain ⟨h1, h2, _⟩ := hok
  unfold to_line_filter.unread
  rw [buffer_range_head f.m_buffer f.m_buffer_pos f.m_buffer_end (by omega) h2]
  rfl

theorem ok_advance (f : to_line_filter) (hok : line_filter_ok f)
    (h : f.m_buffer_pos ≠ f.m_buffer_end) :
    line_filter_ok { f with m_buffer_pos := f.m_buffer_pos + 1 } := by
  obtain ⟨h1, h2, h3⟩ := hok
  exact ⟨by simp only; omega, h2, h3⟩

theorem unread_at_end (f : to_line_filter) (h : f.m_buffer_pos = f.m_buffer_end) :
    f.unread = f.m_source.pending := by
  rw [to_line_filter.unread, h, buffer_range_self, List.nil_append]

/-- A round of the loop of `read` on a filter that has unread bytes: after the refill,
if one is due, the round looks at the first unread byte. -/
theorem read_loop_round (f : to_line_filter) (line : Str) (begin_pos : Nat)
    (hok : line_filter_ok f) (hbp : begin_pos ≤ f.m_buffer_pos) (hne : f.unread ≠ []) :
    ∃ (g : to_line_filter) (line' : Str) (bp : Nat), line_filter_ok g ∧
      g.m_buffer_pos ≠ g.m_buffer_end ∧ bp ≤ g.m_buffer_pos ∧ g.unread = f.unread ∧
      line' ++ buffer_range g.m_buffer bp g.m_buffer_pos =
        line ++ buffer_range f.m_buffer begin_pos f.m_buffer_pos ∧
      ∀ fuel, to_line_filter.read_loop (fuel + 1) f line begin_pos =
        if g.m_buffer.getD g.m_buffer_pos 0 ≠ newline then
          to_line_filter.read_loop fuel { g with m_buffer_pos := g.m_buffer_pos + 1 } line' bp
        else
          some (1, line' ++ buffer_range g.m_buffer bp g.m_buffer_pos,
            { g with m_buffer_pos := g.m_buffer_pos + 1 }) := by
  by_cases hpe : f.m_buffer_pos = f.m_buffer_end
  · obtain ⟨bytes, g, hre, hg0, hge, hgok, hgun, hz⟩ := refill_spec f hok.2.2
    have hpend : f.unread = f.m_source.pending := unread_at_end f hpe
    have hb : bytes ≠ 0 := fun h => hne (by rw [hpend]; exact hz.mp h)
    refine ⟨g, line ++ buffer_range f.m_buffer begin_pos f.m_buffer_pos, g.m_buffer_pos, hgok,
      by rw [hg0, hge]; exact fun e => hb e.symm, le_refl _, by rw [hgun, hpend], ?_, ?_⟩
    · rw [buffer_range_self, List.append_nil]
    · intro fuel
      rw [read_loop_refill fuel f line begin_pos bytes g hpe hre, if_neg hb]
  · exact ⟨f, line, begin_pos, hok, hpe, hbp, rfl, rfl,
      fun fuel => read_loop_step fuel f line begin_pos hpe⟩

/-- The loop of `read` on a filter whose unread bytes begin with a terminated line. -/
theorem read_loop_line : ∀ (l : Str) (fuel : Nat) (f : to_line_filter) (line : Str)
    (begin_pos : Nat) (rest : Str), line_filter_ok f → begin_pos ≤ f.m_buffer_pos →
    newline ∉ l → f.unread = l ++ newline :: rest → l.length + 1 ≤ fuel →
    ∃ f', to_line_filter.read_loop fuel f line begin_pos =
        some (1, line ++ buffer_range f.m_buffer begin_pos f.m_buffer_pos ++ l, f') ∧
      line_filter_ok f' ∧ f'.unread = rest := by
  intro l
  induction l with
  | nil =>
    intro fuel f line begin_pos rest hok hbp _ hun hfuel
    obtain ⟨fuel, rfl⟩ : ∃ k, fuel = k + 1 := ⟨fuel - 1, by simp at hfuel; omega⟩
    obtain ⟨g, line', bp, hgok, hgne, _, hgun, hline, hrun⟩ :=
      read_loop_round f line begin_pos hok hbp (by rw [hun]; simp)
    have hhead := unread_head g hgok hgne
    rw [hgun, hun] at hhead
    simp only [List.nil_append, List.cons.injEq] at hhead
    refine ⟨{ g with m_buffer_pos := g.m_buffer_pos + 1 }, ?_, ok_advance g hgok hgne,
      hhead.2.symm⟩
    rw [hrun fuel, if_neg (by rw [← hhead.1]; simp), hline, List.append_nil]
  | cons c l ih =>
    intro fuel f line begin_pos rest hok hbp hnl hun hfuel
    obtain ⟨fuel, rfl⟩ : ∃ k, fuel = k + 1 := ⟨fuel - 1, by simp at hfuel; omega⟩
    obtain ⟨g, line', bp, hgok, hgne, hgbp, hgun, hline, hrun⟩ :=
      read_loop_round f line begin_pos hok hbp (by rw [hun]; simp)
    have hhead := unread_head g hgok hgne
    rw [hgun, hun] at hhead
    simp only [List.cons_append, List.cons.injEq] at hhead
    have hc : g.m_buffer.getD g.m_buffer_pos 0 ≠ newline := by
      rw [← hhead.1]
      intro e
      exact hnl (by rw [e]; exact List.mem_cons_self _ _)
    obtain ⟨f', hrun', hok', hun'⟩ := ih fuel { g with m_buffer_pos := g.m_buffer_pos + 1 }
      line' bp rest (ok_advance g hgok hgne) (by simp only; omega)
      (fun h => hnl (List.mem_cons_of_mem _ h)) hhead.2.symm (by simpa using hfuel)
    refine ⟨f', ?_, hok', hun'⟩
    rw [hrun fuel, if_pos hc, hrun']
    simp only
    rw [buffer_range_snoc g.m_buffer bp g.m_buffer_pos hgbp
      (by obtain ⟨h1, h2, _⟩ := hgok; omega), ← hhead.1, ← List.append_assoc, hline]
    simp [List.append_assoc]

/-- The loop of `read` on a filter whose unread bytes hold no `'\n'`. -/
theorem read_loop_eof : ∀ (tail : Str) (fuel : Nat) (f : to_line_filter) (line : Str)
    (begin_pos : Nat), line_filter_ok f → begin_pos ≤ f.m_buffer_pos →
    newline ∉ tail → f.unread = tail → tail.length + 1 ≤ fuel →
    ∃ f', to_line_filter.read_loop fuel f line begin_pos =
        some (0, line ++ buffer_range f.m_buffer begin_pos f.m_buffer_pos ++ tail, f') ∧
      line_filter_ok f' ∧ f'.unread = [] := by
  intro tail
  induction tail with
  | nil =>
    intro fuel f line begin_pos hok hbp _ hun hfuel
    obtain ⟨fuel, rfl⟩ : ∃ k, fuel = k + 1 := ⟨fuel - 1, by simp at hfuel; omega⟩
    have hpe : f.m_buffer_pos = f.m_buffer_end := by
      have := congrArg List.length hun
      simp only [to_line_filter.unread, buffer_range, List.length_append, List.length_drop,
        List.length_take, List.length_nil] at this
      obtain ⟨h1, h2, _⟩ := hok
      omega
    have hpend : f.m_source.pending = [] := by rw [← unread_at_end f hpe, hun]
    obtain ⟨bytes, g, hre, _, _, hgok, hgun, hz⟩ := refill_spec f hok.2.2
    refine ⟨g, ?_, hgok, by rw [hgun, hpend]⟩
    rw [read_loop_refill fuel f line begin_pos bytes g hpe hre, if_pos (hz.mpr hpend),
      List.append_nil]
  | cons c l ih =>
    intro fuel f line begin_pos hok hbp hnl hun hfuel
    obtain ⟨fuel, rfl⟩ : ∃ k, fuel = k + 1 := ⟨fuel - 1, by simp at hfuel; omega⟩
    obtain ⟨g, line', bp, hgok, hgne, hgbp, hgun, hline, hrun⟩ :=
      read_loop_round f line begin_pos hok hbp (by rw [hun]; simp)
    have hhead := unread_head g hgok hgne
    rw [hgun, hun] at hhead
    simp only [List.cons.injEq] at hhead
    have hc : g.m_buffer.getD g.m_buffer_pos 0 ≠ newline := by
      rw [← hhead.1]
      intro e
      exact hnl (by rw [e]; exact List.mem_cons_self _ _)
    obtain ⟨f', hrun', hok', hun'⟩ := ih fuel { g with m_buffer_pos := g.m_buffer_pos + 1 }
      line' bp (ok_advance g hgok hgne) (by simp only; omega)
      (fun h => hnl (List.mem_cons_of_mem _ h)) hhead.2.symm (by simpa using hfuel)
    refine ⟨f', ?_, hok', hun'⟩
    rw [hrun fuel, if_pos hc, hrun']
    simp only
    rw [buffer_range_snoc g.m_buffer bp g.m_buffer_pos hgbp
      (by obtain ⟨h1, h2, _⟩ := hgok; omega), ← hhead.1, ← List.append_assoc, hline]
    simp [List.append_assoc]

theorem unread_length (f : to_line_filter) (hok : line_filter_ok f) :
    f.unread.length = (f.m_buffer_end - f.m_buffer_pos) + f.m_source.pending.length := by
  obtain ⟨h1, h2, _⟩ := hok
  simp only [to_line_filter.unread, buffer_range, List.length_append, List.length_drop,
    List.length_take]
  omega

/-- The call `read` on a filter whose unread bytes begin with a terminated line. -/
theorem read_line (f : to_line_filter) (l rest : Str) (hok : line_filter_ok f)
    (hnl : newline ∉ l) (hun : f.unread = l ++ newline :: rest) :
    ∃ f', f.read = some (1, l, f') ∧ line_filter_ok f' ∧ f'.unread = rest := by
  have hlen := unread_length f hok
  rw [hun] at hlen
  simp only [List.length_append, List.length_cons] at hlen
  obtain ⟨f', h1, h2, h3⟩ := read_loop_line l
    ((f.m_buffer_end - f.m_buffer_pos) + f.m_source.pending.length + 2) f [] f.m_buffer_pos rest
    hok (le_refl _) hnl hun (by omega)
  refine ⟨f', ?_, h2, h3⟩
  rw [to_line_filter.read, h1, buffer_range_self]
  simp

/-- The call `read` on a filter whose unread bytes hold no `'\n'`. -/
theorem read_eof (f : to_line_filter) (tail : Str) (hok : line_filter_ok f)
    (hnl : newline ∉ tail) (hun : f.unread = tail) :
    ∃ f', f.read = some (0, tail, f') ∧ line_filter_ok f' ∧ f'.unread = [] := by
  have hlen := unread_length f hok
  rw [hun] at hlen
  obtain ⟨f', h1, h2, h3⟩ := read_loop_eof tail
    ((f.m_buffer_end - f.m_buffer_pos) + f.m_source.pending.length + 2) f [] f.m_buffer_pos
    hok (le_refl _) hnl hun (by omega)
  refine ⟨f', ?_, h2, h3⟩
  rw [to_line_filter.read, h1, buffer_range_self]
  simp

/-! ## Successive calls of `to_line_filter::read` -/

theorem join_lines_cons (l : Str) (ls : List Str) :
    join_lines (l :: ls) = l ++ newline :: join_lines ls := by
  simp [join_lines]

theorem join_lines_nil : join_lines [] = [] := rfl

theorem join_lines_length (ls : List Str) : ls.length ≤ (join_lines ls).length := by
  induction ls with
  | nil => simp [join_lines]
  | cons l ls ih => rw [join_lines_cons]; simp; omega

theorem ctor_ok (source : process) (buffer_size : Nat) (hb : 1 ≤ buffer_size) :
    line_filter_ok (to_line_filter.ctor source buffer_size) ∧
    (to_line_filter.ctor source buffer_size).unread = source.pending := by
  refine ⟨⟨le_refl _, by simp [to_line_filter.ctor], by simpa [to_line_filter.ctor] using hb⟩, ?_⟩
  simp [to_line_filter.unread, to_line_filter.ctor, buffer_range]

/-- Calls of `read` on a line filter that has nothing left. -/
theorem read_many_exhausted : ∀ (k : Nat) (f : to_line_filter), line_filter_ok f →
    f.unread = [] →
    ∃ f', f.read_many k = some (List.replicate k (0, []), f') ∧ line_filter_ok f' ∧
      f'.unread = [] := by
  intro k
  induction k with
  | zero => intro f hok hun; exact ⟨f, rfl, hok, hun⟩
  | succ k ih =>
    intro f hok hun
    obtain ⟨f1, h1, hok1, hun1⟩ := read_eof f [] hok (by simp) hun
    obtain ⟨f2, h2, hok2, hun2⟩ := ih f1 hok1 hun1
    exact ⟨f2, by simp only [to_line_filter.read_many, h1, h2, List.replicate_succ], hok2, hun2⟩

theorem read_many_lines : ∀ (lines : List Str) (tail : Str) (k : Nat) (f : to_line_filter),
    line_filter_ok f → (∀ l ∈ lines, newline ∉ l) → newline ∉ tail →
    f.unread = join_lines lines ++ tail →
    ∃ f', f.read_many (lines.length + k) =
      some (lines.map (fun l => (1, l)) ++ end_reads tail k, f') := by
  intro lines
  induction lines with
  | nil =>
    intro tail k f hok _ ht hun
    rw [join_lines_nil, List.nil_append] at hun
    cases k with
    | zero => exact ⟨f, rfl⟩
    | succ k =>
      obtain ⟨f1, h1, hok1, hun1⟩ := read_eof f tail hok ht hun
      obtain ⟨f2, h2, _, _⟩ := read_many_exhausted k f1 hok1 hun1
      refine ⟨f2, ?_⟩
      rw [List.length_nil, Nat.zero_add]
      simp only [to_line_filter.read_many, h1, h2, List.map_nil, List.nil_append, end_reads]
  | cons l ls ih =>
    intro tail k f hok hl ht hun
    rw [join_lines_cons, List.append_assoc, List.cons_append] at hun
    obtain ⟨f1, h1, hok1, hun1⟩ := read_line f l (join_lines ls ++ tail) hok
      (hl l (List.mem_cons_self _ _)) hun
    obtain ⟨f2, h2⟩ := ih tail k f1 hok1 (fun x hx => hl x (List.mem_cons_of_mem _ hx)) ht hun1
    refine ⟨f2, ?_⟩
    rw [List.length_cons, Nat.add_right_comm]
    simp only [to_line_filter.read_many, h1, h2, List.map_cons, List.cons_append]

/-- Claim C7.  Let the source deliver the stream `l_1 \n ... l_n \n tail`, where no
`l_i` and not `tail` holds a `'\n'`, cut into reads in any way (`source.short_reads`),
and let the buffer have at least one byte.  Then the first `n` calls of
`to_line_filter::read` return `1` with `line` equal to `l_1`, ..., `l_n`, and every later
call returns `0`: the unterminated `tail` is in `line` after the first of them, but no
call returns `1` for it. -/
theorem to_line_filter_read_delivers_lines (source : process) (buffer_size : Nat)
    (hb : 1 ≤ buffer_size) (lines : List Str) (tail : Str)
    (hl : ∀ l ∈ lines, newline ∉ l) (ht : newline ∉ tail)
    (hs : source.pending = join_lines lines ++ tail) (k : Nat) :
    ∃ f', (to_line_filter.ctor source buffer_size).read_many (lines.length + k) =
      some (lines.map (fun l => (1, l)) ++ end_reads tail k, f') := by
  obtain ⟨hok, hun⟩ := ctor_ok source buffer_size hb
  exact read_many_lines lines tail k _ hok hl ht (by rw [hun, hs])

theorem to_line_filter_read_delivers_lines_witness :
    ∃ f', (to_line_filter.ctor
        { pending := bytes "ab\ncd\n\nxyz", short_reads := [0, 2, 0] } 3).read_many (3 + 2) =
      some ([bytes "ab", bytes "cd", []].map (fun l => (1, l)) ++ end_reads (bytes "xyz") 2, f') :=
  to_line_filter_read_delivers_lines
    { pending := bytes "ab\ncd\n\nxyz", short_reads := [0, 2, 0] } 3 (by decide)
    [bytes "ab", bytes "cd", []] (bytes "xyz") (by decide) (by decide) (by decide) 2

/-! ## The header grammar and `init` -/

theorem skip_over_length (s : Str) : (skip_over s).length ≤ s.length := by
  unfold skip_over
  exact (List.dropWhile_suffix _).length_le

theorem lit_length (l s s1 : Str) (h : lit l s = some s1) : s1.length + l.length ≤ s.length := by
  unfold lit at h
  simp only at h
  split at h
  · rename_i hp
    cases h
    have := skip_over_length s
    unfold starts_with at hp
    have hl : l.length ≤ (skip_over s).length := by
      have := congrArg List.length (of_decide_eq_true hp)
      simp only [List.length_take] at this
      omega
    simp only [List.length_drop]
    omega
  · cases h

theorem ident_tail_length (s : Str) : (ident_tail s).2.length ≤ s.length := by
  induction s with
  | nil => simp [ident_tail]
  | cons c s ih =>
    unfold ident_tail
    split
    · simp only [List.length_cons]; omega
    · split
      · simp only [List.length_cons]; omega
      · simp

theorem quoted_body_length (s : Str) : (quoted_body s).2.length ≤ s.length := by
  induction s with
  | nil => simp [quoted_body]
  | cons c s ih =>
    unfold quoted_body
    split
    · simp only [List.length_cons]; omega
    · split
      · simp
      · simp only [List.length_cons]; omega

theorem ident_length (s : Str) (name s2 : Str) (h : ident s = some (name, s2)) :
    s2.length < s.length := by
  unfold ident at h
  cases hu : ident_unquoted s with
  | some r =>
    rw [hu] at h
    simp only [Option.some.injEq] at h
    subst h
    unfold ident_unquoted at hu
    have hsk := skip_over_length s
    cases hs : skip_over s with
    | nil => rw [hs] at hu; simp at hu
    | cons c s1 =>
      rw [hs] at hu hsk
      simp only at hu
      split at hu
      · simp only [Option.some.injEq, Prod.mk.injEq] at hu
        have := ident_tail_length s1
        rw [hu.2] at this
        simp only [List.length_cons] at hsk
        omega
      · cases hu
  | none =>
    rw [hu] at h
    simp only at h
    unfold ident_quoted at h
    cases h1 : lit [34] s with
    | none => rw [h1] at h; simp at h
    | some s1 =>
      rw [h1] at h
      simp only at h
      cases h2 : lit [34] (quoted_body s1).2 with
      | none => rw [h2] at h; simp at h
      | some s3 =>
        rw [h2] at h
        simp only [Option.some.injEq, Prod.mk.injEq] at h
        have a1 := lit_length _ _ _ h1
        have a2 := lit_length _ _ _ h2
        have a3 := quoted_body_length s1
        rw [← h.2]
        simp only [List.length_singleton] at a1 a2
        omega

theorem ident_list_tail_total : ∀ (fuel : Nat) (s : Str), s.length < fuel →
    ∃ r, ident_list_tail fuel s = some r := by
  intro fuel
  induction fuel with
  | zero => intro s h; omega
  | succ fuel ih =>
    intro s h
    unfold ident_list_tail
    cases h1 : lit [44] s with
    | none => exact ⟨_, rfl⟩
    | some s1 =>
      simp only
      cases h2 : ident s1 with
      | none => exact ⟨_, rfl⟩
      | some r =>
        obtain ⟨name, s2⟩ := r
        simp only
        have a1 := lit_length _ _ _ h1
        have a2 := ident_length _ _ _ h2
        obtain ⟨r', hr'⟩ := ih s2 (by omega)
        rw [hr']
        exact ⟨_, rfl⟩

/-- The parse of a header line ends: it fails or it yields at least one column. -/
theorem copy_line_total (table_name line : Str) :
    copy_line table_name line = some none ∨
    ∃ name names, copy_line table_name line = some (some (name :: names)) := by
  unfold copy_line
  cases lit (bytes "COPY") line with
  | none => exact Or.inl rfl
  | some s1 =>
    simp only
    cases lit table_name s1 with
    | none => exact Or.inl rfl
    | some s2 =>
      simp only
      cases lit (bytes "(") s2 with
      | none => exact Or.inl rfl
      | some s3 =>
        simp only
        cases ident s3 with
        | none => exact Or.inl rfl
        | some r =>
          obtain ⟨name, s4⟩ := r
          simp only
          obtain ⟨⟨names, s5⟩, hr⟩ := ident_list_tail_total (s4.length + 1) s4 (by omega)
          rw [hr]
          simp only
          cases lit (bytes ") FROM stdin;") s5 with
          | none => exact Or.inl rfl
          | some _ => exact Or.inr ⟨name, names, rfl⟩

/-- The loop of `init` on a stream with a header line. -/
theorem init_loop_header : ∀ (pre : List Str) (fuel : Nat) (f : filter_copy_contents)
    (header rest : Str), line_filter_ok f.m_source → skipped pre → newline ∉ header →
    header.take m_start_pfx.length = m_start_pfx →
    f.m_source.unread = join_lines pre ++ header ++ newline :: rest → pre.length + 1 ≤ fuel →
    ∃ lf, line_filter_ok lf ∧ lf.unread = rest ∧
      filter_copy_contents.init_loop fuel f =
        match copy_line f.m_table_name header with
        | none => none
        | some none =>
          some (Except.error (error.copy_header_parse_error header), { f with m_source := lf })
        | some (some column_names) =>
          if column_names.isEmpty then
            some (Except.error error.early_termination_error,
              { f with m_source := lf, m_in_copy := true })
          else some (Except.ok column_names, { f with m_source := lf, m_in_copy := true }) := by
  intro pre
  induction pre with
  | nil =>
    intro fuel f header rest hok _ hnl hpfx hun hfuel
    obtain ⟨fuel, rfl⟩ : ∃ k, fuel = k + 1 := ⟨fuel - 1, by simp at hfuel; omega⟩
    rw [join_lines_nil, List.nil_append] at hun
    obtain ⟨lf, h1, hok1, hun1⟩ := read_line f.m_source header rest hok hnl hun
    refine ⟨lf, hok1, hun1, ?_⟩
    rw [filter_copy_contents.init_loop]
    simp only [h1, hpfx, if_true, one_ne_zero, if_false]
    cases copy_line f.m_table_name header with
    | none => rfl
    | some r =>
      cases r with
      | none => rfl
      | some cols => simp
  | cons l pre ih =>
    intro fuel f header rest hok hsk hnl hpfx hun hfuel
    obtain ⟨fuel, rfl⟩ : ∃ k, fuel = k + 1 := ⟨fuel - 1, by simp at hfuel; omega⟩
    simp only [join_lines_cons, List.append_assoc, List.cons_append] at hun
    obtain ⟨hl1, hl2⟩ := hsk l (List.mem_cons_self _ _)
    obtain ⟨lf, h1, hok1, hun1⟩ := read_line f.m_source l _ hok hl1 hun
    obtain ⟨lf2, hok2, hun2, hrun⟩ := ih fuel { f with m_source := lf } header rest hok1
      (fun x hx => hsk x (List.mem_cons_of_mem _ hx)) hnl hpfx (by rw [hun1, List.append_assoc])
      (by simpa using hfuel)
    refine ⟨lf2, hok2, hun2, ?_⟩
    rw [filter_copy_contents.init_loop]
    simp only [h1, hl2, if_false, one_ne_zero]
    rw [hrun]

/-! ## `filter_copy_contents` -/

theorem filter_read_eof (f : filter_copy_contents) (tail : Str) (hok : line_filter_ok f.m_source)
    (hnl : newline ∉ tail) (hun : f.m_source.unread = tail) :
    ∃ lf, f.read = some (0, tail, { f with m_source := lf }) ∧ line_filter_ok lf ∧
      lf.unread = [] := by
  obtain ⟨lf, h1, hok1, hun1⟩ := read_eof f.m_source tail hok hnl hun
  refine ⟨lf, ?_, hok1, hun1⟩
  rw [filter_copy_contents.read, filter_copy_contents.read_loop]
  simp only [h1, if_true]

theorem filter_read_drain : ∀ (ls : List Str) (fuel : Nat) (f : filter_copy_contents)
    (tail : Str), f.m_in_copy = false → line_filter_ok f.m_source → (∀ l ∈ ls, newline ∉ l) →
    newline ∉ tail → f.m_source.unread = join_lines ls ++ tail → ls.length + 1 ≤ fuel →
    ∃ lf, filter_copy_contents.read_loop fuel f = some (0, tail, { f with m_source := lf }) ∧
      line_filter_ok lf ∧ lf.unread = [] := by
  intro ls
  induction ls with
  | nil =>
    intro fuel f tail _ hok _ ht hun hfuel
    obtain ⟨fuel, rfl⟩ : ∃ k, fuel = k + 1 := ⟨fuel - 1, by simp at hfuel; omega⟩
    rw [join_lines_nil, List.nil_append] at hun
    obtain ⟨lf, h1, hok1, hun1⟩ := read_eof f.m_source tail hok ht hun
    refine ⟨lf, ?_, hok1, hun1⟩
    rw [filter_copy_contents.read_loop]
    simp only [h1, if_true]
  | cons l ls ih =>
    intro fuel f tail hin hok hl ht hun hfuel
    obtain ⟨fuel, rfl⟩ : ∃ k, fuel = k + 1 := ⟨fuel - 1, by simp at hfuel; omega⟩
    simp only [join_lines_cons, List.append_assoc, List.cons_append] at hun
    obtain ⟨lf, h1, hok1, hun1⟩ := read_line f.m_source l _ hok (hl l (List.mem_cons_self _ _)) hun
    obtain ⟨lf2, h2, hok2, hun2⟩ := ih fuel { f with m_source := lf } tail hin hok1
      (fun x hx => hl x (List.mem_cons_of_mem _ hx)) ht hun1 (by simpa using hfuel)
    refine ⟨lf2, ?_, hok2, hun2⟩
    rw [filter_copy_contents.read_loop]
    simp only [h1, one_ne_zero, if_false, hin, Bool.false_and, Bool.false_eq_true, Bool.not_false,
      if_true]
    simp only [hin] at h2
    exact h2

theorem filter_read_row (f : filter_copy_contents) (l rest : Str) (hin : f.m_in_copy = true)
    (hok : line_filter_ok f.m_source) (hnl : newline ∉ l) (hne : l ≠ m_end_line)
    (hun : f.m_source.unread = l ++ newline :: rest) :
    ∃ lf, f.read = some (1, l, { f with m_source := lf }) ∧ line_filter_ok lf ∧
      lf.unread = rest := by
  obtain ⟨lf, h1, hok1, hun1⟩ := read_line f.m_source l rest hok hnl hun
  refine ⟨lf, ?_, hok1, hun1⟩
  rw [filter_copy_contents.read, filter_copy_contents.read_loop]
  simp only [h1, one_ne_zero, if_false, hin, hne, decide_False, Bool.and_false,
    Bool.false_eq_true, Bool.not_true]

theorem filter_read_terminator (f : filter_copy_contents) (ls : List Str) (tail : Str)
    (hin : f.m_in_copy = true) (hok : line_filter_ok f.m_source) (hl : ∀ l ∈ ls, newline ∉ l)
    (ht : newline ∉ tail)
    (hun : f.m_source.unread = m_end_line ++ newline :: (join_lines ls ++ tail)) :
    ∃ lf, f.read = some (0, tail, { f with m_source := lf, m_in_copy := false }) ∧
      line_filter_ok lf ∧ lf.unread = [] := by
  obtain ⟨lf, h1, hok1, hun1⟩ := read_line f.m_source m_end_line _ hok (by decide) hun
  have hlen : ls.length + 1 ≤ f.m_source.unread.length + 1 := by
    rw [hun]
    have := join_lines_length ls
    simp only [List.length_append, List.length_cons]
    omega
  obtain ⟨lf2, h2, hok2, hun2⟩ := filter_read_drain ls (f.m_source.unread.length + 1)
    { f with m_source := lf, m_in_copy := false } tail rfl hok1 hl ht hun1 hlen
  refine ⟨lf2, ?_, hok2, hun2⟩
  rw [filter_copy_contents.read, filter_copy_contents.read_loop]
  simp only [h1, one_ne_zero, if_false, hin, decide_True, Bool.and_self, if_true, Bool.not_false]
  exact h2

theorem filter_read_many_exhausted : ∀ (k : Nat) (f : filter_copy_contents),
    line_filter_ok f.m_source → f.m_source.unread = [] →
    ∃ f', f.read_many k = some (List.replicate k (0, []), f') := by
  intro k
  induction k with
  | zero => intro f _ _; exact ⟨f, rfl⟩
  | succ k ih =>
    intro f hok hun
    obtain ⟨lf, h1, hok1, hun1⟩ := filter_read_eof f [] hok (by simp) hun
    obtain ⟨f2, h2⟩ := ih { f with m_source := lf } hok1 hun1
    exact ⟨f2, by simp only [filter_copy_contents.read_many, h1, h2, List.replicate_succ]⟩

/-- Successive calls of `filter_copy_contents::read` inside a COPY section. -/
theorem filter_read_many_rows : ∀ (lines : List Str) (tail : Str) (k : Nat)
    (f : filter_copy_contents), f.m_in_copy = true → line_filter_ok f.m_source →
    (∀ l ∈ lines, newline ∉ l) → newline ∉ tail →
    f.m_source.unread = join_lines lines ++ tail →
    ∃ f', f.read_many ((data_rows lines).length + k) =
      some ((data_rows lines).map (fun l => (1, l)) ++ end_reads tail k, f') := by
  intro lines
  induction lines with
  | nil =>
    intro tail k f _ hok _ ht hun
    rw [join_lines_nil, List.nil_append] at hun
    cases k with
    | zero => exact ⟨f, rfl⟩
    | succ k =>
      obtain ⟨lf, h1, hok1, hun1⟩ := filter_read_eof f tail hok ht hun
      obtain ⟨f2, h2⟩ := filter_read_many_exhausted k { f with m_source := lf } hok1 hun1
      refine ⟨f2, ?_⟩
      simp only [data_rows, List.takeWhile_nil, List.length_nil, Nat.zero_add, List.map_nil,
        List.nil_append, end_reads]
      simp only [filter_copy_contents.read_many, h1, h2]
  | cons l ls ih =>
    intro tail k f hin hok hl ht hun
    simp only [join_lines_cons, List.append_assoc, List.cons_append] at hun
    by_cases he : l = m_end_line
    · have hd : data_rows (l :: ls) = [] := by simp [data_rows, he]
      rw [hd]
      cases k with
      | zero => exact ⟨f, rfl⟩
      | succ k =>
        rw [he] at hun
        obtain ⟨lf, h1, hok1, hun1⟩ := filter_read_terminator f ls tail hin hok
          (fun x hx => hl x (List.mem_cons_of_mem _ hx)) ht hun
        obtain ⟨f2, h2⟩ := filter_read_many_exhausted k
          { f with m_source := lf, m_in_copy := false } hok1 hun1
        refine ⟨f2, ?_⟩
        simp only [List.length_nil, Nat.zero_add, List.map_nil, List.nil_append, end_reads]
        simp only [filter_copy_contents.read_many, h1, h2]
    · have hd : data_rows (l :: ls) = l :: data_rows ls := by simp [data_rows, he]
      rw [hd]
      obtain ⟨lf, h1, hok1, hun1⟩ := filter_read_row f l _ hin hok
        (hl l (List.mem_cons_self _ _)) he hun
      obtain ⟨f2, h2⟩ := ih tail k { f with m_source := lf } hin hok1
        (fun x hx => hl x (List.mem_cons_of_mem _ hx)) ht hun1
      refine ⟨f2, ?_⟩
      rw [List.length_cons, Nat.add_right_comm]
      simp only [filter_copy_contents.read_many, h1, h2, List.map_cons, List.cons_append]

/-- What `init` does on a stream with a header line. -/
theorem init_header (source : process) (buffer_size : Nat) (hb : 1 ≤ buffer_size)
    (table_name : Str) (pre : List Str) (header rest : Str) (hpre : skipped pre)
    (hnl : newline ∉ header) (hpfx : header.take m_start_pfx.length = m_start_pfx)
    (hs : source.pending = join_lines pre ++ header ++ newline :: rest) :
    ∃ lf, line_filter_ok lf ∧ lf.unread = rest ∧
      ((copy_line table_name header = some none ∧
        (pimpl_cont_filter source buffer_size table_name).init =
          some (Except.error (error.copy_header_parse_error header),
            { m_source := lf, m_in_copy := false, m_table_name := table_name })) ∨
       (∃ name names, copy_line table_name header = some (some (name :: names)) ∧
        (pimpl_cont_filter source buffer_size table_name).init =
          some (Except.ok (name :: names),
            { m_source := lf, m_in_copy := true, m_table_name := table_name }))) := by
  obtain ⟨hok, hun⟩ := ctor_ok source buffer_size hb
  have hlen : pre.length + 1 ≤
      (pimpl_cont_filter source buffer_size table_name).m_source.unread.length + 2 := by
    have := join_lines_length pre
    show pre.length + 1 ≤ (to_line_filter.ctor source buffer_size).unread.length + 2
    rw [hun, hs]
    simp only [List.length_append, List.length_cons]
    omega
  obtain ⟨lf, hok1, hun1, hrun⟩ := init_loop_header pre _
    (pimpl_cont_filter source buffer_size table_name) header rest hok hpre hnl hpfx
    (by show (to_line_filter.ctor source buffer_size).unread = _; rw [hun, hs]) hlen
  refine ⟨lf, hok1, hun1, ?_⟩
  rw [filter_copy_contents.init, hrun]
  rcases copy_line_total table_name header with h | ⟨name, names, h⟩
  · left
    refine ⟨h, ?_⟩
    show (match copy_line table_name header with
      | none => none
      | some none => _
      | some (some column_names) => _) = _
    rw [h]
    rfl
  · right
    refine ⟨name, names, h, ?_⟩
    show (match copy_line table_name header with
      | none => none
      | some none => _
      | some (some column_names) => _) = _
    rw [h]
    rfl

/-! ## Claims about the COPY filter -/

/-- Claim C8.  Let the stream hold lines without the start `COPY `, then a header line,
then the complete lines `lines` and an unterminated rest `tail`, and let `init` return
the column names.  Then the calls of `filter_copy_contents::read` return `1` with the
lines of `lines` before the first line `\.` (`data_rows`), in their order, and
every later call returns `0`; the terminator line is not among the delivered lines. -/
theorem filter_read_delivers_data_rows (source : process) (buffer_size : Nat)
    (hb : 1 ≤ buffer_size) (table_name : Str) (pre : List Str) (header : Str)
    (lines : List Str) (tail : Str) (hpre : skipped pre) (hnl : newline ∉ header)
    (hpfx : header.take m_start_pfx.length = m_start_pfx) (hl : ∀ l ∈ lines, newline ∉ l)
    (ht : newline ∉ tail)
    (hs : source.pending = join_lines pre ++ header ++ newline :: (join_lines lines ++ tail))
    (column_names : List Str)
    (hinit : ((pimpl_cont_filter source buffer_size table_name).init).map Prod.fst =
      some (Except.ok column_names))
    (k : Nat) :
    ∃ f1 f2, (pimpl_cont_filter source buffer_size table_name).init =
        some (Except.ok column_names, f1) ∧
      f1.read_many ((data_rows lines).length + k) =
        some ((data_rows lines).map (fun l => (1, l)) ++ end_reads tail k, f2) := by
  obtain ⟨lf, hok, hun, hcase⟩ := init_header source buffer_size hb table_name pre header
    (join_lines lines ++ tail) hpre hnl hpfx hs
  rcases hcase with ⟨_, h⟩ | ⟨name, names, _, h⟩
  · rw [h] at hinit
    simp at hinit
  · rw [h] at hinit
    simp only [Option.map_some', Option.some.injEq, Except.ok.injEq] at hinit
    obtain ⟨f2, h2⟩ := filter_read_many_rows lines tail k
      { m_source := lf, m_in_copy := true, m_table_name := table_name } rfl hok hl ht hun
    exact ⟨_, f2, by rw [h, hinit], h2⟩

set_option maxRecDepth 100000 in
theorem filter_read_delivers_data_rows_witness :
    ∃ f1 f2, (pimpl_cont_filter
        { pending := bytes "SET x;\nCOPY t (a) FROM stdin;\n1\n2\n3\n", short_reads := [] } 16
        (bytes "t")).init = some (Except.ok [bytes "a"], f1) ∧
      f1.read_many ((data_rows [bytes "1", bytes "2", bytes "3"]).length + 2) =
        some ((data_rows [bytes "1", bytes "2", bytes "3"]).map (fun l => (1, l)) ++
          end_reads [] 2, f2) :=
  filter_read_delivers_data_rows
    { pending := bytes "SET x;\nCOPY t (a) FROM stdin;\n1\n2\n3\n", short_reads := [] } 16
    (by decide) (bytes "t") [bytes "SET x;"] (bytes "COPY t (a) FROM stdin;")
    [bytes "1", bytes "2", bytes "3"] [] (by decide) (by decide) (by decide) (by decide)
    (by decide) (by decide) [bytes "a"] (by decide) 2

/-- When the grammar `copy_line(table_name)` rejects the first line that begins with
`COPY ` (`qi::phrase_parse` returns `false`), `init` throws `copy_header_parse_error`
with exactly this line as its `copy_header`. -/
theorem init_parse_failure_throws (source : process) (buffer_size : Nat)
    (hb : 1 ≤ buffer_size) (table_name : Str) (pre : List Str) (header rest : Str)
    (hpre : skipped pre) (hnl : newline ∉ header)
    (hpfx : header.take m_start_pfx.length = m_start_pfx)
    (hs : source.pending = join_lines pre ++ header ++ newline :: rest)
    (hbad : copy_line table_name header = some none) :
    ∃ f1, (pimpl_cont_filter source buffer_size table_name).init =
      some (Except.error (error.copy_header_parse_error header), f1) := by
  obtain ⟨lf, _, _, hcase⟩ := init_header source buffer_size hb table_name pre header rest hpre
    hnl hpfx hs
  rcases hcase with ⟨_, h⟩ | ⟨name, names, hc, _⟩
  · exact ⟨_, h⟩
  · rw [hc] at hbad
    cases hbad

set_option maxRecDepth 100000 in
/-- The header `COPY foo FROM stdin;`, which has no column list, makes `init` throw
`copy_header_parse_error` with this line. -/
theorem init_header_without_columns :
    ∃ f1, (pimpl_cont_filter { pending := bytes "COPY foo FROM stdin;\n", short_reads := [] } 16
        (bytes "foo")).init =
      some (Except.error (error.copy_header_parse_error (bytes "COPY foo FROM stdin;")), f1) :=
  init_parse_failure_throws { pending := bytes "COPY foo FROM stdin;\n", short_reads := [] }
    16 (by decide) (bytes "foo") [] (bytes "COPY foo FROM stdin;") [] (by decide) (by decide)
    (by decide) (by decide) (by decide)

set_option maxRecDepth 100000 in
/-- Claim C10 fails on the code.  In the header `COPY t (a b) FROM stdin;` the column
list holds two words without a comma between them, so the line does not match the
grammar `COPY <table> ( <ident> (, <ident>)* ) FROM stdin;`.  `init` throws nothing: it
returns the one column name `ab`. -/
theorem init_accepts_header_outside_grammar :
    ((pimpl_cont_filter { pending := bytes "COPY t (a b) FROM stdin;\n", short_reads := [] } 16
        (bytes "t")).init).map Prod.fst = some (Except.ok [bytes "ab"]) := by
  decide

set_option maxRecDepth 100000 in
/-- Claim C9 fails on the code.  For the header `COPY t (id, "a b") FROM stdin;` the
column names that `init` returns are `id` and `ab`: the blank inside the quoted
identifier is lost, because the rule `ident` runs under the skipper `qi::space`. -/
theorem init_drops_blanks_in_quoted_identifier :
    ((pimpl_cont_filter
        { pending := bytes "COPY t (id, \"a b\") FROM stdin;\n", short_reads := [] } 16
        (bytes "t")).init).map Prod.fst = some (Except.ok [bytes "id", bytes "ab"]) ∧
    bytes "ab" ≠ bytes "a b" := by
  decide

set_option maxRecDepth 100000 in
/-- The header in the comment above `copy_line` in the source yields its eight column
names, the quoted one without its quotes. -/
theorem init_source_comment_header :
    ((pimpl_cont_filter
        { pending := bytes ("COPY current_nodes (id, latitude, longitude, changeset_id, " ++
            "visible, \"timestamp\", tile, version) FROM stdin;\n"), short_reads := [] } 16
        (bytes "current_nodes")).init).map Prod.fst =
      some (Except.ok [bytes "id", bytes "latitude", bytes "longitude", bytes "changeset_id",
        bytes "visible", bytes "timestamp", bytes "tile", bytes "version"]) := by
  decide

/-! ## The order of `compare_first` -/

theorem lex_le_cons (x : Byte) (a b : Str) : lex_le (x :: a) (x :: b) ↔ lex_le a b := by
  constructor
  · rintro (⟨e, he⟩ | ⟨c, p, q, ra, rb, h1, h2, h3⟩)
    · exact Or.inl ⟨e, by simpa using he⟩
    · cases c with
      | nil =>
        simp only [List.nil_append, List.cons.injEq] at h1 h2
        obtain ⟨rfl, -⟩ := h1
        obtain ⟨rfl, -⟩ := h2
        exact absurd h3 (lt_irrefl _)
      | cons z c =>
        simp only [List.cons_append, List.cons.injEq] at h1 h2
        exact Or.inr ⟨c, p, q, ra, rb, h1.2, h2.2, h3⟩
  · rintro (⟨e, he⟩ | ⟨c, p, q, ra, rb, h1, h2, h3⟩)
    · exact Or.inl ⟨e, by rw [he]; rfl⟩
    · exact Or.inr ⟨x :: c, p, q, ra, rb, by rw [h1]; rfl, by rw [h2]; rfl, h3⟩

theorem compare_first_keys_lex_le : ∀ a b : Str, compare_first_keys a b = true ↔ lex_le a b
  | [], b => by
    simp only [compare_first_keys, true_iff]
    exact Or.inl ⟨b, rfl⟩
  | x :: a, [] => by
    simp only [compare_first_keys, Bool.false_eq_true, false_iff]
    rintro (⟨e, he⟩ | ⟨c, p, q, ra, rb, -, h2, -⟩)
    · simp at he
    · cases c <;> simp at h2
  | x :: a, y :: b => by
    rw [compare_first_keys]
    by_cases h1 : x < y
    · simp only [h1, if_true, true_iff]
      exact Or.inr ⟨[], x, y, a, b, rfl, rfl, h1⟩
    · by_cases h2 : x > y
      · simp only [h1, h2, if_true, if_false, Bool.false_eq_true, false_iff]
        rintro (⟨e, he⟩ | ⟨c, p, q, ra, rb, h3, h4, h5⟩)
        · simp only [List.cons_append, List.cons.injEq] at he
          rw [he.1] at h2
          exact lt_irrefl _ h2
        · cases c with
          | nil =>
            simp only [List.nil_append, List.cons.injEq] at h3 h4
            obtain ⟨rfl, -⟩ := h3
            obtain ⟨rfl, -⟩ := h4
            exact lt_asymm h2 h5
          | cons z c =>
            simp only [List.cons_append, List.cons.injEq] at h3 h4
            rw [h3.1, h4.1] at h2
            exact lt_irrefl _ h2
      · have hxy : x = y := le_antisymm (not_lt.mp h2) (not_lt.mp h1)
        subst hxy
        simp only [h1, if_false]
        rw [compare_first_keys_lex_le a b, lex_le_cons]

/-- Claim C19: `compare_first` is "at most" on the keys.  It returns `true` exactly when
the key of the first pair is lexicographically at most the key of the second, bytes
compared as unsigned values (in the order of `List (Fin 256)` and in the textbook form
`lex_le`); the values play no part; a key sorts before each of its proper extensions and
`0x80` sorts after `0x7f`; on equal keys the result is `true`, so the relation is
reflexive, total and transitive, and it is not irreflexive. -/
theorem compare_first_is_key_le :
    (∀ a b : kv_pair_t, compare_first a b = true ↔ a.1 ≤ b.1) ∧
    (∀ a b : kv_pair_t, compare_first a b = true ↔ lex_le a.1 b.1) ∧
    (∀ (k l v w v' w' : Str), compare_first (k, v) (l, w) = compare_first (k, v') (l, w')) ∧
    (∀ (k e v w : Str), compare_first (k, v) (k ++ e, w) = true ∧
      (e ≠ [] → compare_first (k ++ e, w) (k, v) = false)) ∧
    (∀ v w : Str, compare_first ([0x7f], v) ([0x80], w) = true ∧
      compare_first ([0x80], w) ([0x7f], v) = false) ∧
    (∀ a b : kv_pair_t, a.1 = b.1 → compare_first a b = true) ∧
    (∀ a : kv_pair_t, compare_first a a = true) ∧
    (∀ a b : kv_pair_t, compare_first a b = true ∨ compare_first b a = true) ∧
    (∀ a b c : kv_pair_t, compare_first a b = true → compare_first b c = true →
      compare_first a c = true) ∧
    ¬ (∀ a : kv_pair_t, compare_first a a = false) := by
  have hbeg : ∀ k e : Str, compare_first_keys k (k ++ e) = true := by
    intro k e
    induction k with
    | nil => rfl
    | cons x k ih => simp [compare_first_keys, ih]
  have hext : ∀ k e : Str, e ≠ [] → compare_first_keys (k ++ e) k = false := by
    intro k e he
    induction k with
    | nil =>
      cases e with
      | nil => exact absurd rfl he
      | cons x e => rfl
    | cons x k ih => simp [compare_first_keys, ih]
  refine ⟨compare_first_iff, fun a b => compare_first_keys_lex_le a.1 b.1, fun _ _ _ _ _ _ => rfl,
    fun k e _ _ => ⟨hbeg k e, hext k e⟩, fun _ _ => ⟨rfl, rfl⟩, ?_, ?_, ?_, ?_, ?_⟩
  · intro a b h
    rw [compare_first_iff, h]
  · intro a
    rw [compare_first_iff]
  · intro a b
    rw [compare_first_iff, compare_first_iff]
    exact le_total _ _
  · intro a b c
    rw [compare_first_iff, compare_first_iff, compare_first_iff]
    exact le_trans
  · intro h
    have := h ([], [])
    simp [compare_first, compare_first_keys] at this

/-! ## Streams without a header line -/

/-- A byte stream has no newline or splits at its first newline. -/
theorem split_first_newline (s : Str) :
    newline ∉ s ∨ ∃ l r, newline ∉ l ∧ s = l ++ newline :: r := by
  induction s with
  | nil => exact Or.inl (List.not_mem_nil _)
  | cons c s ih =>
    by_cases hc : c = newline
    · exact Or.inr ⟨[], s, List.not_mem_nil _, by rw [hc]; rfl⟩
    · rcases ih with h | ⟨l, r, hl, hs⟩
      · left
        intro hm
        rcases List.mem_cons.mp hm with h1 | h1
        · exact hc h1.symm
        · exact h h1
      · right
        refine ⟨c :: l, r, ?_, by rw [hs]; rfl⟩
        intro hm
        rcases List.mem_cons.mp hm with h1 | h1
        · exact hc h1.symm
        · exact hl h1

/-- The first line of a stream is determined by the stream. -/
theorem first_line_unique : ∀ (l l' r r' : Str), newline ∉ l → newline ∉ l' →
    l ++ newline :: r = l' ++ newline :: r' → l = l' ∧ r = r'
  | [], [], r, r', _, _, h => ⟨rfl, by simpa using h⟩
  | [], c :: l', r, r', _, h2, h => by
    simp only [List.nil_append, List.cons_append, List.cons.injEq] at h
    exact absurd (List.mem_cons.mpr (Or.inl h.1)) h2
  | c :: l, [], r, r', h1, _, h => by
    simp only [List.nil_append, List.cons_append, List.cons.injEq] at h
    exact absurd (List.mem_cons.mpr (Or.inl h.1.symm)) h1
  | c :: l, c' :: l', r, r', h1, h2, h => by
    simp only [List.cons_append, List.cons.injEq] at h
    obtain ⟨h3, h4⟩ := first_line_unique l l' r r'
      (fun hm => h1 (List.mem_cons_of_mem _ hm)) (fun hm => h2 (List.mem_cons_of_mem _ hm)) h.2
    exact ⟨by rw [h.1, h3], h4⟩

/-- Every stream either has a first complete line that begins with `COPY `, or consists
of complete lines that do not begin with it and a rest without a newline. -/
theorem stream_cases : ∀ (n : Nat) (s : Str), s.length ≤ n →
    (∃ pre header rest, skipped pre ∧ newline ∉ header ∧
      header.take m_start_pfx.length = m_start_pfx ∧
      s = join_lines pre ++ header ++ newline :: rest) ∨
    (∃ pre tail, skipped pre ∧ newline ∉ tail ∧ s = join_lines pre ++ tail)
  | 0, s, h => by
    right
    refine ⟨[], s, fun _ hl => absurd hl (List.not_mem_nil _), ?_, rfl⟩
    rw [List.length_eq_zero.mp (Nat.le_zero.mp h)]
    exact List.not_mem_nil _
  | n + 1, s, h => by
    rcases split_first_newline s with hs | ⟨l, r, hl, hs⟩
    · exact Or.inr ⟨[], s, fun _ hl => absurd hl (List.not_mem_nil _), hs, rfl⟩
    · by_cases hp : l.take m_start_pfx.length = m_start_pfx
      · exact Or.inl ⟨[], l, r, fun _ hx => absurd hx (List.not_mem_nil _), hl, hp, by
          rw [hs]; rfl⟩
      · have hr : r.length ≤ n := by
          rw [hs] at h
          simp only [List.length_append, List.length_cons] at h
          omega
        have hsk : ∀ pre, skipped pre → skipped (l :: pre) := by
          intro pre hpre x hx
          rcases List.mem_cons.mp hx with rfl | hx
          · exact ⟨hl, hp⟩
          · exact hpre x hx
        rcases stream_cases n r hr with ⟨pre, header, rest, h1, h2, h3, h4⟩ | ⟨pre, tail, h1, h2, h3⟩
        · refine Or.inl ⟨l :: pre, header, rest, hsk pre h1, h2, h3, ?_⟩
          rw [hs, h4, join_lines_cons]
          simp only [List.append_assoc, List.cons_append]
        · refine Or.inr ⟨l :: pre, tail, hsk pre h1, h2, ?_⟩
          rw [hs, h3, join_lines_cons]
          simp only [List.append_assoc, List.cons_append]

/-- A stream of skipped lines and a rest without a newline has no complete line that
begins with `COPY `. -/
theorem no_copy_line_of_skipped : ∀ (pre : List Str) (tail : Str), skipped pre →
    newline ∉ tail → ¬ has_copy_line (join_lines pre ++ tail)
  | [], tail, _, ht => by
    rintro ⟨before, line, rest, -, -, -, h⟩
    apply ht
    rw [join_lines_nil, List.nil_append] at h
    rw [h]
    simp
  | l :: pre, tail, hsk, ht => by
    rintro ⟨before, line, rest, hb, hline, hp, h⟩
    obtain ⟨hl1, hl2⟩ := hsk l (List.mem_cons_self _ _)
    cases before with
    | nil =>
      rw [join_lines_nil, List.nil_append, join_lines_cons] at h
      simp only [List.append_assoc, List.cons_append] at h
      obtain ⟨h1, -⟩ := first_line_unique _ _ _ _ hl1 hline h
      rw [h1] at hl2
      exact hl2 hp
    | cons b bs =>
      rw [join_lines_cons, join_lines_cons] at h
      simp only [List.append_assoc, List.cons_append] at h
      obtain ⟨-, h2⟩ := first_line_unique _ _ _ _ hl1 (hb b (List.mem_cons_self _ _)) h
      exact no_copy_line_of_skipped pre tail (fun x hx => hsk x (List.mem_cons_of_mem _ hx)) ht
        ⟨bs, line, rest, fun x hx => hb x (List.mem_cons_of_mem _ hx), hline, hp, by
          rw [h2]; simp only [List.append_assoc]⟩

/-- The loop of `init` on a stream without a header line. -/
theorem init_loop_eof : ∀ (pre : List Str) (fuel : Nat) (f : filter_copy_contents)
    (tail : Str), line_filter_ok f.m_source → skipped pre → newline ∉ tail →
    f.m_source.unread = join_lines pre ++ tail → pre.length + 1 ≤ fuel →
    ∃ lf, filter_copy_contents.init_loop fuel f =
      some (Except.error error.early_termination_error, { f with m_source := lf })
  | [], fuel, f, tail, hok, _, hnl, hun, hfuel => by
    obtain ⟨fuel, rfl⟩ : ∃ k, fuel = k + 1 := ⟨fuel - 1, by simp at hfuel; omega⟩
    rw [join_lines_nil, List.nil_append] at hun
    obtain ⟨lf, h1, -, -⟩ := read_eof f.m_source tail hok hnl hun
    refine ⟨lf, ?_⟩
    rw [filter_copy_contents.init_loop]
    simp only [h1, if_true]
  | l :: pre, fuel, f, tail, hok, hsk, hnl, hun, hfuel => by
    obtain ⟨fuel, rfl⟩ : ∃ k, fuel = k + 1 := ⟨fuel - 1, by simp at hfuel; omega⟩
    simp only [join_lines_cons, List.append_assoc, List.cons_append] at hun
    obtain ⟨hl1, hl2⟩ := hsk l (List.mem_cons_self _ _)
    obtain ⟨lf, h1, hok1, hun1⟩ := read_line f.m_source l _ hok hl1 hun
    obtain ⟨lf2, hrun⟩ := init_loop_eof pre fuel { f with m_source := lf } tail hok1
      (fun x hx => hsk x (List.mem_cons_of_mem _ hx)) hnl hun1 (by simpa using hfuel)
    refine ⟨lf2, ?_⟩
    rw [filter_copy_contents.init_loop]
    simp only [h1, hl2, if_false, one_ne_zero]
    rw [hrun]

/-- What `init` does on a stream without a header line. -/
theorem init_eof (source : process) (buffer_size : Nat) (hb : 1 ≤ buffer_size)
    (table_name : Str) (pre : List Str) (tail : Str) (hpre : skipped pre)
    (hnl : newline ∉ tail) (hs : source.pending = join_lines pre ++ tail) :
    ∃ lf, (pimpl_cont_filter source buffer_size table_name).init =
      some (Except.error error.early_termination_error,
        { m_source := lf, m_in_copy := false, m_table_name := table_name }) := by
  obtain ⟨hok, hun⟩ := ctor_ok source buffer_size hb
  have hlen : pre.length + 1 ≤
      (pimpl_cont_filter source buffer_size table_name).m_source.unread.length + 2 := by
    have := join_lines_length pre
    show pre.length + 1 ≤ (to_line_filter.ctor source buffer_size).unread.length + 2
    rw [hun, hs]
    simp only [List.length_append]
    omega
  obtain ⟨lf, hrun⟩ := init_loop_eof pre _
    (pimpl_cont_filter source buffer_size table_name) tail hok hpre hnl
    (by show (to_line_filter.ctor source buffer_size).unread = _; rw [hun, hs]) hlen
  exact ⟨lf, by rw [filter_copy_contents.init, hrun]; rfl⟩

/-! ## Claim about `init` and the missing header -/

/-- Claim C11: `init()` returns or throws on every stream, and it throws
`early_termination_error` exactly when the stream has no complete line that begins with
`COPY `.  Complete lines before the header that do not begin with `COPY ` are skipped
without an error: with such lines in front of a header line, the outcome is the one of
parsing the header line (`copy_header_parse_error` with that line, or its column
names). -/
theorem init_fails_iff_no_copy_line (source : process) (buffer_size : Nat)
    (hb : 1 ≤ buffer_size) (table_name : Str) :
    ∃ r f, (pimpl_cont_filter source buffer_size table_name).init = some (r, f) ∧
      (r = Except.error error.early_termination_error ↔ ¬ has_copy_line source.pending) ∧
      (∀ (pre : List Str) (header rest : Str), skipped pre → newline ∉ header →
        header.take m_start_pfx.length = m_start_pfx →
        source.pending = join_lines pre ++ header ++ newline :: rest →
        (copy_line table_name header = some none ∧
          r = Except.error (error.copy_header_parse_error header)) ∨
        (∃ cols, copy_line table_name header = some (some cols) ∧ r = Except.ok cols)) := by
  have key : ∀ r f, (pimpl_cont_filter source buffer_size table_name).init = some (r, f) →
      ∀ (pre : List Str) (header rest : Str), skipped pre → newline ∉ header →
        header.take m_start_pfx.length = m_start_pfx →
        source.pending = join_lines pre ++ header ++ newline :: rest →
        (copy_line table_name header = some none ∧
          r = Except.error (error.copy_header_parse_error header)) ∨
        (∃ cols, copy_line table_name header = some (some cols) ∧ r = Except.ok cols) := by
    intro r f hinit pre header rest hpre hnl hpfx hs
    obtain ⟨lf, -, -, h⟩ := init_header source buffer_size hb table_name pre header rest hpre hnl
      hpfx hs
    rcases h with ⟨h1, h2⟩ | ⟨name, names, h1, h2⟩
    · rw [h2] at hinit
      simp only [Option.some.injEq, Prod.mk.injEq] at hinit
      exact Or.inl ⟨h1, hinit.1.symm⟩
    · rw [h2] at hinit
      simp only [Option.some.injEq, Prod.mk.injEq] at hinit
      exact Or.inr ⟨_, h1, hinit.1.symm⟩
  rcases stream_cases _ source.pending (le_refl _) with
    ⟨pre, header, rest, h1, h2, h3, h4⟩ | ⟨pre, tail, h1, h2, h3⟩
  · have hcopy : has_copy_line source.pending :=
      ⟨pre, header, rest, fun l hl => (h1 l hl).1, h2, h3, h4⟩
    obtain ⟨lf, -, -, h⟩ := init_header source buffer_size hb table_name pre header rest h1 h2
      h3 h4
    rcases h with ⟨-, h6⟩ | ⟨name, names, -, h6⟩
    · refine ⟨_, _, h6, ?_, key _ _ h6⟩
      constructor
      · intro h
        cases h
      · intro h
        exact absurd hcopy h
    · refine ⟨_, _, h6, ?_, key _ _ h6⟩
      constructor
      · intro h
        cases h
      · intro h
        exact absurd hcopy h
  · obtain ⟨lf, h⟩ := init_eof source buffer_size hb table_name pre tail h1 h2 h3
    refine ⟨_, _, h, ?_, key _ _ h⟩
    constructor
    · intro _
      rw [h3]
      exact no_copy_line_of_skipped pre tail h1 h2
    · intro _
      rfl

theorem init_fails_iff_no_copy_line_witness :
    1 ≤ 4 ∧
    ∃ r f, (pimpl_cont_filter { pending := bytes "SET x;\nCOPY t (a", short_reads := [] } 4
        (bytes "t")).init = some (r, f) ∧
      (r = Except.error error.early_termination_error ↔
        ¬ has_copy_line (bytes "SET x;\nCOPY t (a")) ∧
      (∀ (pre : List Str) (header rest : Str), skipped pre → newline ∉ header →
        header.take m_start_pfx.length = m_start_pfx →
        bytes "SET x;\nCOPY t (a" = join_lines pre ++ header ++ newline :: rest →
        (copy_line (bytes "t") header = some none ∧
          r = Except.error (error.copy_header_parse_error header)) ∨
        (∃ cols, copy_line (bytes "t") header = some (some cols) ∧ r = Except.ok cols)) :=
  ⟨by decide, init_fails_iff_no_copy_line
    { pending := bytes "SET x;\nCOPY t (a", short_reads := [] } 4 (by decide) (bytes "t")⟩

/-! ## The whole records of a byte sequence -/

theorem u16_bytes_value (be : Bool) (a b : Byte) : u16_bytes be (u16_value be [a, b]) = [a, b] := by
  have ha := a.isLt
  have hb := b.isLt
  unfold u16_value u16_bytes
  cases be
  · simp only [Bool.false_eq_true, if_false, List.cons.injEq, and_true]
    constructor
    · apply Fin.ext
      simp only [Fin.ofNat, Fin.val_mk]
      omega
    · apply Fin.ext
      simp only [Fin.ofNat, Fin.val_mk]
      omega
  · simp only [if_true, List.cons.injEq, and_true]
    constructor
    · apply Fin.ext
      simp only [Fin.ofNat, Fin.val_mk]
      omega
    · apply Fin.ext
      simp only [Fin.ofNat, Fin.val_mk]
      omega

theorem u16_value_lt (be : Bool) (a b : Byte) : u16_value be [a, b] < 65536 := by
  have ha := a.isLt
  have hb := b.isLt
  unfold u16_value
  cases be <;> simp <;> omega

/-- A stream that begins with a whole record begins with the bytes that `record` gives
for it. -/
theorem record_of_whole (be : Bool) (a b c d : Byte) (rest : Str)
    (h : u16_value be [a, b] + u16_value be [c, d] ≤ rest.length) :
    a :: b :: c :: d :: rest =
      record be (rest.take (u16_value be [a, b]),
        (rest.drop (u16_value be [a, b])).take (u16_value be [c, d])) ++
      rest.drop (u16_value be [a, b] + u16_value be [c, d]) := by
  have hk := u16_value_lt be a b
  have hv := u16_value_lt be c d
  have h1 : (rest.take (u16_value be [a, b])).length = u16_value be [a, b] := by
    rw [List.length_take]; omega
  have h2 : ((rest.drop (u16_value be [a, b])).take (u16_value be [c, d])).length =
      u16_value be [c, d] := by
    rw [List.length_take, List.length_drop]; omega
  unfold record
  simp only [h1, h2, to_uint16, Nat.mod_eq_of_lt hk, Nat.mod_eq_of_lt hv, u16_bytes_value]
  rw [List.append_assoc, List.append_assoc, ← List.drop_drop, List.take_append_drop,
    List.take_append_drop]
  rfl

theorem whole_records_spec (be : Bool) : ∀ (fuel : Nat) (s : Str), s.length ≤ fuel →
    ∃ tail, s = encode be (whole_records be fuel s) ++ tail ∧
      (∀ kv ∈ whole_records be fuel s, fits kv) ∧ whole_records be 1 tail = []
  | 0, s, h => by
    have hs : s = [] := List.length_eq_zero.mp (Nat.le_zero.mp h)
    subst hs
    exact ⟨[], rfl, fun _ hkv => by simp [whole_records] at hkv, rfl⟩
  | fuel + 1, s, h => by
    rcases s with _ | ⟨a, _ | ⟨b, _ | ⟨c, _ | ⟨d, rest⟩⟩⟩⟩
    · exact ⟨[], rfl, fun _ hkv => by simp [whole_records] at hkv, rfl⟩
    · exact ⟨[a], rfl, fun _ hkv => by simp [whole_records] at hkv, rfl⟩
    · exact ⟨[a, b], rfl, fun _ hkv => by simp [whole_records] at hkv, rfl⟩
    · exact ⟨[a, b, c], rfl, fun _ hkv => by simp [whole_records] at hkv, rfl⟩
    · by_cases hc : u16_value be [a, b] + u16_value be [c, d] ≤ rest.length
      · have hlen : (rest.drop (u16_value be [a, b] + u16_value be [c, d])).length ≤ fuel := by
          simp only [List.length_cons] at h
          rw [List.length_drop]
          omega
        obtain ⟨tail, h1, h2, h3⟩ := whole_records_spec be fuel _ hlen
        have hw : whole_records be (fuel + 1) (a :: b :: c :: d :: rest) =
            (rest.take (u16_value be [a, b]),
              (rest.drop (u16_value be [a, b])).take (u16_value be [c, d])) ::
            whole_records be fuel (rest.drop (u16_value be [a, b] + u16_value be [c, d])) := by
          simp only [whole_records, hc, if_true]
        refine ⟨tail, ?_, ?_, h3⟩
        · rw [hw, encode_cons, List.append_assoc, ← h1]
          exact record_of_whole be a b c d rest hc
        · intro kv hkv
          rw [hw] at hkv
          rcases List.mem_cons.mp hkv with rfl | hkv
          · have hk := u16_value_lt be a b
            have hv := u16_value_lt be c d
            constructor
            · show (rest.take _).length < 65536
              rw [List.length_take]; omega
            · show ((rest.drop _).take _).length < 65536
              rw [List.length_take]; omega
          · exact h2 kv hkv
      · have hw : ∀ n, whole_records be (n + 1) (a :: b :: c :: d :: rest) = [] := by
          intro n
          simp only [whole_records, hc, if_false]
        exact ⟨a :: b :: c :: d :: rest, by rw [hw]; rfl,
          fun _ hkv => by rw [hw] at hkv; simp at hkv, hw 0⟩

/-- Whole records at the beginning of a stream are found by `whole_records`. -/
theorem whole_records_encode (be : Bool) : ∀ (l : List kv_pair_t) (tail : Str) (fuel : Nat),
    (∀ kv ∈ l, fits kv) → (encode be l ++ tail).length ≤ fuel →
    l <+: whole_records be fuel (encode be l ++ tail)
  | [], _, _, _, _ => List.nil_prefix
  | kv :: l, tail, fuel, hl, hfuel => by
    obtain ⟨hk, hv⟩ := hl kv (List.mem_cons_self _ _)
    have h4 := record_length be kv
    rw [encode_cons, List.append_assoc] at hfuel ⊢
    obtain ⟨fuel, rfl⟩ : ∃ k, fuel = k + 1 :=
      ⟨fuel - 1, by simp only [List.length_append] at hfuel; omega⟩
    have hrest : (encode be l ++ tail).length ≤ fuel := by
      simp only [List.length_append] at hfuel ⊢
      omega
    have ih := whole_records_encode be l tail fuel
      (fun x hx => hl x (List.mem_cons_of_mem _ hx)) hrest
    obtain ⟨a, b, hab⟩ : ∃ a b, u16_bytes be kv.1.length = [a, b] := by
      have := u16_bytes_length be kv.1.length
      match h : u16_bytes be kv.1.length, this with
      | [a, b], _ => exact ⟨a, b, rfl⟩
    obtain ⟨c, d, hcd⟩ : ∃ c d, u16_bytes be kv.2.length = [c, d] := by
      have := u16_bytes_length be kv.2.length
      match h : u16_bytes be kv.2.length, this with
      | [c, d], _ => exact ⟨c, d, rfl⟩
    have hka : u16_value be [a, b] = kv.1.length := by rw [← hab, u16_value_bytes be _ hk]
    have hvc : u16_value be [c, d] = kv.2.length := by rw [← hcd, u16_value_bytes be _ hv]
    have hrec : record be kv ++ (encode be l ++ tail) =
        a :: b :: c :: d :: (kv.1 ++ (kv.2 ++ (encode be l ++ tail))) := by
      unfold record to_uint16
      rw [Nat.mod_eq_of_lt hk, Nat.mod_eq_of_lt hv, hab, hcd]
      simp only [List.append_assoc, List.cons_append, List.nil_append]
    rw [hrec]
    simp only [whole_records, hka, hvc, List.length_append]
    rw [if_pos (by omega)]
    have e1 : (kv.1 ++ (kv.2 ++ (encode be l ++ tail))).take kv.1.length = kv.1 :=
      List.take_left' rfl
    have e2 : (kv.1 ++ (kv.2 ++ (encode be l ++ tail))).drop kv.1.length =
        kv.2 ++ (encode be l ++ tail) := List.drop_left' rfl
    have e3 : (kv.2 ++ (encode be l ++ tail)).take kv.2.length = kv.2 := List.take_left' rfl
    have e4 : (kv.1 ++ (kv.2 ++ (encode be l ++ tail))).drop (kv.1.length + kv.2.length) =
        encode be l ++ tail := by
      rw [← List.drop_drop, e2]
      exact List.drop_left' rfl
    rw [e1, e2, e3, e4]
    exact List.prefix_cons_inj kv |>.mpr ih

/-- On a stream that does not begin with a whole record `next` ends the reader. -/
theorem next_no_record (be : Bool) (r : block_reader) (h : whole_records be 1 r.m_stream = []) :
    (r.next be).m_end = true := by
  unfold block_reader.next
  simp only [bio_read]
  split
  · rfl
  · split
    · rfl
    · split
      · rfl
      · split
        · rfl
        · rename_i h1 h2 h3 h4
          exfalso
          simp only [ne_eq, not_not] at h1 h2 h3 h4
          have e1 := (bio_read_result_inv _ 2 h1).1
          have e2 := (bio_read_result_inv _ 2 h2).1
          have e3 := (bio_read_result_inv _ _ h3).1
          have e4 := (bio_read_result_inv _ _ h4).1
          obtain ⟨name, e, s, cur⟩ := r
          simp only at h h1 h2 h3 h4 e1 e2 e3 e4
          rcases s with _ | ⟨a, _ | ⟨b, _ | ⟨c, _ | ⟨d, rest⟩⟩⟩⟩
          · simp at e1
          · simp at e1
          · simp at e2
          · simp at e2
          · simp only [List.take_succ_cons, List.take_zero, List.drop_succ_cons,
              List.drop_zero, List.length_take, List.length_drop] at e3 e4
            simp only [whole_records] at h
            rw [if_pos (by omega)] at h
            cases h

/-- A reader at its end stays at its end. -/
theorem next_end_stays (be : Bool) (r : block_reader) (h : r.m_end = true) :
    (r.next be).m_end = true := by
  unfold block_reader.next
  simp only [bio_read]
  split
  · rfl
  · split
    · rfl
    · split
      · rfl
      · split
        · rfl
        · exact h

theorem iterate_end_stays (be : Bool) (r : block_reader) (h : r.m_end = true) (i : Nat) :
    ((block_reader.next be)^[i] r).m_end = true := by
  induction i generalizing r with
  | zero => exact h
  | succ i ih =>
    rw [Function.iterate_succ_apply]
    exact ih _ (next_end_stays be r h)

/-! ## Claim about the reader on any bytes -/

/-- The block reader on a byte sequence whose whole records have no empty key or value.
The constructor succeeds and the reader hands out, one per call of `next`, exactly the
records `decode` of the file, and from then on it is at its end.  These records are the
whole records of the longest beginning of the file that parses as records: the file is
their encoding followed by a rest, and every list of records whose encoding begins the
file is a beginning of them.  The rest, a cut off record, is never handed out. -/
theorem block_reader_yields_nonempty_records (be : Bool) (fs : FileSystem) (subdir pfx : Str)
    (n : Nat) (content : Str) (h : fs_read fs (format_file_name subdir pfx n) = some content)
    (hne : ∀ kv ∈ decode be content, kv.1 ≠ [] ∧ kv.2 ≠ []) :
    ∃ r0, block_reader.ctor be fs subdir pfx n = Except.ok r0 ∧
      (∀ i (hi : i < (decode be content).length),
        ((block_reader.next be)^[i] r0).at_end = false ∧
        ((block_reader.next be)^[i] r0).value = (decode be content)[i]) ∧
      (∀ i, (decode be content).length ≤ i → ((block_reader.next be)^[i] r0).at_end = true) ∧
      (∃ tail, content = encode be (decode be content) ++ tail) ∧
      (∀ kv ∈ decode be content, fits kv) ∧
      (∀ (l : List kv_pair_t) (tail : Str), (∀ kv ∈ l, fits kv) → content = encode be l ++ tail →
        l <+: decode be content) := by
  obtain ⟨tail, h1, h2, h3⟩ := whole_records_spec be content.length content (le_refl _)
  have hd : whole_records be content.length content = decode be content := rfl
  rw [hd] at h1 h2
  obtain ⟨r, hr⟩ : ∃ r : block_reader, r = ⟨format_file_name subdir pfx n, false, content,
    ([], [])⟩ := ⟨_, rfl⟩
  have hit := iterate_next_encode be (decode be content)
    (fun kv hkv => ⟨h2 kv hkv, hne kv hkv⟩) r (by rw [hr]) ([], []) tail
    (by rw [hr]) (by rw [hr]; exact h1)
  refine ⟨r.next be, ?_, ?_, ?_, ⟨tail, h1⟩, h2, ?_⟩
  · simp only [block_reader.ctor, h, hr]
  · intro i hi
    obtain ⟨e1, e2, -⟩ := hit (i + 1) hi
    rw [Function.iterate_succ_apply] at e1 e2
    refine ⟨e1, ?_⟩
    rw [List.getElem?_cons_succ, List.getElem?_eq_getElem hi] at e2
    exact (Option.some.inj e2).symm
  · intro i hi
    obtain ⟨-, -, e3⟩ := hit (decode be content).length (le_refl _)
    rw [List.drop_length, encode_nil, List.nil_append] at e3
    have hend : ((block_reader.next be)^[(decode be content).length] (r.next be)).m_end = true := by
      rw [← Function.iterate_succ_apply, Function.iterate_succ_apply']
      exact next_no_record be _ (by rw [e3]; exact h3)
    obtain ⟨k, rfl⟩ : ∃ k, i = k + (decode be content).length :=
      ⟨i - (decode be content).length, by omega⟩
    rw [Function.iterate_add_apply]
    exact iterate_end_stays be _ hend k
  · intro l tail' hl hc
    have := whole_records_encode be l tail' content.length hl (by rw [hc])
    rw [← hc] at this
    exact this

set_option maxRecDepth 100000 in
/-- Claim C17 fails on the code.  The bytes of the file are the records of the pairs
`(a, "")` and `(c, y)`: the whole sequence parses as two whole records.  The reader on
the file is at its end right after its construction and hands out no pair: for the value
of no bytes `bio::read` returns `-1`, which is not the value size `0`, and `next` takes
this for a short read.  On the records of `(k, v)`, `("", "")`, `(z, w)` the reader
hands out `(k, v)` and is at its end after the next call of `next`; on the truncated
file of `ex_fs_truncated`, which has no empty field, it hands out the one whole record
and is then at its end. -/
theorem block_reader_stops_at_empty_field :
    fs_read ex_fs_empty_value (format_file_name (bytes "t") (bytes "part") 0) =
      some (encode false [(bytes "a", []), (bytes "c", bytes "y")]) ∧
    decode false (encode false [(bytes "a", []), (bytes "c", bytes "y")]) =
      [(bytes "a", []), (bytes "c", bytes "y")] ∧
    (block_reader.ctor false ex_fs_empty_value (bytes "t") (bytes "part") 0).map
      (fun r => r.at_end) = Except.ok true ∧
    decode false (encode false [(bytes "k", bytes "v"), ([], []), (bytes "z", bytes "w")]) =
      [(bytes "k", bytes "v"), ([], []), (bytes "z", bytes "w")] ∧
    (block_reader.ctor false
        (ex_written false [(bytes "k", bytes "v"), ([], []), (bytes "z", bytes "w")])
        (bytes "t") (bytes "part") 0).map
      (fun r => (r.at_end, r.value, (r.next false).at_end)) =
      Except.ok (false, (bytes "k", bytes "v"), true) ∧
    (block_reader.ctor false ex_fs_truncated (bytes "t") (bytes "part") 0).map
      (fun r => (r.at_end, r.value, (r.next false).at_end)) =
      Except.ok (false, (bytes "k", bytes "v"), true) := by
  decide

/-! ## The loop of `run_merge` on any readers -/

/-- A call of `next` ends the reader or takes at least the four bytes of the two length
fields from the stream. -/
theorem next_progress (be : Bool) (r : block_reader) :
    (r.next be).m_end = true ∨ (r.next be).m_stream.length + 4 ≤ r.m_stream.length := by
  unfold block_reader.next
  simp only [bio_read]
  split
  · exact Or.inl rfl
  · split
    · exact Or.inl rfl
    · split
      · exact Or.inl rfl
      · split
        · exact Or.inl rfl
        · rename_i h1 h2 _ _
          right
          simp only [ne_eq, not_not] at h1 h2
          have e1 := (bio_read_result_inv _ 2 h1).1
          have e2 := (bio_read_result_inv _ 2 h2).1
          simp only [List.length_take, List.length_drop] at e1 e2 ⊢
          omega

/-- The loop of `run_merge` on any readers: it ends within `merge_rounds` rounds, it
removes exactly the files of the readers, and the writer keeps its file. -/
theorem merge_loop_frame (be : Bool) : ∀ (fuel : Nat) (fs : FileSystem) (rs : List block_reader)
    (w : block_writer), merge_rounds rs ≤ fuel →
    ∃ fs' w', merge_loop be fuel fs rs w = some (fs', w') ∧ w'.file_name = w.file_name ∧
      ∀ name, fs_read fs' name =
        if name ∈ rs.map block_reader.file_name then none else fs_read fs name := by
  intro fuel
  induction fuel with
  | zero =>
    intro fs rs w hfuel
    simp [merge_rounds] at hfuel
  | succ fuel ih =>
    intro fs rs w hfuel
    cases rs with
    | nil => exact ⟨fs, w, by simp [merge_loop], rfl, by simp⟩
    | cons r0 rest =>
      obtain ⟨rj, hj, -, -⟩ := find_min_spec [r0] rest 0 r0.value (by simp)
        (by intro r hr; simp at hr; subst hr; exact (compare_first_iff _ _).mpr (le_refl _))
      simp only [List.length_singleton, List.singleton_append] at hj
      generalize hfm : find_min 0 r0.value 1 rest = res at hj
      obtain ⟨j, p⟩ := res
      simp only at hj
      by_cases hend : (rj.next be).m_end = true
      · obtain ⟨fs', w', hloop, hw, hfs⟩ :=
          ih (fs_remove fs (rj.next be).file_name) ((r0 :: rest).eraseIdx j) (w.call be p)
            (by have := merge_rounds_eraseIdx (r0 :: rest) j rj hj; omega)
        refine ⟨fs', w', ?_, ?_, ?_⟩
        · simp only [merge_loop, hfm, List.get?_eq_getElem?, hj, block_reader.at_end, hend,
            if_true]
          exact hloop
        · rw [hw]; rfl
        · intro name
          rw [hfs name, fs_read_remove]
          have hn : (rj.next be).file_name = rj.file_name := next_file_name be rj
          rw [hn]
          have := mem_names_eraseIdx (r0 :: rest) j rj hj name
          by_cases h1 : name ∈ ((r0 :: rest).eraseIdx j).map block_reader.file_name
          · rw [if_pos h1, if_pos (this.mpr (Or.inr h1))]
          · by_cases h2 : name = rj.file_name
            · rw [if_neg h1, if_pos h2, if_pos (this.mpr (Or.inl h2))]
            · rw [if_neg h1, if_neg h2, if_neg (fun h => (this.mp h).elim h2 h1)]
      · have hlen : (rj.next be).m_stream.length + 4 ≤ rj.m_stream.length :=
          (next_progress be rj).resolve_left hend
        obtain ⟨fs', w', hloop, hw, hfs⟩ :=
          ih fs ((r0 :: rest).set j (rj.next be)) (w.call be p)
            (by have := merge_rounds_set (r0 :: rest) j rj (rj.next be) hj; omega)
        refine ⟨fs', w', ?_, ?_, ?_⟩
        · simp only [merge_loop, hfm, List.get?_eq_getElem?, hj, block_reader.at_end, hend,
            Bool.false_eq_true, if_false]
          exact hloop
        · rw [hw]; rfl
        · intro name
          rw [hfs name, names_set (r0 :: rest) j rj (rj.next be) hj (next_file_name be rj)]

/-! ## `run_merge` on any task -/

/-- The function `open_readers` is the loop of `open_readers_trace` seen from the
statements after it. -/
theorem open_readers_eq_trace (be : Bool) (fs : FileSystem) :
    ∀ ps : List thread_control_block, open_readers be fs ps =
      match (open_readers_trace be fs ps).2 with
      | some e => Except.error e
      | none => Except.ok (open_readers_trace be fs ps).1
  | [] => rfl
  | p :: ps => by
    have ih := open_readers_eq_trace be fs ps
    rw [open_readers, open_readers_trace]
    cases p.m_error with
    | some e => rfl
    | none =>
      simp only
      cases block_reader.ctor be fs p.m_subdir p.m_pfx p.m_block_number with
      | error e => rfl
      | ok r =>
        simp only
        rw [ih]
        cases (open_readers_trace be fs ps).2 with
        | some e => rfl
        | none => rfl

theorem ctor_reader_file_name (be : Bool) (fs : FileSystem) (subdir pfx : Str) (n : Nat)
    (r : block_reader) (h : block_reader.ctor be fs subdir pfx n = Except.ok r) :
    r.file_name = format_file_name subdir pfx n ∧
    ∃ c, fs_read fs (format_file_name subdir pfx n) = some c := by
  unfold block_reader.ctor at h
  simp only at h
  cases hc : fs_read fs (format_file_name subdir pfx n) with
  | none => rw [hc] at h; cases h
  | some c =>
    rw [hc] at h
    simp only [Except.ok.injEq] at h
    rw [← h]
    exact ⟨next_file_name be _, c, rfl⟩

/-- When the first loop of the k-way branch gets through, the readers stand on the files
of the predecessors, which all exist, and no predecessor has a captured exception. -/
theorem open_readers_names (be : Bool) (fs : FileSystem) :
    ∀ (ps : List thread_control_block) (rs : List block_reader),
    open_readers be fs ps = Except.ok rs →
    rs.map block_reader.file_name = ps.map thread_control_block.file_name ∧
    ∀ p ∈ ps, p.m_error = none ∧ ∃ c, fs_read fs p.file_name = some c
  | [], rs, h => by
    simp only [open_readers, Except.ok.injEq] at h
    subst h
    exact ⟨rfl, fun _ hp => absurd hp (List.not_mem_nil _)⟩
  | p :: ps, rs, h => by
    rw [open_readers] at h
    cases he : p.m_error with
    | some e => rw [he] at h; cases h
    | none =>
      rw [he] at h
      simp only at h
      cases hc : block_reader.ctor be fs p.m_subdir p.m_pfx p.m_block_number with
      | error e => rw [hc] at h; cases h
      | ok r =>
        rw [hc] at h
        simp only at h
        cases ho : open_readers be fs ps with
        | error e => rw [ho] at h; cases h
        | ok rs' =>
          rw [ho] at h
          simp only [Except.ok.injEq] at h
          subst h
          obtain ⟨h1, h2⟩ := open_readers_names be fs ps rs' ho
          obtain ⟨h3, h4⟩ := ctor_reader_file_name be fs _ _ _ r hc
          refine ⟨by rw [List.map_cons, List.map_cons, h1, h3]; rfl, ?_⟩
          intro q hq
          rcases List.mem_cons.mp hq with rfl | hq
          · exact ⟨he, h4⟩
          · exact h2 q hq

/-- The first loop of the k-way branch on predecessors of which one has failed and
those before it have not and have their files: the readers on the files before the
failed one are constructed, and its exception is thrown. -/
theorem open_readers_trace_failed (be : Bool) (fs : FileSystem) :
    ∀ (pre : List thread_control_block) (p : thread_control_block)
      (post : List thread_control_block) (e : error),
    (∀ q ∈ pre, q.m_error = none ∧ ∃ c, fs_read fs q.file_name = some c) → p.m_error = some e →
    (open_readers_trace be fs (pre ++ p :: post)).2 = some e ∧
    (open_readers_trace be fs (pre ++ p :: post)).1.map block_reader.file_name =
      pre.map thread_control_block.file_name
  | [], p, post, e, _, hp => by
    rw [List.nil_append, open_readers_trace, hp]
    exact ⟨rfl, rfl⟩
  | q :: pre, p, post, e, hpre, hp => by
    obtain ⟨hq, c, hc⟩ := hpre q (List.mem_cons_self _ _)
    obtain ⟨h1, h2⟩ := open_readers_trace_failed be fs pre p post e
      (fun x hx => hpre x (List.mem_cons_of_mem _ hx)) hp
    have hctor : block_reader.ctor be fs q.m_subdir q.m_pfx q.m_block_number =
        Except.ok (block_reader.next be
          { m_file_name := format_file_name q.m_subdir q.m_pfx q.m_block_number, m_end := false,
            m_stream := c, m_current := ([], []) }) := by
      unfold block_reader.ctor
      simp only
      rw [show fs_read fs (format_file_name q.m_subdir q.m_pfx q.m_block_number) = some c from hc]
    rw [List.cons_append, open_readers_trace, hq]
    simp only [hctor]
    refine ⟨h1, ?_⟩
    rw [List.map_cons, List.map_cons, h2]
    congr 1
    exact next_file_name be _

/-- The call `run_merge` on any task and filesystem returns.  When it ends without an
exception and the files of the predecessors are not the file of the task, the files of
the predecessors are gone, the file of the task exists, and every other file is as
before. -/
theorem run_merge_frame (be : Bool) (fs : FileSystem) (t : thread_control_block)
    (hnames : ∀ p ∈ t.m_waits, p.file_name ≠ t.file_name) :
    ∃ o, run_merge be fs t = some o ∧ (o.thrown = none →
      (∀ p ∈ t.m_waits, fs_read o.fs p.file_name = none) ∧
      (∃ c, fs_read o.fs t.file_name = some c) ∧
      (∀ name, name ≠ t.file_name → name ∉ t.m_waits.map thread_control_block.file_name →
        fs_read o.fs name = fs_read fs name)) := by
  unfold run_merge
  split
  · rename_i tcb2 heq
    have hne : tcb2.file_name ≠ t.file_name := hnames tcb2 (by rw [heq]; exact List.mem_singleton_self _)
    cases he : tcb2.m_error with
    | some e => exact ⟨_, rfl, fun h => by cases h⟩
    | none =>
      simp only
      cases hr : fs_rename fs tcb2.file_name t.file_name with
      | none => exact ⟨_, rfl, fun h => by cases h⟩
      | some fs1 =>
        refine ⟨_, rfl, fun _ => ?_⟩
        simp only
        unfold fs_rename at hr
        cases hc : fs_read fs tcb2.file_name with
        | none => rw [hc] at hr; cases hr
        | some c =>
          rw [hc] at hr
          simp only [if_neg hne, Option.some.injEq] at hr
          subst hr
          refine ⟨?_, ⟨c, fs_read_write_same _ _ _⟩, ?_⟩
          · intro p hp
            rw [heq, List.mem_singleton] at hp
            subst hp
            rw [fs_read_write_other _ _ _ _ hne, fs_read_remove_same]
          · intro name h1 h2
            rw [heq] at h2
            simp only [List.map_cons, List.map_nil, List.mem_singleton] at h2
            rw [fs_read_write_other _ _ _ _ h1, fs_read_remove_other _ _ _ h2]
  · cases ho : open_readers be fs t.m_waits with
    | error e => exact ⟨_, rfl, fun h => by cases h⟩
    | ok rs =>
      simp only
      obtain ⟨hrn, -⟩ := open_readers_names be fs t.m_waits rs ho
      have hname : format_file_name (t.set_waits []).m_subdir (t.set_waits []).m_pfx
          (t.set_waits []).m_block_number = t.file_name := set_waits_file_name t []
      obtain ⟨fs', w', hloop, hw, hfs⟩ := merge_loop_frame be (merge_rounds rs)
        (block_writer.ctor fs (t.set_waits []).m_subdir (t.set_waits []).m_pfx
          (t.set_waits []).m_block_number).1 rs
        (block_writer.ctor fs (t.set_waits []).m_subdir (t.set_waits []).m_pfx
          (t.set_waits []).m_block_number).2 (le_refl _)
      have hwname : w'.file_name = t.file_name := by rw [hw]; exact hname
      have hnotin : t.file_name ∉ rs.map block_reader.file_name := by
        rw [hrn]
        intro hmem
        obtain ⟨p, hp, he⟩ := List.mem_map.mp hmem
        exact hnames p hp he
      have hout : fs_read fs' t.file_name = some [] := by
        rw [hfs, if_neg hnotin, ← hname]
        exact ctor_writer_read _ _ _ _
      rw [hloop]
      refine ⟨_, rfl, fun _ => ⟨?_, ⟨w'.m_stream, ?_⟩, ?_⟩⟩
      · intro p hp
        simp only
        rw [dtor_read_other _ _ _ (by rw [hwname]; exact hnames p hp), hfs,
          if_pos (by rw [hrn]; exact List.mem_map_of_mem _ hp)]
      · simp only
        have := dtor_read fs' w' [] (by rw [hwname]; exact hout)
        rw [hwname] at this
        exact this
      · intro name hne hnot
        simp only
        rw [dtor_read_other _ _ _ (by rw [hwname]; exact hne), hfs,
          if_neg (by rw [hrn]; exact hnot)]
        exact ctor_writer_read_other _ _ _ _ _ (by rw [hname]; exact hne)

/-! ## Claims about the files of `run_merge` -/

/-- Claim C12: the filesystem after a merge task.  `run_merge` returns on every task and
filesystem.  When it ends without an exception, by the rename of the single predecessor
or by the k-way merge, and the predecessors write to other files than the task, then no
file of a predecessor exists any more, the output file of the task exists, and every
other file is unchanged: the output file is the one new file. -/
theorem run_merge_replaces_predecessor_files (be : Bool) (fs : FileSystem)
    (t : thread_control_block) (hnames : ∀ p ∈ t.m_waits, p.file_name ≠ t.file_name) :
    ∃ o, run_merge be fs t = some o ∧ (o.thrown = none →
      (∀ p ∈ t.m_waits, fs_read o.fs p.file_name = none) ∧
      (∃ c, fs_read o.fs t.file_name = some c) ∧
      (∀ name, name ≠ t.file_name → name ∉ t.m_waits.map thread_control_block.file_name →
        fs_read o.fs name = fs_read fs name)) :=
  run_merge_frame be fs t hnames

set_option maxRecDepth 100000 in
theorem run_merge_replaces_predecessor_files_witness :
    (∀ p ∈ ex_merge.m_waits, p.file_name ≠ ex_merge.file_name) ∧
    Option.map outcome.thrown (run_merge false ex_fs_sorted ex_merge) = some none ∧
    ∃ o, run_merge false ex_fs_sorted ex_merge = some o ∧ (o.thrown = none →
      (∀ p ∈ ex_merge.m_waits, fs_read o.fs p.file_name = none) ∧
      (∃ c, fs_read o.fs ex_merge.file_name = some c) ∧
      (∀ name, name ≠ ex_merge.file_name →
        name ∉ ex_merge.m_waits.map thread_control_block.file_name →
        fs_read o.fs name = fs_read ex_fs_sorted name)) :=
  ⟨by decide, by decide,
    run_merge_replaces_predecessor_files false ex_fs_sorted ex_merge (by decide)⟩

/-- Claim C16, amended: a failed predecessor.  Let a predecessor of a merge task have a
captured exception, and let the predecessors before it in the list have none and have
their files.  Then `run_merge` throws the exception of that predecessor, the first
failed one, and the filesystem is as before: no file is removed, renamed, created or
changed.  In the k-way branch the readers on the files of the predecessors before the
failed one have been constructed by then. -/
theorem run_merge_rethrows_first_failure (be : Bool) (fs : FileSystem)
    (t : thread_control_block) (pre : List thread_control_block) (p : thread_control_block)
    (post : List thread_control_block) (e : error) (hw : t.m_waits = pre ++ p :: post)
    (hpre : ∀ q ∈ pre, q.m_error = none ∧ fs_exists fs q.file_name = true)
    (hp : p.m_error = some e) :
    ∃ o, run_merge be fs t = some o ∧ o.thrown = some e ∧ o.fs = fs ∧
      (t.m_waits.length ≠ 1 →
        (open_readers_trace be fs t.m_waits).1.map block_reader.file_name =
          pre.map thread_control_block.file_name) := by
  have hpre' : ∀ q ∈ pre, q.m_error = none ∧ ∃ c, fs_read fs q.file_name = some c := by
    intro q hq
    obtain ⟨h1, h2⟩ := hpre q hq
    exact ⟨h1, Option.isSome_iff_exists.mp h2⟩
  obtain ⟨h1, h2⟩ := open_readers_trace_failed be fs pre p post e hpre' hp
  rw [← hw] at h1 h2
  unfold run_merge
  split
  · rename_i tcb2 heq
    have hlen : pre.length = 0 := by
      have h3 : [tcb2].length = (pre ++ p :: post).length := by rw [← heq, hw]
      rw [List.length_singleton, List.length_append, List.length_cons] at h3
      omega
    have hpre0 : pre = [] := List.length_eq_zero.mp hlen
    subst hpre0
    rw [heq, List.nil_append] at hw
    have htcb : tcb2 = p := (List.cons.inj hw).1
    subst htcb
    rw [hp]
    exact ⟨_, rfl, rfl, rfl, fun h => absurd (by rw [heq]; rfl) h⟩
  · rw [open_readers_eq_trace, h1]
    exact ⟨_, rfl, rfl, rfl, fun _ => h2⟩

set_option maxRecDepth 100000 in
theorem run_merge_rethrows_first_failure_witness :
    ex_merge_failed.m_waits = [ex_part 0] ++
      (ex_part 1).set_error (some (error.runtime_error (bytes "No space left"))) :: [] ∧
    (∀ q ∈ [ex_part 0], q.m_error = none ∧ fs_exists ex_fs_sorted q.file_name = true) ∧
    ((ex_part 1).set_error (some (error.runtime_error (bytes "No space left")))).m_error =
      some (error.runtime_error (bytes "No space left")) ∧
    ∃ o, run_merge false ex_fs_sorted ex_merge_failed = some o ∧
      o.thrown = some (error.runtime_error (bytes "No space left")) ∧ o.fs = ex_fs_sorted ∧
      (ex_merge_failed.m_waits.length ≠ 1 →
        (open_readers_trace false ex_fs_sorted ex_merge_failed.m_waits).1.map
            block_reader.file_name =
          [ex_part 0].map thread_control_block.file_name) :=
  ⟨rfl, by decide, rfl,
    run_merge_rethrows_first_failure false ex_fs_sorted ex_merge_failed [ex_part 0]
      ((ex_part 1).set_error (some (error.runtime_error (bytes "No space left")))) []
      (error.runtime_error (bytes "No space left")) rfl (by decide) rfl⟩

set_option maxRecDepth 100000 in
/-- Claim C16, the input at which it fails.  The second of two predecessors has a captured
exception and the first has none.  `run_merge` throws that exception and leaves the
filesystem as it was, but by then it has constructed a `block_reader` on the file of the
first predecessor: a predecessor file has been opened. -/
theorem run_merge_opens_file_before_failure :
    Option.map outcome.thrown (run_merge false ex_fs_sorted ex_merge_failed) =
      some (some (error.runtime_error (bytes "No space left"))) ∧
    Option.map outcome.fs (run_merge false ex_fs_sorted ex_merge_failed) = some ex_fs_sorted ∧
    (open_readers_trace false ex_fs_sorted ex_merge_failed.m_waits).2 =
      some (error.runtime_error (bytes "No space left")) ∧
    (open_readers_trace false ex_fs_sorted ex_merge_failed.m_waits).1.map
        block_reader.file_name = [bytes "t/part_00000000.data"] ∧
    fs_exists ex_fs_sorted (bytes "t/part_00000000.data") = true := by
  decide

/-! ## `run_write` and `std::sort` -/

/-- The file that `run_write` leaves holds the records of the vector that `std::sort`
leaves, in its order. -/
theorem run_write_file (std_sort : sort_function) (be : Bool) (fs : FileSystem)
    (t : thread_control_block) :
    fs_read (run_write std_sort be fs t).fs t.file_name =
      some (encode be (std_sort compare_first t.m_strings)) := by
  unfold run_write
  simp only
  have hname : (List.foldl (block_writer.call be)
      (block_writer.ctor fs t.m_subdir t.m_pfx t.m_block_number).2
      (std_sort compare_first t.m_strings)).file_name = t.file_name := by
    rw [call_foldl_file_name]; rfl
  have := dtor_read (block_writer.ctor fs t.m_subdir t.m_pfx t.m_block_number).1
    (List.foldl (block_writer.call be) (block_writer.ctor fs t.m_subdir t.m_pfx t.m_block_number).2
      (std_sort compare_first t.m_strings)) []
    (by rw [hname]; exact ctor_writer_read fs _ _ _)
  rw [hname, call_foldl_stream] at this
  rw [this]
  simp [block_writer.ctor]

/-- Every other file is as before `run_write`. -/
theorem run_write_other (std_sort : sort_function) (be : Bool) (fs : FileSystem)
    (t : thread_control_block) (name : Str) (h : name ≠ t.file_name) :
    fs_read (run_write std_sort be fs t).fs name = fs_read fs name := by
  unfold run_write
  simp only
  have hname : (List.foldl (block_writer.call be)
      (block_writer.ctor fs t.m_subdir t.m_pfx t.m_block_number).2
      (std_sort compare_first t.m_strings)).file_name = t.file_name := by
    rw [call_foldl_file_name]; rfl
  rw [dtor_read_other _ _ _ (by rw [hname]; exact h)]
  exact ctor_writer_read_other _ _ _ _ _ h

/-- The function `ex_sort` sorts where the standard requires it. -/
theorem ex_sort_meets_requirements : meets_sort_requirements ex_sort := by
  intro comp xs hswo
  obtain ⟨hirr, htr, heq⟩ := hswo
  have hswo' : strict_weak_ordering_on comp xs := ⟨hirr, htr, heq⟩
  have key : ex_sort comp xs =
      (xs.attach.insertionSort (fun p q => comp q.1 p.1 = false)).map Subtype.val := by
    unfold ex_sort
    rw [if_pos hswo']
  rw [key]
  constructor
  · have h1 := (List.perm_insertionSort (fun p q : { a // a ∈ xs } => comp q.1 p.1 = false)
      xs.attach).map Subtype.val
    rw [List.attach_map_subtype_val] at h1
    exact h1
  · haveI : IsTotal { a // a ∈ xs } (fun p q => comp q.1 p.1 = false) := ⟨by
      intro p q
      by_cases h1 : comp q.1 p.1 = false
      · exact Or.inl h1
      · right
        by_contra h2
        have h3 := htr q.1 q.2 p.1 p.2 q.1 q.2 (by simpa using h1) (by simpa using h2)
        rw [hirr q.1 q.2] at h3
        cases h3⟩
    haveI : IsTrans { a // a ∈ xs } (fun p q => comp q.1 p.1 = false) := ⟨by
      intro p q s h1 h2
      by_contra h3
      have h3' : comp s.1 p.1 = true := by simpa using h3
      by_cases h4 : comp p.1 q.1 = true
      · have := htr s.1 s.2 p.1 p.2 q.1 q.2 h3' h4
        rw [h2] at this
        cases this
      · by_cases h5 : comp q.1 s.1 = true
        · have := htr q.1 q.2 s.1 s.2 p.1 p.2 h5 h3'
          rw [h1] at this
          cases this
        · have h6 := heq p.1 p.2 q.1 q.2 s.1 s.2 ⟨by simpa using h4, h1⟩ ⟨by simpa using h5, h2⟩
          rw [h6.2] at h3'
          cases h3'⟩
    have h1 := List.sorted_insertionSort (fun p q : { a // a ∈ xs } => comp q.1 p.1 = false)
      xs.attach
    rw [List.pairwise_map]
    exact h1

/-! ## Claim about `run_write` -/

set_option maxRecDepth 100000 in
/-- Claim C13 fails on the code.  `run_write` writes the vector that `std::sort` leaves
when it is called with `compare_first`.  `compare_first` is `true` on equal keys, so it
is a strict weak ordering on no batch that holds a pair, and the standard says nothing
about the call.  On seventeen pairs with the key `k`, a function that meets all that the
standard requires of `std::sort` leaves a vector that is not a rearrangement of the
batch, and that is what `run_write` writes to the spill file. -/
theorem run_write_sort_precondition_fails :
    (∀ (std_sort : sort_function) (be : Bool) (fs : FileSystem) (t : thread_control_block),
      fs_read (run_write std_sort be fs t).fs t.file_name =
        some (encode be (std_sort compare_first t.m_strings))) ∧
    (∀ xs : List kv_pair_t, xs ≠ [] → ¬ strict_weak_ordering_on compare_first xs) ∧
    ex_equal_keys_values.length = 17 ∧
    (∀ a ∈ ex_equal_keys_values, ∀ b ∈ ex_equal_keys_values, compare_first a b = true) ∧
    ¬ strict_weak_ordering_on compare_first ex_equal_keys_values ∧
    meets_sort_requirements ex_sort ∧
    fs_read (run_write ex_sort false []
        (thread_control_block.ctor (bytes "t") (bytes "part") 0 ex_equal_keys_values [])).fs
        (bytes "t/part_00000000.data") =
      some (encode false (List.replicate 17 (bytes "k", [0]))) ∧
    ¬ (List.replicate 17 (bytes "k", [0])).Perm ex_equal_keys_values := by
  refine ⟨run_write_file, ?_, by decide, by decide, by decide, ex_sort_meets_requirements,
    by decide, ?_⟩
  · intro xs hxs h
    cases xs with
    | nil => exact hxs rfl
    | cons a xs =>
      have h1 := h.1 a (List.mem_cons_self _ _)
      have h2 : compare_first a a = true := (compare_first_iff a a).mpr (le_refl _)
      rw [h1] at h2
      cases h2
  · intro h
    have h1 : ((bytes "k", [1]) : kv_pair_t) ∈ List.replicate 17 (bytes "k", [0]) :=
      h.symm.subset (by decide)
    revert h1
    decide

/-! ## The spawned tasks and `flush_block` -/

theorem all_tasks_list_append (a b : List thread_control_block) :
    all_tasks_list (a ++ b) = all_tasks_list a ++ all_tasks_list b := by
  induction a with
  | nil => simp [all_tasks_list]
  | cons t ts ih => simp [all_tasks_list, ih]

theorem all_tasks_eq (t : thread_control_block) : all_tasks t = t :: all_tasks_list t.m_waits := by
  cases t
  simp [all_tasks, thread_control_block.m_waits]

theorem all_tasks_list_singleton (t : thread_control_block) :
    all_tasks_list [t] = t :: all_tasks_list t.m_waits := by
  simp [all_tasks_list, all_tasks_eq]

theorem all_tasks_list_nil : all_tasks_list [] = [] := by
  simp [all_tasks_list]

/-- The three ways through `flush_block`. -/
theorem flush_block_eq (w : db_writer) :
    w.flush_block =
      if w.m_blocks.length + 1 ≥ 16 then
        if w.m_blocks2.length + 1 ≥ 16 then
          { m_subdir := w.m_subdir, m_block_counter := w.m_block_counter + 1,
            m_bytes_this_block := 0, m_strings := [], m_blocks := [], m_blocks2 := [],
            m_blocks3 := w.m_blocks3 ++
              [thread_control_block.ctor w.m_subdir (bytes "part3") w.m_block_counter []
                (w.m_blocks2 ++
                  [thread_control_block.ctor w.m_subdir (bytes "part2") w.m_block_counter []
                    (w.m_blocks ++
                      [thread_control_block.ctor w.m_subdir (bytes "part") w.m_block_counter
                        w.m_strings []])])] }
        else
          { m_subdir := w.m_subdir, m_block_counter := w.m_block_counter + 1,
            m_bytes_this_block := 0, m_strings := [], m_blocks := [],
            m_blocks2 := w.m_blocks2 ++
              [thread_control_block.ctor w.m_subdir (bytes "part2") w.m_block_counter []
                (w.m_blocks ++
                  [thread_control_block.ctor w.m_subdir (bytes "part") w.m_block_counter
                    w.m_strings []])],
            m_blocks3 := w.m_blocks3 }
      else
        { m_subdir := w.m_subdir, m_block_counter := w.m_block_counter + 1,
          m_bytes_this_block := 0, m_strings := [],
          m_blocks := w.m_blocks ++
            [thread_control_block.ctor w.m_subdir (bytes "part") w.m_block_counter w.m_strings []],
          m_blocks2 := w.m_blocks2, m_blocks3 := w.m_blocks3 } := by
  unfold db_writer.flush_block
  simp only [List.length_append, List.length_singleton]
  split_ifs <;> rfl

theorem perm_step1 {α : Type} (C1 C2 C3 : List α) (t1 : α) :
    (C1 ++ [t1] ++ C2 ++ C3).Perm ((C1 ++ C2 ++ C3) ++ [t1]) := by
  rw [← Multiset.coe_eq_coe]
  simp only [← Multiset.coe_add, ← Multiset.cons_coe, ← Multiset.singleton_add, Multiset.coe_nil,
    add_zero]
  abel

theorem perm_step2 {α : Type} (C1 C2 C3 : List α) (t1 t2 : α) :
    (C2 ++ (t2 :: (C1 ++ [t1])) ++ C3).Perm ((C1 ++ C2 ++ C3) ++ [t1, t2]) := by
  rw [← Multiset.coe_eq_coe]
  simp only [← Multiset.coe_add, ← Multiset.cons_coe, ← Multiset.singleton_add, Multiset.coe_nil,
    add_zero]
  abel

theorem perm_step3 {α : Type} (C1 C2 C3 : List α) (t1 t2 t3 : α) :
    (C3 ++ (t3 :: (C2 ++ (t2 :: (C1 ++ [t1]))))).Perm ((C1 ++ C2 ++ C3) ++ [t1, t2, t3]) := by
  rw [← Multiset.coe_eq_coe]
  simp only [← Multiset.coe_add, ← Multiset.cons_coe, ← Multiset.singleton_add, Multiset.coe_nil,
    add_zero]
  abel

/-- The tasks spawned up to the end of a run of `flush_block`: those spawned before it and
the one, two or three that it spawns. -/
theorem spawned_flush_block (w : db_writer) :
    w.flush_block.spawned.Perm (w.spawned ++
      if w.m_blocks.length + 1 ≥ 16 then
        if w.m_blocks2.length + 1 ≥ 16 then
          [thread_control_block.ctor w.m_subdir (bytes "part") w.m_block_counter w.m_strings [],
           thread_control_block.ctor w.m_subdir (bytes "part2") w.m_block_counter []
             (w.m_blocks ++
               [thread_control_block.ctor w.m_subdir (bytes "part") w.m_block_counter
                 w.m_strings []]),
           thread_control_block.ctor w.m_subdir (bytes "part3") w.m_block_counter []
             (w.m_blocks2 ++
               [thread_control_block.ctor w.m_subdir (bytes "part2") w.m_block_counter []
                 (w.m_blocks ++
                   [thread_control_block.ctor w.m_subdir (bytes "part") w.m_block_counter
                     w.m_strings []])])]
        else
          [thread_control_block.ctor w.m_subdir (bytes "part") w.m_block_counter w.m_strings [],
           thread_control_block.ctor w.m_subdir (bytes "part2") w.m_block_counter []
             (w.m_blocks ++
               [thread_control_block.ctor w.m_subdir (bytes "part") w.m_block_counter
                 w.m_strings []])]
      else
        [thread_control_block.ctor w.m_subdir (bytes "part") w.m_block_counter w.m_strings []]) := by
  rw [flush_block_eq]
  have hw : ∀ s p n l ws, (thread_control_block.ctor s p n l ws).m_waits = ws := fun _ _ _ _ _ => rfl
  by_cases h1 : w.m_blocks.length + 1 ≥ 16
  · by_cases h2 : w.m_blocks2.length + 1 ≥ 16
    · rw [if_pos h1, if_pos h2, if_pos h1, if_pos h2]
      simp only [db_writer.spawned, all_tasks_list_append, all_tasks_list_singleton, hw,
        all_tasks_list_nil, List.nil_append, List.append_nil]
      exact perm_step3 _ _ _ _ _ _
    · rw [if_pos h1, if_neg h2, if_pos h1, if_neg h2]
      simp only [db_writer.spawned, all_tasks_list_append, all_tasks_list_singleton, hw,
        all_tasks_list_nil, List.nil_append, List.append_nil]
      exact perm_step2 _ _ _ _ _
  · rw [if_neg h1, if_neg h1]
    simp only [db_writer.spawned, all_tasks_list_append, all_tasks_list_singleton, hw,
      all_tasks_list_nil, List.nil_append, List.append_nil]
    exact perm_step1 _ _ _ _

theorem nodup_step {S S' new : List thread_control_block} {n : Nat}
    (h1 : (S.map thread_control_block.stage_key).Nodup)
    (h2 : ∀ t ∈ S, t.m_block_number < n)
    (h3 : (new.map thread_control_block.stage_key).Nodup)
    (h4 : ∀ t ∈ new, t.m_block_number = n) (hp : S'.Perm (S ++ new)) :
    (S'.map thread_control_block.stage_key).Nodup := by
  rw [(hp.map _).nodup_iff, List.map_append, List.nodup_append]
  refine ⟨h1, h3, ?_⟩
  intro k hk1 hk2
  obtain ⟨a, ha, rfl⟩ := List.mem_map.mp hk1
  obtain ⟨b, hb, hab⟩ := List.mem_map.mp hk2
  have e1 := h2 a ha
  have e2 := h4 b hb
  have e3 : b.m_block_number = a.m_block_number := congrArg Prod.snd hab
  omega

theorem task_shape_mono {table_name : Str} {n : Nat} {t : thread_control_block}
    (h : task_shape table_name n t) : task_shape table_name (n + 1) t :=
  ⟨h.1, h.2.1, Nat.lt_succ_of_lt h.2.2.1, h.2.2.2⟩

/-! ## The invariant of the coordinator under `flush_block` -/

theorem inv_ctor (table_name : Str) : coordinator_inv table_name (db_writer.ctor table_name) 0 where
  subdir := rfl
  counter := rfl
  blocks := rfl
  blocks2 := rfl
  blocks3 := rfl
  shape := by
    intro t ht
    simp [db_writer.spawned, db_writer.ctor, all_tasks_list] at ht
  nodup := by simp [db_writer.spawned, db_writer.ctor, all_tasks_list]
  stage1 := fun b hb => absurd hb (Nat.not_lt_zero b)
  count1 := by simp [db_writer.spawned, db_writer.ctor, all_tasks_list]
  count2 := by simp [db_writer.spawned, db_writer.ctor, all_tasks_list]
  count3 := by simp [db_writer.spawned, db_writer.ctor, all_tasks_list]
  bytes_sum := rfl
  bytes_max := by simp [db_writer.ctor]

theorem part_ne_part2 : bytes "part" ≠ bytes "part2" := by decide
theorem part_ne_part3 : bytes "part" ≠ bytes "part3" := by decide
theorem part2_ne_part3 : bytes "part2" ≠ bytes "part3" := by decide

/-- A run of `flush_block` keeps the invariant of the coordinator. -/
theorem inv_flush_block (table_name : Str) (w : db_writer) (n : Nat)
    (h : coordinator_inv table_name w n) : coordinator_inv table_name w.flush_block (n + 1) := by
  have hl1 : w.m_blocks.length = n % 16 := by
    have := congrArg List.length h.blocks
    simpa using this
  have hl2 : w.m_blocks2.length = n / 16 % 16 := by
    have := congrArg List.length h.blocks2
    simpa using this
  have hsub := h.subdir
  have hcnt := h.counter
  have hperm := spawned_flush_block w
  have hshape1 : task_shape table_name (n + 1)
      (thread_control_block.ctor w.m_subdir (bytes "part") w.m_block_counter w.m_strings []) :=
    ⟨hsub, rfl, by show w.m_block_counter < n + 1; omega,
      Or.inl ⟨rfl, rfl, by
        show batch_bytes w.m_strings ≤ _
        rw [← h.bytes_sum]; exact h.bytes_max⟩⟩
  have hold : ∀ t ∈ w.spawned, task_shape table_name (n + 1) t :=
    fun t ht => task_shape_mono (h.shape t ht)
  have hlt : ∀ t ∈ w.spawned, t.m_block_number < n := fun t ht => (h.shape t ht).2.2.1
  have hstage1 : ∀ new : List thread_control_block, w.flush_block.spawned.Perm (w.spawned ++
      thread_control_block.ctor w.m_subdir (bytes "part") w.m_block_counter w.m_strings [] :: new) →
      ∀ b < n + 1, (bytes "part", b) ∈ w.flush_block.spawned.map thread_control_block.stage_key := by
    intro new hp b hb
    rw [(hp.map _).mem_iff, List.map_append, List.mem_append]
    by_cases hbn : b < n
    · exact Or.inl (h.stage1 b hbn)
    · right
      rw [List.map_cons]
      refine List.mem_cons.mpr (Or.inl ?_)
      show (bytes "part", b) = (bytes "part", w.m_block_counter)
      rw [hcnt, show b = n by omega]
  have hkey1 : (w.m_blocks ++
      [thread_control_block.ctor w.m_subdir (bytes "part") w.m_block_counter w.m_strings []]).map
        thread_control_block.stage_key =
      (List.range' (n - n % 16) (n % 16 + 1)).map (fun b => (bytes "part", b)) := by
    rw [List.map_append, h.blocks, List.range'_concat, List.map_append]
    congr 1
    show [(bytes "part", w.m_block_counter)] = [(bytes "part", n - n % 16 + 1 * (n % 16))]
    rw [hcnt]
    congr 3
    omega
  by_cases h1 : w.m_blocks.length + 1 ≥ 16
  · have hn16 : n % 16 = 15 := by omega
    have hshape2 : task_shape table_name (n + 1)
        (thread_control_block.ctor w.m_subdir (bytes "part2") w.m_block_counter []
          (w.m_blocks ++ [thread_control_block.ctor w.m_subdir (bytes "part") w.m_block_counter
            w.m_strings []])) := by
      refine ⟨hsub, rfl, by show w.m_block_counter < n + 1; omega, Or.inr (Or.inl ⟨rfl, rfl, by show w.m_block_counter % 16 = 15; omega, ?_⟩)⟩
      show (w.m_blocks ++ _).map _ = (List.range' (w.m_block_counter - 15) 16).map _
      rw [hkey1, hcnt, hn16]
    have hkey2 : (w.m_blocks2 ++
        [thread_control_block.ctor w.m_subdir (bytes "part2") w.m_block_counter []
          (w.m_blocks ++ [thread_control_block.ctor w.m_subdir (bytes "part") w.m_block_counter
            w.m_strings []])]).map thread_control_block.stage_key =
        (List.range (n / 16 % 16 + 1)).map
          (fun i => (bytes "part2", n / 256 * 256 + 16 * i + 15)) := by
      rw [List.map_append, h.blocks2, List.range_succ, List.map_append]
      congr 1
      show [(bytes "part2", w.m_block_counter)] = [(bytes "part2", _)]
      rw [hcnt]
      congr 3
      omega
    by_cases h2 : w.m_blocks2.length + 1 ≥ 16
    · have hn256 : n / 16 % 16 = 15 := by omega
      rw [if_pos h1, if_pos h2] at hperm
      have hshape3 : task_shape table_name (n + 1)
          (thread_control_block.ctor w.m_subdir (bytes "part3") w.m_block_counter []
            (w.m_blocks2 ++ [thread_control_block.ctor w.m_subdir (bytes "part2")
              w.m_block_counter [] (w.m_blocks ++ [thread_control_block.ctor w.m_subdir
                (bytes "part") w.m_block_counter w.m_strings []])])) := by
        refine ⟨hsub, rfl, by show w.m_block_counter < n + 1; omega,
          Or.inr (Or.inr ⟨rfl, rfl, by show w.m_block_counter % 256 = 255; omega, ?_⟩)⟩
        show (w.m_blocks2 ++ _).map _ = (List.range 16).map
          (fun i => (bytes "part2", w.m_block_counter - 240 + 16 * i))
        rw [hkey2, hcnt, hn256]
        apply List.map_congr_left
        intro i _
        exact Prod.ext rfl (by show n / 256 * 256 + 16 * i + 15 = n - 240 + 16 * i; omega)
      have hfb := flush_block_eq w
      rw [if_pos h1, if_pos h2] at hfb
      exact {
        subdir := by rw [hfb]; exact hsub
        counter := by rw [hfb]; show w.m_block_counter + 1 = n + 1; omega
        blocks := by
          rw [hfb]
          show [].map _ = _
          have e1 : (n + 1) % 16 = 0 := by omega
          rw [e1]; rfl
        blocks2 := by
          rw [hfb]
          show [].map _ = _
          have e1 : (n + 1) / 16 % 16 = 0 := by omega
          rw [e1]; rfl
        blocks3 := by
          rw [hfb]
          show (w.m_blocks3 ++ _).map _ = _
          have e1 : (n + 1) / 256 = n / 256 + 1 := by omega
          rw [e1, List.range_succ, List.map_append, List.map_append, h.blocks3]
          congr 1
          show [(bytes "part3", w.m_block_counter)] = [(bytes "part3", _)]
          rw [hcnt]
          congr 3
          omega
        shape := by
          intro t ht
          rcases List.mem_append.mp (hperm.subset ht) with h3 | h3
          · exact hold t h3
          · simp only [List.mem_cons, List.mem_singleton, List.not_mem_nil, or_false] at h3
            rcases h3 with rfl | rfl | rfl
            · exact hshape1
            · exact hshape2
            · exact hshape3
        nodup := by
          refine nodup_step h.nodup hlt ?_ ?_ hperm
          · simp only [List.map_cons, List.map_nil]
            show [(bytes "part", _), (bytes "part2", _), (bytes "part3", _)].Nodup
            simp [part_ne_part2, part_ne_part3, part2_ne_part3]
          · intro t ht
            simp only [List.mem_cons, List.mem_singleton, List.not_mem_nil, or_false] at ht
            rcases ht with rfl | rfl | rfl <;> exact hcnt
        stage1 := hstage1 _ hperm
        count1 := by
          rw [hperm.countP_eq, List.countP_append, h.count1]
          rfl
        count2 := by
          rw [hperm.countP_eq, List.countP_append, h.count2]
          have e1 : (n + 1) / 16 = n / 16 + 1 := by omega
          rw [e1]
          rfl
        count3 := by
          rw [hperm.countP_eq, List.countP_append, h.count3]
          have e1 : (n + 1) / 256 = n / 256 + 1 := by omega
          rw [e1]
          rfl
        bytes_sum := by rw [hfb]; rfl
        bytes_max := by rw [hfb]; exact Nat.zero_le _ }
    · rw [if_pos h1, if_neg h2] at hperm
      have hfb := flush_block_eq w
      rw [if_pos h1, if_neg h2] at hfb
      exact {
        subdir := by rw [hfb]; exact hsub
        counter := by rw [hfb]; show w.m_block_counter + 1 = n + 1; omega
        blocks := by
          rw [hfb]
          show [].map _ = _
          have e1 : (n + 1) % 16 = 0 := by omega
          rw [e1]; rfl
        blocks2 := by
          rw [hfb]
          show (w.m_blocks2 ++ _).map _ = _
          have e1 : (n + 1) / 16 % 16 = n / 16 % 16 + 1 := by omega
          have e2 : (n + 1) / 256 = n / 256 := by omega
          rw [e1, e2]
          exact hkey2
        blocks3 := by
          rw [hfb]
          show w.m_blocks3.map _ = _
          have e1 : (n + 1) / 256 = n / 256 := by omega
          rw [e1]
          exact h.blocks3
        shape := by
          intro t ht
          rcases List.mem_append.mp (hperm.subset ht) with h3 | h3
          · exact hold t h3
          · simp only [List.mem_cons, List.mem_singleton, List.not_mem_nil, or_false] at h3
            rcases h3 with rfl | rfl
            · exact hshape1
            · exact hshape2
        nodup := by
          refine nodup_step h.nodup hlt ?_ ?_ hperm
          · simp only [List.map_cons, List.map_nil]
            show [(bytes "part", _), (bytes "part2", _)].Nodup
            simp [part_ne_part2]
          · intro t ht
            simp only [List.mem_cons, List.mem_singleton, List.not_mem_nil, or_false] at ht
            rcases ht with rfl | rfl <;> exact hcnt
        stage1 := hstage1 _ hperm
        count1 := by
          rw [hperm.countP_eq, List.countP_append, h.count1]
          rfl
        count2 := by
          rw [hperm.countP_eq, List.countP_append, h.count2]
          have e1 : (n + 1) / 16 = n / 16 + 1 := by omega
          rw [e1]
          rfl
        count3 := by
          rw [hperm.countP_eq, List.countP_append, h.count3]
          have e1 : (n + 1) / 256 = n / 256 := by omega
          rw [e1]
          rfl
        bytes_sum := by rw [hfb]; rfl
        bytes_max := by rw [hfb]; exact Nat.zero_le _ }
  · rw [if_neg h1] at hperm
    have hfb := flush_block_eq w
    rw [if_neg h1] at hfb
    have e1 : (n + 1) % 16 = n % 16 + 1 := by omega
    have e2 : n + 1 - (n + 1) % 16 = n - n % 16 := by omega
    have e3 : (n + 1) / 16 = n / 16 := by omega
    have e4 : (n + 1) / 256 = n / 256 := by omega
    exact {
      subdir := by rw [hfb]; exact hsub
      counter := by rw [hfb]; show w.m_block_counter + 1 = n + 1; omega
      blocks := by
        rw [hfb]
        show (w.m_blocks ++ _).map _ = _
        rw [e2, e1]
        exact hkey1
      blocks2 := by
        rw [hfb]
        show w.m_blocks2.map _ = _
        rw [e3, e4]
        exact h.blocks2
      blocks3 := by
        rw [hfb]
        show w.m_blocks3.map _ = _
        rw [e4]
        exact h.blocks3
      shape := by
        intro t ht
        rcases List.mem_append.mp (hperm.subset ht) with h3 | h3
        · exact hold t h3
        · rw [List.mem_singleton] at h3
          rw [h3]
          exact hshape1
      nodup := by
        refine nodup_step h.nodup hlt ?_ ?_ hperm
        · simp
        · intro t ht
          rw [List.mem_singleton] at ht
          rw [ht]
          exact hcnt
      stage1 := hstage1 _ hperm
      count1 := by
        rw [hperm.countP_eq, List.countP_append, h.count1]
        rfl
      count2 := by
        rw [hperm.countP_eq, List.countP_append, h.count2, e3]
        rfl
      count3 := by
        rw [hperm.countP_eq, List.countP_append, h.count3, e4]
        rfl
      bytes_sum := by rw [hfb]; rfl
      bytes_max := by rw [hfb]; exact Nat.zero_le _ }

/-! ## The invariant of the coordinator under `put` -/

theorem batch_bytes_append (l : List kv_pair_t) (kv : kv_pair_t) :
    batch_bytes (l ++ [kv]) = batch_bytes l + (kv.1.length + kv.2.length + 4) := by
  simp [batch_bytes]

/-- A `put` that throws leaves the coordinator as it was, and it does not get to
`flush_block`. -/
theorem put_rejected (w : db_writer) (k v : Str)
    (h : k.length > uint16_max ∨ v.length > uint16_max) :
    (w.put k v).2 = w ∧ (w.put k v).1 ≠ none ∧ w.put_flushes k v = false := by
  unfold db_writer.put db_writer.put_flushes
  by_cases hk : k.length > uint16_max
  · simp [hk]
  · rcases h with h | h
    · exact absurd h hk
    · simp [hk, h]

/-- A `put` that does not throw: `flush_block` runs first exactly when the byte count with
the new pair is above the maximum, then the pair is appended and counted. -/
theorem put_accepted (w : db_writer) (k v : Str) (hk : ¬ k.length > uint16_max)
    (hv : ¬ v.length > uint16_max) :
    w.put_flushes k v =
      decide (w.m_bytes_this_block + (k.length + v.length + 4) > MAX_MERGESORT_BLOCK_SIZE) ∧
    w.put k v = (none,
      { (if w.put_flushes k v then w.flush_block else w) with
        m_strings := (if w.put_flushes k v then w.flush_block else w).m_strings ++ [(k, v)],
        m_bytes_this_block :=
          (if w.put_flushes k v then w.flush_block else w).m_bytes_this_block +
            (k.length + v.length + 4) }) := by
  have hf : w.put_flushes k v =
      decide (w.m_bytes_this_block + (k.length + v.length + 4) > MAX_MERGESORT_BLOCK_SIZE) := by
    unfold db_writer.put_flushes
    simp [hk, hv]
  refine ⟨hf, ?_⟩
  unfold db_writer.put
  rw [if_neg hk, if_neg hv, hf]
  by_cases hc : w.m_bytes_this_block + (k.length + v.length + 4) > MAX_MERGESORT_BLOCK_SIZE
  · simp only [hc, decide_True, if_true]
  · simp only [hc, decide_False, Bool.false_eq_true, if_false]

theorem inv_push (table_name : Str) (w : db_writer) (n : Nat) (k v : Str)
    (h : coordinator_inv table_name w n)
    (hb : w.m_bytes_this_block + (k.length + v.length + 4) ≤ MAX_MERGESORT_BLOCK_SIZE) :
    coordinator_inv table_name
      { w with m_strings := w.m_strings ++ [(k, v)],
               m_bytes_this_block := w.m_bytes_this_block + (k.length + v.length + 4) } n where
  subdir := h.subdir
  counter := h.counter
  blocks := h.blocks
  blocks2 := h.blocks2
  blocks3 := h.blocks3
  shape := h.shape
  nodup := h.nodup
  stage1 := h.stage1
  count1 := h.count1
  count2 := h.count2
  count3 := h.count3
  bytes_sum := by
    show w.m_bytes_this_block + _ = batch_bytes (w.m_strings ++ [(k, v)])
    rw [batch_bytes_append, h.bytes_sum]
  bytes_max := hb

/-- A call of `put` keeps the invariant of the coordinator. -/
theorem inv_put (table_name : Str) (w : db_writer) (n : Nat) (k v : Str)
    (h : coordinator_inv table_name w n) :
    coordinator_inv table_name (w.put k v).2 (n + if w.put_flushes k v then 1 else 0) := by
  by_cases hk : k.length > uint16_max
  · obtain ⟨h1, -, h3⟩ := put_rejected w k v (Or.inl hk)
    rw [h1, h3]
    exact h
  · by_cases hv : v.length > uint16_max
    · obtain ⟨h1, -, h3⟩ := put_rejected w k v (Or.inr hv)
      rw [h1, h3]
      exact h
    · obtain ⟨h1, h2⟩ := put_accepted w k v hk hv
      rw [h2]
      have hk' : k.length ≤ 65535 := by simpa [uint16_max] using hk
      have hv' : v.length ≤ 65535 := by simpa [uint16_max] using hv
      by_cases hc : w.m_bytes_this_block + (k.length + v.length + 4) > MAX_MERGESORT_BLOCK_SIZE
      · have hf : w.put_flushes k v = true := by rw [h1]; exact decide_eq_true hc
        simp only [hf, if_true]
        have h' := inv_flush_block table_name w n h
        refine inv_push table_name w.flush_block (n + 1) k v h' ?_
        have : w.flush_block.m_bytes_this_block = 0 := by
          rw [h'.bytes_sum]
          have : w.flush_block.m_strings = [] := by
            rw [flush_block_eq]
            split_ifs <;> rfl
          rw [this]
          rfl
        rw [this]
        simp only [MAX_MERGESORT_BLOCK_SIZE]
        omega
      · have hf : w.put_flushes k v = false := by rw [h1]; exact decide_eq_false hc
        simp only [hf, Bool.false_eq_true, if_false]
        exact inv_push table_name w n k v h (by omega)

/-- Every sequence of calls keeps the invariant of the coordinator. -/
theorem inv_calls (table_name : Str) : ∀ (cs : List coordinator_call) (w : db_writer) (n : Nat),
    coordinator_inv table_name w n → coordinator_inv table_name (w.calls cs) (n + w.flushes cs)
  | [], w, n, h => h
  | coordinator_call.put k v :: cs, w, n, h => by
    have := inv_calls table_name cs (w.put k v).2 _ (inv_put table_name w n k v h)
    rw [Nat.add_assoc] at this
    exact this
  | coordinator_call.flush_block :: cs, w, n, h => by
    have := inv_calls table_name cs w.flush_block _ (inv_flush_block table_name w n h)
    rw [Nat.add_assoc] at this
    exact this

/-- The coordinator of a table after any sequence of calls. -/
theorem inv_reachable (table_name : Str) (cs : List coordinator_call) :
    coordinator_inv table_name ((db_writer.ctor table_name).calls cs)
      ((db_writer.ctor table_name).flushes cs) := by
  have := inv_calls table_name cs _ 0 (inv_ctor table_name)
  rw [Nat.zero_add] at this
  exact this

/-! ## File names -/

theorem hex_digit_value_digit (d : Nat) (h : d < 16) : hex_digit_value (hex_digit d) = d := by
  unfold hex_digit_value hex_digit
  by_cases h1 : d < 10
  · rw [if_pos h1]
    have e : (Fin.ofNat (48 + d) : Byte).val = 48 + d := by
      simp only [Fin.ofNat, Fin.val_mk]
      omega
    rw [e, if_pos (by omega)]
    omega
  · rw [if_neg h1]
    have e : (Fin.ofNat (87 + d) : Byte).val = 87 + d := by
      simp only [Fin.ofNat, Fin.val_mk]
      omega
    rw [e, if_neg (by omega)]
    omega

theorem hex_value_snoc (s : Str) (c : Byte) :
    hex_value (s ++ [c]) = hex_value s * 16 + hex_digit_value c := by
  simp [hex_value, List.foldl_append]

theorem hex_value_digits : ∀ (fuel n : Nat), n ≤ fuel → hex_value (hex_digits fuel n) = n
  | 0, n, h => by
    have : n = 0 := Nat.le_zero.mp h
    subst this
    rfl
  | fuel + 1, n, h => by
    rw [hex_digits]
    by_cases hn : n = 0
    · rw [if_pos hn, hn]; rfl
    · rw [if_neg hn, hex_value_snoc, hex_value_digits fuel (n / 16) (by omega),
        hex_digit_value_digit _ (Nat.mod_lt _ (by decide))]
      omega

theorem hex_value_zeros (k : Nat) (s : Str) :
    hex_value (List.replicate k (Fin.ofNat 48) ++ s) = hex_value s := by
  induction k with
  | zero => rfl
  | succ k ih =>
    rw [List.replicate_succ, List.cons_append]
    unfold hex_value at ih ⊢
    rw [List.foldl_cons]
    exact ih

theorem hex_value_hex08 (n : Nat) : hex_value (hex08 n) = n := by
  unfold hex08
  simp only
  rw [hex_value_zeros, hex_value_digits n n (le_refl _)]

theorem hex08_injective {n m : Nat} (h : hex08 n = hex08 m) : n = m := by
  have := congrArg hex_value h
  rwa [hex_value_hex08, hex_value_hex08] at this

theorem bytes_part : bytes "part" = [112, 97, 114, 116] := by decide
theorem bytes_part2 : bytes "part2" = [112, 97, 114, 116, 50] := by decide
theorem bytes_part3 : bytes "part3" = [112, 97, 114, 116, 51] := by decide
theorem bytes_underscore : bytes "_" = [95] := by decide

/-- Tasks of the same table and of the stages `part`, `part2`, `part3` that differ in
stage or block number have different file names. -/
theorem format_file_name_injective (subdir p q : Str) (n m : Nat)
    (hp : p = bytes "part" ∨ p = bytes "part2" ∨ p = bytes "part3")
    (hq : q = bytes "part" ∨ q = bytes "part2" ∨ q = bytes "part3")
    (h : format_file_name subdir p n = format_file_name subdir q m) : p = q ∧ n = m := by
  unfold format_file_name at h
  simp only [List.append_assoc] at h
  have h1 := List.append_cancel_left (List.append_cancel_left h)
  have same : ∀ r : Str, r ++ (bytes "_" ++ (hex08 n ++ bytes ".data")) =
      r ++ (bytes "_" ++ (hex08 m ++ bytes ".data")) → n = m := by
    intro r hr
    exact hex08_injective (List.append_cancel_right
      (List.append_cancel_left (List.append_cancel_left hr)))
  rcases hp with rfl | rfl | rfl <;> rcases hq with rfl | rfl | rfl
  · exact ⟨rfl, same _ h1⟩
  · exfalso
    rw [bytes_part, bytes_part2, bytes_underscore] at h1
    simp at h1
  · exfalso
    rw [bytes_part, bytes_part3, bytes_underscore] at h1
    simp at h1
  · exfalso
    rw [bytes_part, bytes_part2, bytes_underscore] at h1
    simp at h1
  · exact ⟨rfl, same _ h1⟩
  · exfalso
    rw [bytes_part2, bytes_part3] at h1
    simp at h1
  · exfalso
    rw [bytes_part, bytes_part3, bytes_underscore] at h1
    simp at h1
  · exfalso
    rw [bytes_part2, bytes_part3] at h1
    simp at h1
  · exact ⟨rfl, same _ h1⟩

/-! ## Claims about the coordinator -/

set_option maxRecDepth 100000 in
/-- Claim C14: the stage schedule of `flush_block`.  Take a fresh coordinator and any
sequence of calls of `put` and `flush_block`, and let `n` be the number of times
`flush_block` has run.  Then `n` stage-1 tasks, `n / 16` stage-2 tasks and `n / 256`
stage-3 tasks have been spawned; the stage-1 task of run `b` has the block number `b`;
every stage-2 task was spawned in a sixteenth run `b` and its predecessors are the
sixteen stage-1 tasks of the runs `b - 15, ..., b`, the most recent ones; every stage-3
task was spawned in a 256th run `b` and its predecessors are the sixteen stage-2 tasks
of the runs `b - 240, b - 224, ..., b`, the most recent ones; the three lists hold
`n mod 16`, `(n / 16) mod 16` and `n / 256` tasks.  Seventeen runs spawn one stage-2
task. -/
theorem flush_block_stage_schedule (table_name : Str) (cs : List coordinator_call) :
    ((db_writer.ctor table_name).calls cs).spawned.countP
        (fun t => decide (t.m_pfx = bytes "part")) = (db_writer.ctor table_name).flushes cs ∧
    ((db_writer.ctor table_name).calls cs).spawned.countP
        (fun t => decide (t.m_pfx = bytes "part2")) =
      (db_writer.ctor table_name).flushes cs / 16 ∧
    ((db_writer.ctor table_name).calls cs).spawned.countP
        (fun t => decide (t.m_pfx = bytes "part3")) =
      (db_writer.ctor table_name).flushes cs / 256 ∧
    (∀ t ∈ ((db_writer.ctor table_name).calls cs).spawned,
      t.m_pfx = bytes "part" ∨ t.m_pfx = bytes "part2" ∨ t.m_pfx = bytes "part3") ∧
    (∀ b < (db_writer.ctor table_name).flushes cs, (bytes "part", b) ∈
      ((db_writer.ctor table_name).calls cs).spawned.map thread_control_block.stage_key) ∧
    (∀ t ∈ ((db_writer.ctor table_name).calls cs).spawned, t.m_pfx = bytes "part" →
      t.m_waits = [] ∧ t.m_block_number < (db_writer.ctor table_name).flushes cs) ∧
    (∀ t ∈ ((db_writer.ctor table_name).calls cs).spawned, t.m_pfx = bytes "part2" →
      t.m_block_number % 16 = 15 ∧ t.m_waits.length = 16 ∧
      t.m_waits.map thread_control_block.stage_key =
        (List.range' (t.m_block_number - 15) 16).map (fun b => (bytes "part", b))) ∧
    (∀ t ∈ ((db_writer.ctor table_name).calls cs).spawned, t.m_pfx = bytes "part3" →
      t.m_block_number % 256 = 255 ∧ t.m_waits.length = 16 ∧
      t.m_waits.map thread_control_block.stage_key =
        (List.range 16).map (fun i => (bytes "part2", t.m_block_number - 240 + 16 * i))) ∧
    ((db_writer.ctor table_name).calls cs).m_blocks.length =
      (db_writer.ctor table_name).flushes cs % 16 ∧
    ((db_writer.ctor table_name).calls cs).m_blocks2.length =
      (db_writer.ctor table_name).flushes cs / 16 % 16 ∧
    ((db_writer.ctor table_name).calls cs).m_blocks3.length =
      (db_writer.ctor table_name).flushes cs / 256 ∧
    (db_writer.ctor table_name).flushes (List.replicate 17 coordinator_call.flush_block) = 17 ∧
    ((db_writer.ctor table_name).calls
        (List.replicate 17 coordinator_call.flush_block)).spawned.countP
      (fun t => decide (t.m_pfx = bytes "part2")) = 1 := by
  have h := inv_reachable table_name cs
  have h17 := inv_reachable table_name (List.replicate 17 coordinator_call.flush_block)
  have e17 : (db_writer.ctor table_name).flushes (List.replicate 17 coordinator_call.flush_block) =
      17 := by
    simp [List.replicate, db_writer.flushes]
  have hlen : ∀ (l : List thread_control_block) (m : Nat) (f : Nat → Str × Nat),
      l.map thread_control_block.stage_key = (List.range' m 16).map f → l.length = 16 := by
    intro l m f hl
    have := congrArg List.length hl
    simpa using this
  have hlen' : ∀ (l : List thread_control_block) (f : Nat → Str × Nat),
      l.map thread_control_block.stage_key = (List.range 16).map f → l.length = 16 := by
    intro l f hl
    have := congrArg List.length hl
    simpa using this
  refine ⟨h.count1, h.count2, h.count3, ?_, h.stage1, ?_, ?_, ?_, ?_, ?_, ?_, e17, ?_⟩
  · intro t ht
    rcases (h.shape t ht).2.2.2 with h1 | h1 | h1
    · exact Or.inl h1.1
    · exact Or.inr (Or.inl h1.1)
    · exact Or.inr (Or.inr h1.1)
  · intro t ht hp
    obtain ⟨-, -, hlt, h1 | h1 | h1⟩ := h.shape t ht
    · exact ⟨h1.2.1, hlt⟩
    · exact absurd (hp.symm.trans h1.1) part_ne_part2
    · exact absurd (hp.symm.trans h1.1) part_ne_part3
  · intro t ht hp
    obtain ⟨-, -, -, h1 | h1 | h1⟩ := h.shape t ht
    · exact absurd (h1.1.symm.trans hp) part_ne_part2
    · exact ⟨h1.2.2.1, hlen _ _ _ h1.2.2.2, h1.2.2.2⟩
    · exact absurd (hp.symm.trans h1.1) part2_ne_part3
  · intro t ht hp
    obtain ⟨-, -, -, h1 | h1 | h1⟩ := h.shape t ht
    · exact absurd (h1.1.symm.trans hp) part_ne_part3
    · exact absurd (h1.1.symm.trans hp) part2_ne_part3
    · exact ⟨h1.2.2.1, hlen' _ _ h1.2.2.2, h1.2.2.2⟩
  · have := congrArg List.length h.blocks
    simpa using this
  · have := congrArg List.length h.blocks2
    simpa using this
  · have := congrArg List.length h.blocks3
    simpa using this
  · rw [h17.count2, e17]

/-- Claim C15: the byte budget of the coordinator.  After any sequence of calls on a fresh
coordinator, `m_bytes_this_block` is the sum of `key_len + val_len + 4` over the pairs
of the batch and is at most 67108864, and the batch of every stage-1 task that has been
spawned accounts for at most 67108864 bytes.  A `put` that passes the two size checks
runs `flush_block` exactly when the count with the new pair would be above 67108864,
and it does so before it appends the pair: the batch is then the new pair alone. -/
theorem byte_budget_invariant (table_name : Str) (cs : List coordinator_call) :
    ((db_writer.ctor table_name).calls cs).m_bytes_this_block =
      batch_bytes ((db_writer.ctor table_name).calls cs).m_strings ∧
    ((db_writer.ctor table_name).calls cs).m_bytes_this_block ≤ 67108864 ∧
    (∀ t ∈ ((db_writer.ctor table_name).calls cs).spawned, t.m_pfx = bytes "part" →
      batch_bytes t.m_strings ≤ 67108864) ∧
    (∀ k v : Str, k.length ≤ 65535 → v.length ≤ 65535 →
      (((db_writer.ctor table_name).calls cs).put_flushes k v = true ↔
        ((db_writer.ctor table_name).calls cs).m_bytes_this_block +
          (k.length + v.length + 4) > 67108864) ∧
      ((((db_writer.ctor table_name).calls cs).put k v).2.m_block_counter =
        ((db_writer.ctor table_name).calls cs).m_block_counter +
          if ((db_writer.ctor table_name).calls cs).put_flushes k v then 1 else 0) ∧
      ((((db_writer.ctor table_name).calls cs).put k v).2.m_strings =
        (if ((db_writer.ctor table_name).calls cs).put_flushes k v then []
          else ((db_writer.ctor table_name).calls cs).m_strings) ++ [(k, v)]) ∧
      ((((db_writer.ctor table_name).calls cs).put k v).2.m_bytes_this_block =
        (if ((db_writer.ctor table_name).calls cs).put_flushes k v then 0
          else ((db_writer.ctor table_name).calls cs).m_bytes_this_block) +
          (k.length + v.length + 4)) ∧
      (((db_writer.ctor table_name).calls cs).put k v).2.m_bytes_this_block =
        batch_bytes (((db_writer.ctor table_name).calls cs).put k v).2.m_strings ∧
      (((db_writer.ctor table_name).calls cs).put k v).2.m_bytes_this_block ≤ 67108864) := by
  have h := inv_reachable table_name cs
  refine ⟨h.bytes_sum, h.bytes_max, ?_, ?_⟩
  · intro t ht hp
    obtain ⟨-, -, -, h1 | h1 | h1⟩ := h.shape t ht
    · exact h1.2.2
    · exact absurd (hp.symm.trans h1.1) part_ne_part2
    · exact absurd (hp.symm.trans h1.1) part_ne_part3
  · intro k v hk hv
    have hk' : ¬ k.length > uint16_max := by simp only [uint16_max]; omega
    have hv' : ¬ v.length > uint16_max := by simp only [uint16_max]; omega
    obtain ⟨h1, h2⟩ := put_accepted ((db_writer.ctor table_name).calls cs) k v hk' hv'
    have h3 := inv_put table_name _ _ k v h
    have hfl : ∀ w : db_writer, w.flush_block.m_strings = [] ∧
        w.flush_block.m_bytes_this_block = 0 ∧
        w.flush_block.m_block_counter = w.m_block_counter + 1 := by
      intro w
      rw [flush_block_eq]
      split_ifs <;> exact ⟨rfl, rfl, rfl⟩
    refine ⟨?_, ?_, ?_, ?_, h3.bytes_sum, h3.bytes_max⟩
    · rw [h1, decide_eq_true_iff]
      rfl
    · rw [h2]
      by_cases hf : ((db_writer.ctor table_name).calls cs).put_flushes k v = true
      · simp only [hf, if_true]
        exact (hfl _).2.2
      · simp only [hf, Bool.false_eq_true, if_false]
        rfl
    · rw [h2]
      by_cases hf : ((db_writer.ctor table_name).calls cs).put_flushes k v = true
      · simp only [hf, if_true]
        rw [(hfl _).1]
      · simp only [hf, Bool.false_eq_true, if_false]
    · rw [h2]
      by_cases hf : ((db_writer.ctor table_name).calls cs).put_flushes k v = true
      · simp only [hf, if_true]
        rw [(hfl _).2.1]
      · simp only [hf, Bool.false_eq_true, if_false]

/-- Claim C18: block numbers and file names of the spawned tasks.  In every state that a
fresh coordinator reaches by calls of `put` and `flush_block`, the block counter is the
number of times `flush_block` has run, every spawned task has one of the stages `part`,
`part2`, `part3` and a block number below the counter, no two spawned tasks of the same
stage have the same block number, and no two spawned tasks have the same file name. -/
theorem spawned_tasks_have_distinct_names (table_name : Str) (cs : List coordinator_call) :
    ((db_writer.ctor table_name).calls cs).m_block_counter =
      (db_writer.ctor table_name).flushes cs ∧
    (∀ t ∈ ((db_writer.ctor table_name).calls cs).spawned,
      (t.m_pfx = bytes "part" ∨ t.m_pfx = bytes "part2" ∨ t.m_pfx = bytes "part3") ∧
      t.m_block_number < ((db_writer.ctor table_name).calls cs).m_block_counter) ∧
    ((db_writer.ctor table_name).calls cs).spawned.Pairwise
      (fun a b => a.m_pfx = b.m_pfx → a.m_block_number ≠ b.m_block_number) ∧
    ((db_writer.ctor table_name).calls cs).spawned.Pairwise
      (fun a b => a.file_name ≠ b.file_name) := by
  have h := inv_reachable table_name cs
  have hpfx : ∀ t ∈ ((db_writer.ctor table_name).calls cs).spawned,
      t.m_pfx = bytes "part" ∨ t.m_pfx = bytes "part2" ∨ t.m_pfx = bytes "part3" := by
    intro t ht
    rcases (h.shape t ht).2.2.2 with h1 | h1 | h1
    · exact Or.inl h1.1
    · exact Or.inr (Or.inl h1.1)
    · exact Or.inr (Or.inr h1.1)
  have hkeys : ((db_writer.ctor table_name).calls cs).spawned.Pairwise
      (fun a b => a.stage_key ≠ b.stage_key) := List.pairwise_map.mp h.nodup
  refine ⟨h.counter, ?_, ?_, ?_⟩
  · intro t ht
    refine ⟨hpfx t ht, ?_⟩
    rw [h.counter]
    exact (h.shape t ht).2.2.1
  · refine hkeys.imp ?_
    intro a b hab hp hn
    exact hab (Prod.ext hp hn)
  · refine hkeys.imp_of_mem ?_
    intro a b ha hb hab hname
    unfold thread_control_block.file_name at hname
    rw [(h.shape a ha).1, (h.shape b hb).1] at hname
    obtain ⟨h1, h2⟩ := format_file_name_injective table_name _ _ _ _ (hpfx a ha) (hpfx b hb) hname
    exact hab (Prod.ext h1 h2)

/-! ## The rounds of the merge loop -/

theorem reader_at_not_at_end (be : Bool) {rs : List block_reader} {Ls : List (List kv_pair_t)}
    (h : List.Forall₂ (reader_at be) rs Ls) : ∀ r ∈ rs, r.at_end = false := by
  induction h with
  | nil => intro r hr; exact absurd hr (List.not_mem_nil _)
  | @cons r L rs' Ls' hrl _ ih =>
    intro x hx
    rcases List.mem_cons.mp hx with rfl | hx
    · obtain ⟨_, _, _, hend, _, _⟩ := hrl
      exact hend
    · exact ih x hx

/-- The loop of `run_merge` on readers that stand on non-empty lists of pairs, sorted or
not: it ends, what it writes is an arrangement of all their pairs, exactly the files of
the readers are removed, and in no round a reader of the vector is at its end. -/
theorem merge_loop_rounds (be : Bool) : ∀ (fuel : Nat) (fs : FileSystem) (rs : List block_reader)
    (Ls : List (List kv_pair_t)) (w : block_writer),
    List.Forall₂ (reader_at be) rs Ls → (∀ L ∈ Ls, ∀ kv ∈ L, readable kv) →
    merge_rounds rs ≤ fuel →
    ∃ out fs', merge_loop be fuel fs rs w =
        some (fs', { w with m_stream := w.m_stream ++ encode be out }) ∧
      out.Perm Ls.flatten ∧
      (∀ name, fs_read fs' name =
        if name ∈ rs.map block_reader.file_name then none else fs_read fs name) ∧
      ∀ rs' ∈ merge_loop_trace be fuel rs, ∀ r ∈ rs', r.at_end = false := by
  intro fuel
  induction fuel with
  | zero =>
    intro fs rs Ls w _ _ hfuel
    simp [merge_rounds] at hfuel
  | succ fuel ih =>
    intro fs rs Ls w hR hfit hfuel
    cases rs with
    | nil =>
      cases hR
      exact ⟨[], fs, by simp [merge_loop, encode_nil], by simp, by simp,
        by simp [merge_loop_trace]⟩
    | cons r0 rest =>
      have hnow := reader_at_not_at_end be hR
      obtain ⟨rj, hj, hval, -⟩ := find_min_spec [r0] rest 0 r0.value (by simp)
        (by intro r hr; simp at hr; subst hr; exact (compare_first_iff _ _).mpr (le_refl _))
      simp only [List.length_singleton, List.singleton_append] at hj hval
      generalize hfm : find_min 0 r0.value 1 rest = res at hj hval
      obtain ⟨j, p⟩ := res
      simp only at hj hval
      obtain ⟨L, hL, hat⟩ := forall₂_getElem? hR j rj hj
      obtain ⟨kv, tl, hLe, hend, hcur, hstream⟩ := hat
      have hp : kv = p := by rw [← hcur]; exact hval
      subst hp
      have hLmem : (kv :: tl) ∈ Ls := by rw [← hLe]; exact List.mem_iff_getElem?.mpr ⟨j, hL⟩
      cases tl with
      | nil =>
        have hnext : rj.next be = { rj with m_end := true } :=
          next_nil be rj (by rw [hstream]; rfl)
        have hR' := forall₂_eraseIdx hR j
        obtain ⟨out, fs', hloop, hperm, hfs, htr⟩ :=
          ih (fs_remove fs rj.file_name) ((r0 :: rest).eraseIdx j) (Ls.eraseIdx j)
            (w.call be kv) hR'
            (fun L hL' => hfit L (mem_of_mem_eraseIdx _ _ _ hL'))
            (by have := merge_rounds_eraseIdx (r0 :: rest) j rj hj; omega)
        have hpm : (kv :: (Ls.eraseIdx j).flatten).Perm Ls.flatten :=
          flatten_eraseIdx_perm Ls j kv (by rw [hL, hLe])
        refine ⟨kv :: out, fs', ?_, ?_, ?_, ?_⟩
        · simp only [merge_loop, hfm, List.get?_eq_getElem?, hj, hnext, block_reader.at_end,
            if_true]
          simp only [block_reader.file_name] at hloop ⊢
          rw [hloop, call_stream, encode_cons]
          simp [List.append_assoc]
        · exact (List.Perm.cons kv hperm).trans hpm
        · intro name
          rw [hfs name, fs_read_remove]
          have := mem_names_eraseIdx (r0 :: rest) j rj hj name
          by_cases h1 : name ∈ ((r0 :: rest).eraseIdx j).map block_reader.file_name
          · rw [if_pos h1, if_pos (this.mpr (Or.inr h1))]
          · by_cases h2 : name = rj.file_name
            · rw [if_neg h1, if_pos h2, if_pos (this.mpr (Or.inl h2))]
            · rw [if_neg h1, if_neg h2, if_neg (fun h => (this.mp h).elim h2 h1)]
        · intro rs' hrs'
          simp only [merge_loop_trace, hfm, List.get?_eq_getElem?, hj, hnext, block_reader.at_end,
            if_true, List.mem_cons] at hrs'
          rcases hrs' with rfl | hrs'
          · exact hnow
          · exact htr rs' hrs'
      | cons kv' tl' =>
        have hfit' : readable kv' := hfit _ hLmem kv' (by simp)
        have hnext : rj.next be = { rj with m_stream := encode be tl', m_current := kv' } :=
          next_record be rj kv' (encode be tl') hfit' (by rw [hstream, encode_cons])
        have hat' : reader_at be (rj.next be) (kv' :: tl') := by
          rw [hnext]; exact ⟨kv', tl', rfl, hend, rfl, rfl⟩
        have hR' := forall₂_set hR j (rj.next be) (kv' :: tl') hat'
        have hsub : ∀ L ∈ Ls.set j (kv' :: tl'), L = kv' :: tl' ∨ L ∈ Ls :=
          fun L hL' => mem_of_mem_set _ _ _ _ hL'
        obtain ⟨out, fs', hloop, hperm, hfs, htr⟩ :=
          ih fs ((r0 :: rest).set j (rj.next be)) (Ls.set j (kv' :: tl')) (w.call be kv) hR'
            (by
              intro L hL' x hx
              rcases hsub L hL' with e | e
              · subst e; exact hfit _ hLmem x (List.mem_cons_of_mem _ hx)
              · exact hfit L e x hx)
            (by
              have := merge_rounds_set (r0 :: rest) j rj (rj.next be) hj
              rw [hnext] at this
              simp only at this
              rw [hstream, encode_cons, List.length_append] at this
              have := record_length be kv'
              rw [hnext]; omega)
        have hpm : (kv :: (Ls.set j (kv' :: tl')).flatten).Perm Ls.flatten :=
          flatten_set_perm Ls j kv (kv' :: tl') (by rw [hL, hLe])
        have hne : (rj.next be).at_end = false := by rw [hnext]; exact hend
        refine ⟨kv :: out, fs', ?_, ?_, ?_, ?_⟩
        · simp only [merge_loop, hfm, List.get?_eq_getElem?, hj, hne, Bool.false_eq_true,
            if_false]
          rw [hloop, call_stream, encode_cons]
          simp [List.append_assoc]
        · exact (List.Perm.cons kv hperm).trans hpm
        · intro name
          rw [hfs name, names_set (r0 :: rest) j rj (rj.next be) hj (by rw [hnext]; rfl)]
        · intro rs' hrs'
          simp only [merge_loop_trace, hfm, List.get?_eq_getElem?, hj, hne, Bool.false_eq_true,
            if_false, List.mem_cons] at hrs'
          rcases hrs' with rfl | hrs'
          · exact hnow
          · exact htr rs' hrs'

/-! ## A call of `run_merge` in the run of the threads -/

/-- The k-way branch of `run_merge` on predecessors whose files hold non-empty lists of
pairs, sorted or not. -/
theorem run_merge_kway_rounds (be : Bool) (fs : FileSystem) (t : thread_control_block)
    (Ls : List (List kv_pair_t)) (hlen : t.m_waits.length ≠ 1)
    (hP : List.Forall₂ (fun p L => p.m_error = none ∧
      fs_read fs p.file_name = some (encode be L) ∧ (∀ kv ∈ L, readable kv) ∧ L ≠ []) t.m_waits Ls)
    (hnames : ∀ p ∈ t.m_waits, p.file_name ≠ t.file_name) :
    ∃ o out, run_merge be fs t = some o ∧ o.thrown = none ∧ o.tcb = t.set_waits [] ∧
      fs_read o.fs t.file_name = some (encode be out) ∧ out.Perm Ls.flatten ∧
      (∀ p ∈ t.m_waits, fs_read o.fs p.file_name = none) ∧
      (∀ name, name ≠ t.file_name → name ∉ t.m_waits.map thread_control_block.file_name →
        fs_read o.fs name = fs_read fs name) ∧
      ∀ rs ∈ run_merge_rounds be fs t, ∀ r ∈ rs, r.at_end = false := by
  obtain ⟨rs, hopen, hR, hrn⟩ := open_readers_spec be fs t.m_waits Ls hP
  have hname : format_file_name (t.set_waits []).m_subdir (t.set_waits []).m_pfx
      (t.set_waits []).m_block_number = t.file_name := set_waits_file_name t []
  obtain ⟨out, fs', hloop, hperm, hfs, htr⟩ :=
    merge_loop_rounds be (merge_rounds rs)
      (block_writer.ctor fs (t.set_waits []).m_subdir (t.set_waits []).m_pfx
        (t.set_waits []).m_block_number).1 rs Ls
      (block_writer.ctor fs (t.set_waits []).m_subdir (t.set_waits []).m_pfx
        (t.set_waits []).m_block_number).2 hR
      (fun L hL => by
        obtain ⟨p, _, hp⟩ := forall₂_mem_right hP L hL
        exact hp.2.2.1)
      (le_refl _)
  have hnotin : t.file_name ∉ rs.map block_reader.file_name := by
    rw [hrn]
    intro hmem
    obtain ⟨p, hp, he⟩ := List.mem_map.mp hmem
    exact hnames p hp he
  have hwname : (block_writer.ctor fs (t.set_waits []).m_subdir (t.set_waits []).m_pfx
      (t.set_waits []).m_block_number).2.file_name = t.file_name := hname
  have hout : fs_read fs' t.file_name = some [] := by
    rw [hfs, if_neg hnotin, ← hname]
    exact ctor_writer_read _ _ _ _
  have hrun : run_merge be fs t = some
      { fs := block_writer.dtor fs'
          { (block_writer.ctor fs (t.set_waits []).m_subdir (t.set_waits []).m_pfx
              (t.set_waits []).m_block_number).2 with
            m_stream := (block_writer.ctor fs (t.set_waits []).m_subdir (t.set_waits []).m_pfx
              (t.set_waits []).m_block_number).2.m_stream ++ encode be out },
        tcb := t.set_waits [], thrown := none } := by
    unfold run_merge
    split
    · rename_i tcb2 heq
      rw [heq] at hlen
      exact absurd rfl hlen
    · simp only [hopen, hloop]
  have hrounds : run_merge_rounds be fs t = merge_loop_trace be (merge_rounds rs) rs := by
    unfold run_merge_rounds
    split
    · rename_i tcb2 heq
      rw [heq] at hlen
      exact absurd rfl hlen
    · simp only [hopen]
  refine ⟨_, out, hrun, rfl, rfl, ?_, hperm, ?_, ?_, ?_⟩
  · simp only
    have := dtor_read fs'
      { (block_writer.ctor fs (t.set_waits []).m_subdir (t.set_waits []).m_pfx
          (t.set_waits []).m_block_number).2 with
        m_stream := (block_writer.ctor fs (t.set_waits []).m_subdir (t.set_waits []).m_pfx
          (t.set_waits []).m_block_number).2.m_stream ++ encode be out } []
      (by rw [hwname]; exact hout)
    rw [hwname] at this
    rw [this]
    simp [block_writer.ctor]
  · intro p hp
    simp only
    rw [dtor_read_other _ _ _ (by rw [hwname]; exact hnames p hp), hfs,
      if_pos (by rw [hrn]; exact List.mem_map_of_mem _ hp)]
  · intro name hne hnot
    simp only
    rw [dtor_read_other _ _ _ (by rw [hwname]; exact hne), hfs, if_neg (by rw [hrn]; exact hnot)]
    exact ctor_writer_read_other _ _ _ _ _ (by rw [hname]; exact hne)
  · rw [hrounds]
    exact htr

/-- A call of `run_merge` of a task with predecessors that have ended without an
exception and whose files hold non-empty lists of pairs: it ends without an exception,
the file of the task holds an arrangement of all these pairs, the files of the
predecessors are gone, the other files are as before, and in no round of the merge loop
a reader of the vector is at its end. -/
theorem run_merge_step (be : Bool) (fs : FileSystem) (t : thread_control_block)
    (Ls : List (List kv_pair_t)) (hne : t.m_waits ≠ [])
    (hP : List.Forall₂ (fun p L => p.m_error = none ∧
      fs_read fs p.file_name = some (encode be L) ∧ (∀ kv ∈ L, readable kv) ∧ L ≠ []) t.m_waits Ls)
    (hnames : ∀ p ∈ t.m_waits, p.file_name ≠ t.file_name) :
    ∃ o out, run_merge be fs t = some o ∧ o.thrown = none ∧ o.tcb.m_error = t.m_error ∧
      o.tcb.file_name = t.file_name ∧
      fs_read o.fs t.file_name = some (encode be out) ∧ out.Perm Ls.flatten ∧
      (∀ p ∈ t.m_waits, fs_read o.fs p.file_name = none) ∧
      (∀ name, name ≠ t.file_name → name ∉ t.m_waits.map thread_control_block.file_name →
        fs_read o.fs name = fs_read fs name) ∧
      ∀ rs ∈ run_merge_rounds be fs t, ∀ r ∈ rs, r.at_end = false := by
  by_cases hlen : t.m_waits.length = 1
  · obtain ⟨p, hp⟩ := List.length_eq_one.mp hlen
    rw [hp] at hP
    obtain ⟨L, hL⟩ : ∃ L, Ls = [L] := by
      cases hP with
      | cons _ h2 =>
        cases h2
        exact ⟨_, rfl⟩
    subst hL
    obtain ⟨he, hfile, -, -⟩ := (List.forall₂_cons.mp hP).1
    have hpn : p.file_name ≠ t.file_name := hnames p (by rw [hp]; exact List.mem_singleton_self _)
    have hrename : fs_rename fs p.file_name t.file_name =
        some (fs_write (fs_remove fs p.file_name) t.file_name (encode be L)) := by
      unfold fs_rename
      rw [hfile]
      simp only [if_neg hpn]
    have hrun : run_merge be fs t = some
        { fs := fs_write (fs_remove fs p.file_name) t.file_name (encode be L), tcb := t,
          thrown := none } := by
      unfold run_merge
      rw [hp]
      simp only [he, hrename]
    have hrounds : run_merge_rounds be fs t = [] := by
      unfold run_merge_rounds
      rw [hp]
    refine ⟨_, L, hrun, rfl, rfl, rfl, fs_read_write_same _ _ _, by simp, ?_, ?_, ?_⟩
    · intro q hq
      rw [hp, List.mem_singleton] at hq
      subst hq
      simp only
      rw [fs_read_write_other _ _ _ _ hpn, fs_read_remove_same]
    · intro name h1 h2
      rw [hp] at h2
      simp only [List.map_cons, List.map_nil, List.mem_singleton] at h2
      simp only
      rw [fs_read_write_other _ _ _ _ h1, fs_read_remove_other _ _ _ h2]
    · intro rs hrs
      rw [hrounds] at hrs
      exact absurd hrs (List.not_mem_nil _)
  · obtain ⟨o, out, h1, h2, h3, h4, h5, h6, h7, h8⟩ :=
      run_merge_kway_rounds be fs t Ls hlen hP hnames
    refine ⟨o, out, h1, h2, ?_, ?_, h4, h5, h6, h7, h8⟩
    · rw [h3]
      cases t
      rfl
    · rw [h3]
      exact set_waits_file_name t []

/-! ## The run of the threads of a task tree -/

theorem decode_encode_ne_nil (be : Bool) (L : List kv_pair_t) (hfit : ∀ kv ∈ L, fits kv)
    (hne : L ≠ []) : decode be (encode be L) ≠ [] := by
  have h := whole_records_encode be L [] (encode be L ++ []).length hfit (le_refl _)
  rw [List.append_nil] at h
  intro hd
  unfold decode at hd
  rw [hd] at h
  exact hne (List.prefix_nil.mp h)

theorem all_tasks_self_mem (t : thread_control_block) : t ∈ all_tasks t := by
  rw [all_tasks_eq]
  exact List.mem_cons_self _ _

theorem all_tasks_sublist_of_mem {u : thread_control_block} :
    ∀ {ws : List thread_control_block}, u ∈ ws → (all_tasks u).Sublist (all_tasks_list ws)
  | [], h => absurd h (List.not_mem_nil _)
  | w :: ws, h => by
    have e : all_tasks_list (w :: ws) = all_tasks w ++ all_tasks_list ws := by
      simp [all_tasks_list]
    rw [e]
    rcases List.mem_cons.mp h with rfl | h
    · exact List.sublist_append_left _ _
    · exact (all_tasks_sublist_of_mem h).trans (List.sublist_append_right _ _)

theorem all_tasks_list_cons (w : thread_control_block) (ws : List thread_control_block) :
    all_tasks_list (w :: ws) = all_tasks w ++ all_tasks_list ws := by
  simp [all_tasks_list]

/-- The thread of a task without predecessors. -/
theorem run_leaf (std_sort : sort_function) (be : Bool) (fs : FileSystem)
    (t : thread_control_block) (h : t.m_waits = []) :
    run std_sort be fs t = some ((run_write std_sort be fs t).fs, t.set_strings []) := by
  unfold run
  rw [h]
  simp only [List.length_nil, gt_iff_lt, lt_self_iff_false, if_false]
  rfl

theorem forall₂_mem_left {α β : Type} {R : α → β → Prop} {l1 : List α} {l2 : List β}
    (h : List.Forall₂ R l1 l2) : ∀ a ∈ l1, ∃ b ∈ l2, R a b := by
  induction h with
  | nil => intro a ha; exact absurd ha (List.not_mem_nil _)
  | @cons a b l1' l2' hab _ ih =>
    intro x hx
    rcases List.mem_cons.mp hx with rfl | hx
    · exact ⟨b, List.mem_cons_self _ _, hab⟩
    · obtain ⟨y, hy, hr⟩ := ih x hx
      exact ⟨y, List.mem_cons_of_mem _ hy, hr⟩

theorem tasks_ready_append {a b : List thread_control_block} (h : tasks_ready (a ++ b)) :
    tasks_ready a ∧ tasks_ready b ∧
    ∀ x ∈ a.map thread_control_block.file_name, x ∉ b.map thread_control_block.file_name := by
  obtain ⟨h1, h2⟩ := h
  rw [List.map_append, List.nodup_append] at h2
  refine ⟨⟨fun u hu => h1 u (List.mem_append_left _ hu), h2.1⟩,
    ⟨fun u hu => h1 u (List.mem_append_right _ hu), h2.2.1⟩, ?_⟩
  intro x hx hx'
  exact h2.2.2 hx hx'

/-- The threads of a list of tasks, given what the threads of its tasks do. -/
theorem run_all_list_result (std_sort : sort_function) (be : Bool) :
    ∀ (ws : List thread_control_block),
    (∀ u ∈ ws, tasks_ready (all_tasks u) → ∀ fs, run_all_result std_sort be u fs) →
    tasks_ready (all_tasks_list ws) → ∀ fs,
    ∃ fs' ws' merges Ls, run_all_list std_sort be ws fs = some (fs', ws', merges) ∧
      ws'.map thread_control_block.file_name = ws.map thread_control_block.file_name ∧
      List.Forall₂ (fun p L => p.m_error = none ∧
        fs_read fs' p.file_name = some (encode be L) ∧ (∀ kv ∈ L, readable kv) ∧ L ≠ []) ws' Ls ∧
      (∀ name, name ∉ (all_tasks_list ws).map thread_control_block.file_name →
        fs_read fs' name = fs_read fs name) ∧
      ∀ m ∈ merges, merge_call_safe be m
  | [], _, _, fs =>
    ⟨fs, [], [], [], by simp [run_all_list], rfl, List.Forall₂.nil, fun _ _ => rfl,
      fun _ hm => absurd hm (List.not_mem_nil _)⟩
  | t :: ts, ih, hready, fs => by
    rw [all_tasks_list_cons] at hready
    obtain ⟨hr1, hr2, hdisj⟩ := tasks_ready_append hready
    obtain ⟨fs1, t1, m1, L1, hrun1, herr1, hname1, hfile1, hfit1, hne1, hframe1, hsafe1⟩ :=
      ih t (List.mem_cons_self _ _) hr1 fs
    obtain ⟨fs2, ts1, m2, Ls, hrun2, hnames2, hF2, hframe2, hsafe2⟩ :=
      run_all_list_result std_sort be ts (fun u hu => ih u (List.mem_cons_of_mem _ hu)) hr2 fs1
    have htn : t.file_name ∉ (all_tasks_list ts).map thread_control_block.file_name :=
      hdisj _ (List.mem_map_of_mem _ (all_tasks_self_mem t))
    refine ⟨fs2, t1 :: ts1, m1 ++ m2, L1 :: Ls, ?_, ?_, ?_, ?_, ?_⟩
    · simp only [run_all_list, hrun1, hrun2]
    · rw [List.map_cons, List.map_cons, hname1, hnames2]
    · refine List.Forall₂.cons ⟨herr1, ?_, hfit1, hne1⟩ hF2
      rw [hname1, hframe2 _ htn]
      exact hfile1
    · intro name hname
      rw [all_tasks_list_cons, List.map_append, List.mem_append, not_or] at hname
      rw [hframe2 name hname.2, hframe1 name hname.1]
    · intro m hm
      rcases List.mem_append.mp hm with h | h
      · exact hsafe1 m h
      · exact hsafe2 m h

/-- The thread of a task and the threads below it, when the tasks are as the coordinator
spawns them and `std::sort` leaves a vector of the same size that holds no new pair. -/
theorem run_all_ready (std_sort : sort_function) (be : Bool)
    (hsort : ∀ xs, (std_sort compare_first xs).length = xs.length ∧
      ∀ kv ∈ std_sort compare_first xs, kv ∈ xs) :
    ∀ (n : Nat) (t : thread_control_block), (all_tasks t).length ≤ n →
    tasks_ready (all_tasks t) → ∀ fs, run_all_result std_sort be t fs := by
  intro n
  induction n with
  | zero =>
    intro t hlen
    rw [all_tasks_eq] at hlen
    simp at hlen
  | succ n ih =>
    intro t hlen hready fs
    obtain ⟨s, p, b, l, w, e⟩ := t
    have hall : all_tasks (thread_control_block.mk s p b l w e) =
        thread_control_block.mk s p b l w e :: all_tasks_list w := all_tasks_eq _
    rw [hall] at hlen hready
    have hself := hready.1 _ (List.mem_cons_self _ _)
    have he : e = none := hself.1
    subst he
    have hnd := hready.2
    rw [List.map_cons, List.nodup_cons] at hnd
    by_cases hw : w = []
    · subst hw
      obtain ⟨hl1, hl2⟩ := hself.2 rfl
      have hl1' : l ≠ [] := hl1
      have hl2' : ∀ kv ∈ l, readable kv := hl2
      have hrun : run_all std_sort be (thread_control_block.mk s p b l [] none) fs =
          some ((run_write std_sort be fs (thread_control_block.mk s p b l [] none)).fs,
            (thread_control_block.mk s p b l [] none).set_strings [], []) := by
        have hleaf := run_leaf std_sort be fs (thread_control_block.mk s p b l [] none) rfl
        simp only [run_all, run_all_list, List.length_nil, gt_iff_lt, lt_self_iff_false,
          if_false, hleaf]
      obtain ⟨hlen', hsub'⟩ := hsort l
      refine ⟨_, _, _, std_sort compare_first l, hrun, rfl, rfl, run_write_file _ _ _ _, ?_, ?_,
        ?_, fun _ hm => absurd hm (List.not_mem_nil _)⟩
      · intro kv hkv
        exact hl2' kv (hsub' kv hkv)
      · intro h
        rw [h] at hlen'
        exact hl1' (List.length_eq_zero.mp hlen'.symm)
      · intro name hname
        rw [hall, List.map_cons, List.mem_cons, not_or] at hname
        exact run_write_other _ _ _ _ _ hname.1
    · have hready' : tasks_ready (all_tasks_list w) :=
        ⟨fun u hu => hready.1 u (List.mem_cons_of_mem _ hu), hnd.2⟩
      obtain ⟨fs1, w1, merges, Ls, hrun, hnames, hF, hframe, hsafe⟩ :=
        run_all_list_result std_sort be w
          (fun u hu hr fs' => ih u (by
            have := (all_tasks_sublist_of_mem hu).length_le
            simp only [List.length_cons] at hlen
            omega) hr fs') hready' fs
      have hw1 : w1 ≠ [] := by
        intro h
        rw [h] at hnames
        exact hw (List.map_eq_nil_iff.mp hnames.symm)
      have hsub : ∀ x ∈ w.map thread_control_block.file_name,
          x ∈ (all_tasks_list w).map thread_control_block.file_name := by
        intro x hx
        obtain ⟨u, hu, rfl⟩ := List.mem_map.mp hx
        exact List.mem_map_of_mem _ ((all_tasks_sublist_of_mem hu).subset (all_tasks_self_mem u))
      have hnm : ∀ q ∈ w1, q.file_name ≠ (thread_control_block.mk s p b l w1 none).file_name := by
        intro q hq heq
        apply hnd.1
        have : q.file_name ∈ w1.map thread_control_block.file_name := List.mem_map_of_mem _ hq
        rw [hnames] at this
        have h2 := hsub _ this
        rw [heq] at h2
        exact h2
      obtain ⟨o, out, h1, h2, h3, h4, h5, h6, -, h8, h9⟩ :=
        run_merge_step be fs1 (thread_control_block.mk s p b l w1 none) Ls hw1 hF hnm
      have hpos : w1.length > 0 := List.length_pos.mpr hw1
      have hrun1 : run std_sort be fs1 (thread_control_block.mk s p b l w1 none) =
          some (o.fs, o.tcb) := by
        unfold run
        rw [if_pos (by exact hpos), h1]
        simp only [h2]
      have hrunall : run_all std_sort be (thread_control_block.mk s p b l w none) fs =
          some (o.fs, o.tcb, merges ++ [(fs1, thread_control_block.mk s p b l w1 none)]) := by
        simp only [run_all, hrun, hrun1, if_pos hpos]
      refine ⟨_, _, _, out, hrunall, h3, h4, h5, ?_, ?_, ?_, ?_⟩
      · intro kv hkv
        obtain ⟨L, hL, hkvL⟩ := List.mem_flatten.mp (h6.subset hkv)
        obtain ⟨q, _, hq⟩ := forall₂_mem_right hF L hL
        exact hq.2.2.1 kv hkvL
      · intro hout
        rw [hout] at h6
        have hflat : Ls.flatten = [] := (List.Perm.nil_eq h6).symm
        cases hF with
        | nil => exact hw1 rfl
        | cons hab _ =>
          rw [List.flatten_cons, List.append_eq_nil] at hflat
          exact hab.2.2.2 hflat.1
      · intro name hname
        rw [hall, List.map_cons, List.mem_cons, not_or] at hname
        rw [h8 name hname.1 (by
          show name ∉ w1.map thread_control_block.file_name
          rw [hnames]
          exact fun hx => hname.2 (hsub _ hx))]
        exact hframe name hname.2
      · intro m hm
        rcases List.mem_append.mp hm with h | h
        · exact hsafe m h
        · rw [List.mem_singleton] at h
          subst h
          refine ⟨?_, h9⟩
          intro q hq
          obtain ⟨L, _, hL⟩ := forall₂_mem_left hF q hq
          exact ⟨encode be L, hL.2.1,
            decode_encode_ne_nil be L (fun kv hkv => (hL.2.2.1 kv hkv).1) hL.2.2.2⟩

/-! ## The tasks of `finish` -/

/-- No two spawned tasks have the same file name. -/
theorem spawned_names_nodup (table_name : Str) (w : db_writer) (n : Nat)
    (h : coordinator_inv table_name w n) :
    (w.spawned.map thread_control_block.file_name).Nodup := by
  have hpfx : ∀ t ∈ w.spawned,
      t.m_pfx = bytes "part" ∨ t.m_pfx = bytes "part2" ∨ t.m_pfx = bytes "part3" := by
    intro t ht
    rcases (h.shape t ht).2.2.2 with h1 | h1 | h1
    · exact Or.inl h1.1
    · exact Or.inr (Or.inl h1.1)
    · exact Or.inr (Or.inr h1.1)
  have hkeys : w.spawned.Pairwise (fun a b => a.stage_key ≠ b.stage_key) :=
    List.pairwise_map.mp h.nodup
  refine List.pairwise_map.mpr (hkeys.imp_of_mem ?_)
  intro a b ha hb hab hname
  unfold thread_control_block.file_name at hname
  rw [(h.shape a ha).1, (h.shape b hb).1] at hname
  obtain ⟨h1, h2⟩ := format_file_name_injective table_name _ _ _ _ (hpfx a ha) (hpfx b hb) hname
  exact hab (Prod.ext h1 h2)

theorem bytes_final : bytes "final" = [102, 105, 110, 97, 108] := by decide

/-- The file of the final task is not the file of a spawned task. -/
theorem final_name_ne (subdir p : Str) (n m : Nat)
    (hp : p = bytes "part" ∨ p = bytes "part2" ∨ p = bytes "part3") :
    format_file_name subdir (bytes "final") m ≠ format_file_name subdir p n := by
  intro h
  unfold format_file_name at h
  simp only [List.append_assoc] at h
  have h1 := List.append_cancel_left (List.append_cancel_left h)
  rcases hp with rfl | rfl | rfl
  · rw [bytes_final, bytes_part] at h1
    simp at h1
  · rw [bytes_final, bytes_part2] at h1
    simp at h1
  · rw [bytes_final, bytes_part3] at h1
    simp at h1

/-- A task that `flush_block` leaves spawned was spawned before, or is the stage-1 task
with the batch, or is a task of stage 2 or 3. -/
theorem spawned_flush_block_mem (w : db_writer) (t : thread_control_block)
    (h : t ∈ w.flush_block.spawned) :
    t ∈ w.spawned ∨
    t = thread_control_block.ctor w.m_subdir (bytes "part") w.m_block_counter w.m_strings [] ∨
    t.m_pfx = bytes "part2" ∨ t.m_pfx = bytes "part3" := by
  have hp := (spawned_flush_block w).subset h
  rcases List.mem_append.mp hp with h1 | h1
  · exact Or.inl h1
  · right
    split_ifs at h1
    · simp only [List.mem_cons, List.mem_singleton, List.not_mem_nil, or_false] at h1
      rcases h1 with rfl | rfl | rfl
      · exact Or.inl rfl
      · exact Or.inr (Or.inl rfl)
      · exact Or.inr (Or.inr rfl)
    · simp only [List.mem_cons, List.mem_singleton, List.not_mem_nil, or_false] at h1
      rcases h1 with rfl | rfl
      · exact Or.inl rfl
      · exact Or.inr (Or.inl rfl)
    · rw [List.mem_singleton] at h1
      exact Or.inl h1

theorem batches_ready_flush_block (w : db_writer) (h : batches_ready w) (hne : w.m_strings ≠ []) :
    batches_ready w.flush_block := by
  constructor
  · intro t ht hp
    rcases spawned_flush_block_mem w t ht with h1 | h1 | h1 | h1
    · exact h.1 t h1 hp
    · rw [h1]
      exact ⟨hne, h.2⟩
    · exact absurd (hp.symm.trans h1) part_ne_part2
    · exact absurd (hp.symm.trans h1) part_ne_part3
  · intro kv hkv
    have : w.flush_block.m_strings = [] := by
      rw [flush_block_eq]
      split_ifs <;> rfl
    rw [this] at hkv
    exact absurd hkv (List.not_mem_nil _)

/-- When `put` gets to `flush_block`, the byte count is positive and the batch is not
empty. -/
theorem put_flushes_nonempty (table_name : Str) (w : db_writer) (n : Nat)
    (h : coordinator_inv table_name w n) (k v : Str) (hf : w.put_flushes k v = true) :
    0 < w.m_bytes_this_block ∧ w.m_strings ≠ [] := by
  unfold db_writer.put_flushes at hf
  simp only [Bool.and_eq_true, decide_eq_true_eq, uint16_max, MAX_MERGESORT_BLOCK_SIZE] at hf
  obtain ⟨⟨hk, hv⟩, hb⟩ := hf
  have hpos : 0 < w.m_bytes_this_block := by omega
  refine ⟨hpos, ?_⟩
  intro hs
  have := h.bytes_sum
  rw [hs] at this
  have h0 : batch_bytes [] = 0 := rfl
  omega

theorem batches_ready_put (table_name : Str) (w : db_writer) (n : Nat)
    (h : coordinator_inv table_name w n) (hr : batches_ready w) (k v : Str) :
    batches_ready (w.put k v).2 := by
  by_cases hk : k.length > uint16_max
  · rw [(put_rejected w k v (Or.inl hk)).1]
    exact hr
  · by_cases hv : v.length > uint16_max
    · rw [(put_rejected w k v (Or.inr hv)).1]
      exact hr
    · obtain ⟨-, h2⟩ := put_accepted w k v hk hv
      rw [h2]
      have hfit : fits (k, v) := by
        simp only [uint16_max] at hk hv
        exact ⟨by show k.length < 65536; omega, by show v.length < 65536; omega⟩
      have hpush : ∀ w2 : db_writer, batches_ready w2 →
          batches_ready
            { w2 with
              m_strings := w2.m_strings ++ [(k, v)],
              m_bytes_this_block := w2.m_bytes_this_block + (k.length + v.length + 4) } := by
        intro w2 hw2
        refine ⟨hw2.1, ?_⟩
        intro kv hkv
        rcases List.mem_append.mp hkv with h3 | h3
        · exact hw2.2 kv h3
        · rw [List.mem_singleton] at h3
          rw [h3]
          exact hfit
      by_cases hf : w.put_flushes k v = true
      · simp only [hf, if_true]
        exact hpush _ (batches_ready_flush_block w hr (put_flushes_nonempty table_name w n h k v hf).2)
      · simp only [hf, Bool.false_eq_true, if_false]
        exact hpush _ hr

theorem batches_ready_put_all (table_name : Str) : ∀ (l : List kv_pair_t) (w : db_writer) (n : Nat),
    coordinator_inv table_name w n → batches_ready w →
    ∃ n', coordinator_inv table_name (w.put_all l) n' ∧ batches_ready (w.put_all l)
  | [], _, n, h, hr => ⟨n, h, hr⟩
  | kv :: l, w, n, h, hr =>
    batches_ready_put_all table_name l (w.put kv.1 kv.2).2 _ (inv_put table_name w n kv.1 kv.2 h)
      (batches_ready_put table_name w n h hr kv.1 kv.2)

theorem batches_ready_ctor (table_name : Str) : batches_ready (db_writer.ctor table_name) :=
  ⟨fun t ht => by simp [db_writer.spawned, db_writer.ctor, all_tasks_list] at ht,
    fun kv hkv => by simp [db_writer.ctor] at hkv⟩

theorem batches_hold_flush_block (P : kv_pair_t → Prop) (w : db_writer)
    (h : batches_hold P w) : batches_hold P w.flush_block := by
  constructor
  · intro t ht hp
    rcases spawned_flush_block_mem w t ht with h1 | h1 | h1 | h1
    · exact h.1 t h1 hp
    · rw [h1]
      exact h.2
    · exact absurd (hp.symm.trans h1) part_ne_part2
    · exact absurd (hp.symm.trans h1) part_ne_part3
  · intro kv hkv
    have : w.flush_block.m_strings = [] := by
      rw [flush_block_eq]
      split_ifs <;> rfl
    rw [this] at hkv
    exact absurd hkv (List.not_mem_nil _)

theorem batches_hold_put (P : kv_pair_t → Prop) (w : db_writer) (h : batches_hold P w)
    (k v : Str) (hkv : P (k, v)) : batches_hold P (w.put k v).2 := by
  by_cases hk : k.length > uint16_max
  · rw [(put_rejected w k v (Or.inl hk)).1]
    exact h
  · by_cases hv : v.length > uint16_max
    · rw [(put_rejected w k v (Or.inr hv)).1]
      exact h
    · obtain ⟨-, h2⟩ := put_accepted w k v hk hv
      rw [h2]
      have hpush : ∀ w2 : db_writer, batches_hold P w2 →
          batches_hold P
            { w2 with
              m_strings := w2.m_strings ++ [(k, v)],
              m_bytes_this_block := w2.m_bytes_this_block + (k.length + v.length + 4) } := by
        intro w2 hw2
        refine ⟨hw2.1, ?_⟩
        intro x hx
        rcases List.mem_append.mp hx with h3 | h3
        · exact hw2.2 x h3
        · rw [List.mem_singleton] at h3
          rw [h3]
          exact hkv
      by_cases hf : w.put_flushes k v = true
      · simp only [hf, if_true]
        exact hpush _ (batches_hold_flush_block P w h)
      · simp only [hf, Bool.false_eq_true, if_false]
        exact hpush _ h

theorem batches_hold_put_all (P : kv_pair_t → Prop) : ∀ (l : List kv_pair_t) (w : db_writer),
    batches_hold P w → (∀ kv ∈ l, P kv) → batches_hold P (w.put_all l)
  | [], _, h, _ => h
  | kv :: l, w, h, hl =>
    batches_hold_put_all P l (w.put kv.1 kv.2).2
      (batches_hold_put P w h kv.1 kv.2 (hl kv (List.mem_cons_self _ _)))
      (fun x hx => hl x (List.mem_cons_of_mem _ hx))

theorem batches_hold_ctor (P : kv_pair_t → Prop) (table_name : Str) :
    batches_hold P (db_writer.ctor table_name) :=
  ⟨fun t ht => by simp [db_writer.spawned, db_writer.ctor, all_tasks_list] at ht,
    fun kv hkv => by simp [db_writer.ctor] at hkv⟩

/-- The final task that `combine_blocks` constructs. -/
theorem combine_blocks_task (w : db_writer) :
    w.combine_blocks.2 = thread_control_block.ctor w.m_subdir (bytes "final") 0 w.m_strings
      (w.m_blocks ++ w.m_blocks2 ++ w.m_blocks3) := by
  obtain ⟨sub, c, bts, strs, L1, L2, L3⟩ := w
  cases L2 <;> cases L3 <;> simp [db_writer.combine_blocks]

/-- The final task of `finish` after calls of `put` on a fresh coordinator: it has no
batch, and its predecessors are the tasks in the three lists of the coordinator after the
`flush_block` of `finish`, if there is one. -/
theorem finish_task (table_name : Str) (l : List kv_pair_t) :
    ∃ w n, coordinator_inv table_name w n ∧ batches_ready w ∧
      w = (if ((db_writer.ctor table_name).put_all l).m_strings.length > 0 then
        ((db_writer.ctor table_name).put_all l).flush_block
        else (db_writer.ctor table_name).put_all l) ∧
      ((db_writer.ctor table_name).put_all l).finish.2 =
        thread_control_block.ctor table_name (bytes "final") 0 []
          (w.m_blocks ++ w.m_blocks2 ++ w.m_blocks3) := by
  obtain ⟨n, h, hr⟩ := batches_ready_put_all table_name l _ 0 (inv_ctor table_name)
    (batches_ready_ctor table_name)
  unfold db_writer.finish
  by_cases hs : ((db_writer.ctor table_name).put_all l).m_strings.length > 0
  · rw [if_pos hs]
    have h' := inv_flush_block table_name _ n h
    have hr' := batches_ready_flush_block _ hr (List.length_pos.mp hs)
    refine ⟨_, _, h', hr', rfl, ?_⟩
    rw [combine_blocks_task, h'.subdir]
    have : ((db_writer.ctor table_name).put_all l).flush_block.m_strings = [] := by
      rw [flush_block_eq]
      split_ifs <;> rfl
    rw [this]
  · rw [if_neg hs]
    refine ⟨_, _, h, hr, rfl, ?_⟩
    rw [combine_blocks_task, h.subdir]
    have : ((db_writer.ctor table_name).put_all l).m_strings = [] :=
      List.length_eq_zero.mp (by omega)
    rw [this]

/-- The batches after calls of `put` with pairs without an empty key or value, and after
the `flush_block` of `finish`, hold no pair with an empty key or value. -/
theorem finish_batches_hold (P : kv_pair_t → Prop) (table_name : Str) (l : List kv_pair_t)
    (hl : ∀ kv ∈ l, P kv) :
    batches_hold P (if ((db_writer.ctor table_name).put_all l).m_strings.length > 0 then
        ((db_writer.ctor table_name).put_all l).flush_block
        else (db_writer.ctor table_name).put_all l) := by
  have h := batches_hold_put_all P l _ (batches_hold_ctor P table_name) hl
  split
  · exact batches_hold_flush_block P _ h
  · exact h

/-- The final task and the spawned tasks are ready to run when the final task has a
predecessor. -/
theorem final_tasks_ready (table_name : Str) (w : db_writer) (n : Nat)
    (h : coordinator_inv table_name w n) (hr : batches_ready w)
    (hf : batches_hold (fun kv => kv.1 ≠ [] ∧ kv.2 ≠ []) w)
    (hw : w.m_blocks ++ w.m_blocks2 ++ w.m_blocks3 ≠ []) :
    tasks_ready (all_tasks (thread_control_block.ctor table_name (bytes "final") 0 []
      (w.m_blocks ++ w.m_blocks2 ++ w.m_blocks3))) := by
  have hall : all_tasks (thread_control_block.ctor table_name (bytes "final") 0 []
      (w.m_blocks ++ w.m_blocks2 ++ w.m_blocks3)) =
      thread_control_block.ctor table_name (bytes "final") 0 []
        (w.m_blocks ++ w.m_blocks2 ++ w.m_blocks3) :: w.spawned := all_tasks_eq _
  rw [hall]
  have hpfx : ∀ t ∈ w.spawned,
      t.m_pfx = bytes "part" ∨ t.m_pfx = bytes "part2" ∨ t.m_pfx = bytes "part3" := by
    intro t ht
    rcases (h.shape t ht).2.2.2 with h1 | h1 | h1
    · exact Or.inl h1.1
    · exact Or.inr (Or.inl h1.1)
    · exact Or.inr (Or.inr h1.1)
  constructor
  · intro u hu
    rcases List.mem_cons.mp hu with rfl | hu
    · exact ⟨rfl, fun hwaits => absurd hwaits hw⟩
    · obtain ⟨-, herr, -, h1 | h1 | h1⟩ := h.shape u hu
      · exact ⟨herr, fun _ => ⟨(hr.1 u hu h1.1).1,
          fun kv hkv => ⟨(hr.1 u hu h1.1).2 kv hkv, hf.1 u hu h1.1 kv hkv⟩⟩⟩
      · refine ⟨herr, fun hwaits => ?_⟩
        have := congrArg List.length h1.2.2.2
        rw [hwaits] at this
        simp at this
      · refine ⟨herr, fun hwaits => ?_⟩
        have := congrArg List.length h1.2.2.2
        rw [hwaits] at this
        simp at this
  · rw [List.map_cons, List.nodup_cons]
    refine ⟨?_, spawned_names_nodup table_name w n h⟩
    intro hmem
    obtain ⟨u, hu, hname⟩ := List.mem_map.mp hmem
    unfold thread_control_block.file_name at hname
    rw [(h.shape u hu).1] at hname
    exact final_name_ne table_name _ _ 0 (hpfx u hu) hname.symm

/-! ## The predecessors of the tasks of a coordinator -/

theorem mem_all_tasks_list {u : thread_control_block} :
    ∀ {ws : List thread_control_block}, u ∈ all_tasks_list ws → ∃ w ∈ ws, u ∈ all_tasks w
  | [], h => by simp [all_tasks_list] at h
  | w :: ws, h => by
    rw [all_tasks_list_cons] at h
    rcases List.mem_append.mp h with h | h
    · exact ⟨w, List.mem_cons_self _ _, h⟩
    · obtain ⟨x, hx, hu⟩ := mem_all_tasks_list h
      exact ⟨x, List.mem_cons_of_mem _ hx, hu⟩

/-- The tasks below a task hold the predecessors of each of them. -/
theorem all_tasks_waits_mem : ∀ (n : Nat) (t : thread_control_block), (all_tasks t).length ≤ n →
    ∀ u ∈ all_tasks t, ∀ p ∈ u.m_waits, p ∈ all_tasks t := by
  intro n
  induction n with
  | zero =>
    intro t hlen
    rw [all_tasks_eq] at hlen
    simp at hlen
  | succ n ih =>
    intro t hlen u hu p hp
    rw [all_tasks_eq] at hlen hu ⊢
    rcases List.mem_cons.mp hu with rfl | hu
    · exact List.mem_cons_of_mem _
        ((all_tasks_sublist_of_mem hp).subset (all_tasks_self_mem p))
    · obtain ⟨w, hw, huw⟩ := mem_all_tasks_list hu
      have hle : (all_tasks w).length ≤ n := by
        have := (all_tasks_sublist_of_mem hw).length_le
        simp only [List.length_cons] at hlen
        omega
      exact List.mem_cons_of_mem _
        ((all_tasks_sublist_of_mem hw).subset (ih w hle u huw p hp))

theorem all_tasks_list_waits_mem {ws : List thread_control_block} {u p : thread_control_block}
    (hu : u ∈ all_tasks_list ws) (hp : p ∈ u.m_waits) : p ∈ all_tasks_list ws := by
  obtain ⟨w, hw, huw⟩ := mem_all_tasks_list hu
  exact (all_tasks_sublist_of_mem hw).subset (all_tasks_waits_mem _ w (le_refl _) u huw p hp)

/-- No task of a coordinator writes to the file of one of its predecessors: the spawned
tasks in every state that a fresh coordinator reaches by `put` and `flush_block`, and the
final task of `finish`. -/
theorem merge_tasks_write_other_files (table_name : Str) :
    (∀ (cs : List coordinator_call), ∀ t ∈ ((db_writer.ctor table_name).calls cs).spawned,
      ∀ p ∈ t.m_waits, p.file_name ≠ t.file_name) ∧
    (∀ (l : List kv_pair_t), ∀ p ∈ ((db_writer.ctor table_name).put_all l).finish.2.m_waits,
      p.file_name ≠ ((db_writer.ctor table_name).put_all l).finish.2.file_name) := by
  have hpfx : ∀ (w : db_writer) (n : Nat), coordinator_inv table_name w n → ∀ t ∈ w.spawned,
      t.m_pfx = bytes "part" ∨ t.m_pfx = bytes "part2" ∨ t.m_pfx = bytes "part3" := by
    intro w n h t ht
    rcases (h.shape t ht).2.2.2 with h1 | h1 | h1
    · exact Or.inl h1.1
    · exact Or.inr (Or.inl h1.1)
    · exact Or.inr (Or.inr h1.1)
  constructor
  · intro cs t ht p hp hname
    have h := inv_reachable table_name cs
    have hps : p ∈ ((db_writer.ctor table_name).calls cs).spawned :=
      all_tasks_list_waits_mem ht hp
    unfold thread_control_block.file_name at hname
    rw [(h.shape t ht).1, (h.shape p hps).1] at hname
    obtain ⟨h1, -⟩ := format_file_name_injective table_name _ _ _ _ (hpfx _ _ h p hps)
      (hpfx _ _ h t ht) hname
    have hkey : p.stage_key ∈ t.m_waits.map thread_control_block.stage_key :=
      List.mem_map_of_mem _ hp
    rcases (h.shape t ht).2.2.2 with h2 | h2 | h2
    · rw [h2.2.1] at hp
      exact absurd hp (List.not_mem_nil _)
    · rw [h2.2.2.2] at hkey
      obtain ⟨b, -, hb⟩ := List.mem_map.mp hkey
      have : bytes "part" = p.m_pfx := congrArg Prod.fst hb
      exact part_ne_part2 (this.trans (h1.trans h2.1))
    · rw [h2.2.2.2] at hkey
      obtain ⟨b, -, hb⟩ := List.mem_map.mp hkey
      have : bytes "part2" = p.m_pfx := congrArg Prod.fst hb
      exact part2_ne_part3 (this.trans (h1.trans h2.1))
  · intro l p hp hname
    obtain ⟨w, n, h, -, -, hT⟩ := finish_task table_name l
    rw [hT] at hp hname
    have hps : p ∈ w.spawned :=
      (all_tasks_sublist_of_mem hp).subset (all_tasks_self_mem p)
    unfold thread_control_block.file_name at hname
    rw [(h.shape p hps).1] at hname
    exact final_name_ne table_name _ _ 0 (hpfx _ _ h p hps) hname.symm

/-! ## A coordinator with two stage-1 tasks -/

/-- The bytes that a batch accounts for when every pair accounts for `c`. -/
theorem batch_bytes_const (c : Nat) : ∀ l : List kv_pair_t,
    (∀ kv ∈ l, kv.1.length + kv.2.length + 4 = c) → batch_bytes l = l.length * c
  | [], _ => by simp [batch_bytes]
  | kv :: l, h => by
    have ih := batch_bytes_const c l (fun x hx => h x (List.mem_cons_of_mem _ hx))
    have h1 := h kv (List.mem_cons_self _ _)
    unfold batch_bytes at ih ⊢
    simp only [List.map_cons, List.sum_cons, List.length_cons, ih, h1]
    ring

theorem ex_full_batch_lengths : ∀ kv ∈ ex_full_batch, kv.1.length = 2 ∧ kv.2.length = 65530 := by
  intro kv hkv
  unfold ex_full_batch at hkv
  obtain ⟨i, -, rfl⟩ := List.mem_map.mp hkv
  exact ⟨rfl, List.length_replicate _ _⟩

theorem ex_full_batch_length : ex_full_batch.length = 1024 := by
  unfold ex_full_batch
  rw [List.length_map, List.length_range]

theorem ex_full_batch_bytes : batch_bytes ex_full_batch = MAX_MERGESORT_BLOCK_SIZE := by
  rw [batch_bytes_const 65536 ex_full_batch, ex_full_batch_length]
  · rfl
  · intro kv hkv
    obtain ⟨h1, h2⟩ := ex_full_batch_lengths kv hkv
    omega

/-- Calls of `put` that stay within the byte limit only append to the batch. -/
theorem put_all_fill : ∀ (l : List kv_pair_t) (w : db_writer),
    (∀ kv ∈ l, kv.1.length ≤ uint16_max ∧ kv.2.length ≤ uint16_max) →
    w.m_bytes_this_block + batch_bytes l ≤ MAX_MERGESORT_BLOCK_SIZE →
    w.put_all l =
      { w with
        m_strings := w.m_strings ++ l,
        m_bytes_this_block := w.m_bytes_this_block + batch_bytes l }
  | [], w, _, _ => by simp [db_writer.put_all, batch_bytes]
  | kv :: l, w, hl, hb => by
    obtain ⟨hk, hv⟩ := hl kv (List.mem_cons_self _ _)
    have hbb : batch_bytes (kv :: l) = (kv.1.length + kv.2.length + 4) + batch_bytes l := by
      simp [batch_bytes]
    rw [hbb] at hb
    obtain ⟨h1, h2⟩ := put_accepted w kv.1 kv.2 (by omega) (by omega)
    have hf : w.put_flushes kv.1 kv.2 = false := by
      rw [h1]
      exact decide_eq_false (by omega)
    rw [hf] at h2
    simp only [Bool.false_eq_true, if_false] at h2
    have hstep : w.put_all (kv :: l) = (w.put kv.1 kv.2).2.put_all l := rfl
    rw [hstep, h2]
    rw [put_all_fill l _ (fun x hx => hl x (List.mem_cons_of_mem _ hx)) (by simp only; omega)]
    simp only [hbb, List.append_assoc, List.singleton_append, Nat.add_assoc]

theorem put_all_append (w : db_writer) (l1 l2 : List kv_pair_t) :
    w.put_all (l1 ++ l2) = (w.put_all l1).put_all l2 := by
  simp [db_writer.put_all, List.foldl_append]

/-- The final task after a batch that uses the byte limit up and two more pairs: it
waits for two stage-1 tasks, the first with the full batch and the second with the two
pairs. -/
theorem finish_two_batches (table_name : Str) (big : List kv_pair_t) (k1 v1 k2 v2 : Str)
    (hbig : ∀ kv ∈ big, kv.1.length ≤ uint16_max ∧ kv.2.length ≤ uint16_max)
    (hb : batch_bytes big ≤ MAX_MERGESORT_BLOCK_SIZE)
    (hover : batch_bytes big + (k1.length + v1.length + 4) > MAX_MERGESORT_BLOCK_SIZE)
    (hk1 : k1.length ≤ uint16_max) (hv1 : v1.length ≤ uint16_max)
    (hk2 : k2.length ≤ uint16_max) (hv2 : v2.length ≤ uint16_max) :
    ((db_writer.ctor table_name).put_all (big ++ [(k1, v1), (k2, v2)])).finish.2 =
      thread_control_block.ctor table_name (bytes "final") 0 []
        [thread_control_block.ctor table_name (bytes "part") 0 big [],
         thread_control_block.ctor table_name (bytes "part") 1 [(k1, v1), (k2, v2)] []] := by
  rw [put_all_append, put_all_fill big _ hbig (by simpa [db_writer.ctor] using hb)]
  have hstep : ∀ w : db_writer, w.put_all [(k1, v1), (k2, v2)] =
      ((w.put k1 v1).2.put k2 v2).2 := fun _ => rfl
  rw [hstep]
  have hk1n : ¬ k1.length > uint16_max := by omega
  have hv1n : ¬ v1.length > uint16_max := by omega
  have hk2n : ¬ k2.length > uint16_max := by omega
  have hv2n : ¬ v2.length > uint16_max := by omega
  have hsmall : ¬ (k1.length + v1.length + 2 * 2 + (k2.length + v2.length + 2 * 2) >
      MAX_MERGESORT_BLOCK_SIZE) := by
    have hu : uint16_max = 65535 := rfl
    have hm : MAX_MERGESORT_BLOCK_SIZE = 67108864 := rfl
    omega
  have hover2 : batch_bytes big + (k1.length + v1.length + 2 * 2) > MAX_MERGESORT_BLOCK_SIZE :=
    hover
  simp only [db_writer.put, db_writer.ctor, hk1n, hv1n, hk2n, hv2n, if_false, List.nil_append,
    zero_add, hover2, if_true, flush_block_eq, List.length_nil, ge_iff_le, Nat.reduceLeDiff,
    hsmall, db_writer.finish, db_writer.combine_blocks, List.length_append, List.length_cons,
    List.singleton_append, List.cons_append, gt_iff_lt, Nat.lt_irrefl, Nat.reduceAdd,
    Nat.zero_lt_succ, Nat.reduceLT]

/-- The first round of the merge loop has the vector of readers as it was filled. -/
theorem merge_loop_trace_head (be : Bool) (fuel : Nat) (r0 : block_reader)
    (rest : List block_reader) :
    (r0 :: rest) ∈ merge_loop_trace be (fuel + 1) (r0 :: rest) := by
  unfold merge_loop_trace
  simp only
  split
  · exact List.mem_singleton.mpr rfl
  · split <;> exact List.mem_cons_self _ _

/-- The run of a final task that waits for two stage-1 tasks: the two batches are sorted
and written, then `run_merge` runs once, on a filesystem that holds the two files, and
the first round of its loop has the readers on the two files as their constructors left
them. -/
theorem run_all_two_batches (std_sort : sort_function) (be : Bool) (table_name : Str)
    (l0 l1 : List kv_pair_t) (fs : FileSystem) :
    ∃ fs' t' fs2 r0,
      run_all std_sort be
        (thread_control_block.ctor table_name (bytes "final") 0 []
          [thread_control_block.ctor table_name (bytes "part") 0 l0 [],
           thread_control_block.ctor table_name (bytes "part") 1 l1 []]) fs =
        some (fs', t',
          [(fs2, thread_control_block.ctor table_name (bytes "final") 0 []
            [thread_control_block.ctor table_name (bytes "part") 0 [] [],
             thread_control_block.ctor table_name (bytes "part") 1 [] []])]) ∧
      fs_read fs2 (format_file_name table_name (bytes "part") 0) =
        some (encode be (std_sort compare_first l0)) ∧
      fs_read fs2 (format_file_name table_name (bytes "part") 1) =
        some (encode be (std_sort compare_first l1)) ∧
      [r0, block_reader.next be
        { m_file_name := format_file_name table_name (bytes "part") 1, m_end := false,
          m_stream := encode be (std_sort compare_first l1), m_current := ([], []) }] ∈
        run_merge_rounds be fs2
          (thread_control_block.ctor table_name (bytes "final") 0 []
            [thread_control_block.ctor table_name (bytes "part") 0 [] [],
             thread_control_block.ctor table_name (bytes "part") 1 [] []]) := by
  have hne : format_file_name table_name (bytes "part") 0 ≠
      format_file_name table_name (bytes "part") 1 := by
    intro h
    have := (format_file_name_injective table_name _ _ 0 1 (Or.inl rfl) (Or.inl rfl) h).2
    omega
  have hA := run_leaf std_sort be fs
    (thread_control_block.ctor table_name (bytes "part") 0 l0 []) rfl
  have hB := run_leaf std_sort be
    (run_write std_sort be fs (thread_control_block.ctor table_name (bytes "part") 0 l0 [])).fs
    (thread_control_block.ctor table_name (bytes "part") 1 l1 []) rfl
  have hf1 : fs_read (run_write std_sort be
      (run_write std_sort be fs (thread_control_block.ctor table_name (bytes "part") 0 l0 [])).fs
      (thread_control_block.ctor table_name (bytes "part") 1 l1 [])).fs
      (format_file_name table_name (bytes "part") 1) =
      some (encode be (std_sort compare_first l1)) :=
    run_write_file std_sort be _ (thread_control_block.ctor table_name (bytes "part") 1 l1 [])
  have hf0 : fs_read (run_write std_sort be
      (run_write std_sort be fs (thread_control_block.ctor table_name (bytes "part") 0 l0 [])).fs
      (thread_control_block.ctor table_name (bytes "part") 1 l1 [])).fs
      (format_file_name table_name (bytes "part") 0) =
      some (encode be (std_sort compare_first l0)) := by
    rw [run_write_other std_sort be _ (thread_control_block.ctor table_name (bytes "part") 1 l1 [])
      _ hne]
    exact run_write_file std_sort be fs (thread_control_block.ctor table_name (bytes "part") 0 l0 [])
  obtain ⟨o, ho, -⟩ := run_merge_frame be
    (run_write std_sort be
      (run_write std_sort be fs (thread_control_block.ctor table_name (bytes "part") 0 l0 [])).fs
      (thread_control_block.ctor table_name (bytes "part") 1 l1 [])).fs
    (thread_control_block.ctor table_name (bytes "final") 0 []
      [thread_control_block.ctor table_name (bytes "part") 0 [] [],
       thread_control_block.ctor table_name (bytes "part") 1 [] []])
    (by
      intro p hp
      have hp2 : p = thread_control_block.ctor table_name (bytes "part") 0 [] [] ∨
          p = thread_control_block.ctor table_name (bytes "part") 1 [] [] := by
        simpa [thread_control_block.ctor, thread_control_block.m_waits] using hp
      rcases hp2 with rfl | rfl
      · exact (final_name_ne table_name (bytes "part") 0 0 (Or.inl rfl)).symm
      · exact (final_name_ne table_name (bytes "part") 1 0 (Or.inl rfl)).symm)
  have hrun : ∃ fs' t', run std_sort be
      (run_write std_sort be
        (run_write std_sort be fs (thread_control_block.ctor table_name (bytes "part") 0 l0 [])).fs
        (thread_control_block.ctor table_name (bytes "part") 1 l1 [])).fs
      (thread_control_block.ctor table_name (bytes "final") 0 []
        [thread_control_block.ctor table_name (bytes "part") 0 [] [],
         thread_control_block.ctor table_name (bytes "part") 1 [] []]) = some (fs', t') := by
    unfold run
    rw [if_pos (by simp [thread_control_block.ctor, thread_control_block.m_waits]), ho]
    simp only
    cases o.thrown with
    | none => exact ⟨_, _, rfl⟩
    | some e => exact ⟨_, _, rfl⟩
  obtain ⟨fs', t', hrun⟩ := hrun
  refine ⟨fs', t', _, block_reader.next be
    { m_file_name := format_file_name table_name (bytes "part") 0, m_end := false,
      m_stream := encode be (std_sort compare_first l0), m_current := ([], []) },
    ?_, hf0, hf1, ?_⟩
  · simp only [thread_control_block.ctor, thread_control_block.set_strings,
      thread_control_block.m_subdir, thread_control_block.m_pfx,
      thread_control_block.m_block_number, thread_control_block.m_waits,
      thread_control_block.m_error] at hA hB hrun ⊢
    simp only [run_all, run_all_list, List.length_nil, gt_iff_lt, lt_self_iff_false, if_false,
      hA, hB, hrun, List.append_nil, List.nil_append, List.length_cons, Nat.zero_lt_succ,
      if_true]
  · unfold run_merge_rounds
    simp only [thread_control_block.ctor, thread_control_block.m_waits, open_readers,
      thread_control_block.m_error, thread_control_block.m_subdir, thread_control_block.m_pfx,
      thread_control_block.m_block_number, block_reader.ctor]
    simp only [thread_control_block.ctor] at hf0 hf1
    rw [hf0, hf1]
    simp only [merge_rounds]
    exact merge_loop_trace_head be _ _ _

/-! ## Claim about the batches of the stage-1 tasks -/

/-- The batches of the stage-1 tasks are not empty, and with pairs that have no empty key
and no empty value every call of `run_merge` is safe.  Take a fresh coordinator, any
calls of `put` and then `finish`, and let `std::sort` leave a vector of the same size
that holds no new pair.  When a `put` gets to `flush_block`, the byte count is positive
and the batch holds a pair, and `finish` calls `flush_block` only for a batch that holds
a pair: every stage-1 task below the final task has a batch that is not empty.  When no
pair has an empty key or an empty value, the threads of the final task and of all tasks
below it run to their ends, the final task ends without an exception, and every call of
`run_merge` that is made is safe: the file of each predecessor holds at least one whole
record, and in no round of the merge loop `value()` is called on a reader that is at its
end. -/
theorem stage1_merges_safe_nonempty_fields (std_sort : sort_function) (be : Bool)
    (table_name : Str) (l : List kv_pair_t) (fs : FileSystem)
    (hsort : ∀ xs, (std_sort compare_first xs).length = xs.length ∧
      ∀ kv ∈ std_sort compare_first xs, kv ∈ xs) :
    (∀ k v, ((db_writer.ctor table_name).put_all l).put_flushes k v = true →
      0 < ((db_writer.ctor table_name).put_all l).m_bytes_this_block ∧
      ((db_writer.ctor table_name).put_all l).m_strings ≠ []) ∧
    (((db_writer.ctor table_name).put_all l).finish =
      (if ((db_writer.ctor table_name).put_all l).m_strings.length > 0 then
        ((db_writer.ctor table_name).put_all l).flush_block
       else (db_writer.ctor table_name).put_all l).combine_blocks) ∧
    (∀ t ∈ all_tasks ((db_writer.ctor table_name).put_all l).finish.2,
      t.m_pfx = bytes "part" → t.m_strings ≠ []) ∧
    ((∀ kv ∈ l, kv.1 ≠ [] ∧ kv.2 ≠ []) →
      ∃ fs' t' merges,
        run_all std_sort be ((db_writer.ctor table_name).put_all l).finish.2 fs =
          some (fs', t', merges) ∧
        t'.m_error = none ∧ ∀ m ∈ merges, merge_call_safe be m) := by
  obtain ⟨n0, h0, -⟩ := batches_ready_put_all table_name l _ 0 (inv_ctor table_name)
    (batches_ready_ctor table_name)
  obtain ⟨w, n, h, hr, hweq, hT⟩ := finish_task table_name l
  have hall : all_tasks (thread_control_block.ctor table_name (bytes "final") 0 []
      (w.m_blocks ++ w.m_blocks2 ++ w.m_blocks3)) =
      thread_control_block.ctor table_name (bytes "final") 0 []
        (w.m_blocks ++ w.m_blocks2 ++ w.m_blocks3) :: w.spawned := all_tasks_eq _
  refine ⟨fun k v hf => put_flushes_nonempty table_name _ n0 h0 k v hf, rfl, ?_, ?_⟩
  · intro t ht hp
    rw [hT, hall] at ht
    rcases List.mem_cons.mp ht with rfl | ht
    · have hfp : bytes "final" = bytes "part" := hp
      exact absurd hfp (by decide)
    · exact (hr.1 t ht hp).1
  · intro hne
    have hf : batches_hold (fun kv => kv.1 ≠ [] ∧ kv.2 ≠ []) w := by
      rw [hweq]
      exact finish_batches_hold _ table_name l hne
    rw [hT]
    by_cases hw : w.m_blocks ++ w.m_blocks2 ++ w.m_blocks3 = []
    · rw [hw]
      have hleaf := run_leaf std_sort be fs
        (thread_control_block.ctor table_name (bytes "final") 0 [] []) rfl
      refine ⟨(run_write std_sort be fs
          (thread_control_block.ctor table_name (bytes "final") 0 [] [])).fs,
        (thread_control_block.ctor table_name (bytes "final") 0 [] []).set_strings [], [], ?_, rfl,
        fun _ hm => absurd hm (List.not_mem_nil _)⟩
      simp only [thread_control_block.ctor] at hleaf ⊢
      simp only [run_all, run_all_list, List.length_nil, gt_iff_lt, lt_self_iff_false, if_false,
        hleaf]
    · obtain ⟨fs', t', merges, L, h1, h2, -, -, -, -, -, h8⟩ :=
        run_all_ready std_sort be hsort _ _ (le_refl _)
          (final_tasks_ready table_name w n h hr hf hw) fs
      exact ⟨fs', t', merges, h1, h2, h8⟩

set_option maxRecDepth 100000 in
/-- The rounds of the merge loop show a reader that is at its end when a predecessor
file holds no record, the case that the coordinator never produces: in the first round
the reader on the empty file is in the vector. -/
theorem run_merge_rounds_empty_file :
    (run_merge_rounds false ex_fs_empty ex_merge).map (fun rs => rs.map block_reader.at_end) =
      [[true, false], [false]] ∧
    (run_merge_rounds false ex_fs_sorted ex_merge).map (fun rs => rs.map block_reader.at_end) =
      [[false, false], [false, false], [false]] := by
  decide

set_option maxRecDepth 100000 in
/-- Claim C20 fails on the code.  Take a fresh coordinator of the table `t`, the calls of
`put` for the 1024 pairs of `ex_full_batch`, which use the byte limit up, then
`put("a", "")`, `put("c", "y")` and `finish`, and an insertion sort for `std::sort`.  No
`put` throws.  The final task waits for two stage-1 tasks, and the batch of each is not
empty: this part of the claim holds.  The threads run to their ends with one call of
`run_merge`, the one of the final task.  The file of the second stage-1 task, which this
call reads, holds two whole records.  The reader that the call constructs on this file
is at its end after the constructor, because the read of the value of zero bytes
returned `-1`, and the first round of the merge loop, which calls `value()` on every
reader of the vector, has this reader in the vector: the call is not safe. -/
theorem stage1_reader_at_end_in_merge :
    (∀ kv ∈ ex_full_batch ++ [(bytes "a", []), (bytes "c", bytes "y")],
      kv.1.length ≤ uint16_max ∧ kv.2.length ≤ uint16_max) ∧
    ((db_writer.ctor (bytes "t")).put_all
        (ex_full_batch ++ [(bytes "a", []), (bytes "c", bytes "y")])).finish.2 =
      thread_control_block.ctor (bytes "t") (bytes "final") 0 []
        [thread_control_block.ctor (bytes "t") (bytes "part") 0 ex_full_batch [],
         thread_control_block.ctor (bytes "t") (bytes "part") 1
           [(bytes "a", []), (bytes "c", bytes "y")] []] ∧
    (∀ u ∈ all_tasks ((db_writer.ctor (bytes "t")).put_all
        (ex_full_batch ++ [(bytes "a", []), (bytes "c", bytes "y")])).finish.2,
      u.m_pfx = bytes "part" → u.m_strings ≠ []) ∧
    ∃ fs' t' m,
      run_all ex_insertion_sort false ((db_writer.ctor (bytes "t")).put_all
        (ex_full_batch ++ [(bytes "a", []), (bytes "c", bytes "y")])).finish.2 [] =
        some (fs', t', [m]) ∧
      m.2.m_waits.map thread_control_block.file_name =
        [format_file_name (bytes "t") (bytes "part") 0,
         format_file_name (bytes "t") (bytes "part") 1] ∧
      (∃ c, fs_read m.1 (format_file_name (bytes "t") (bytes "part") 1) = some c ∧
        decode false c = [(bytes "a", []), (bytes "c", bytes "y")]) ∧
      (∃ rs ∈ run_merge_rounds false m.1 m.2, ∃ r ∈ rs,
        r.file_name = format_file_name (bytes "t") (bytes "part") 1 ∧ r.at_end = true) ∧
      ¬ merge_call_safe false m := by
  have hfit : ∀ kv ∈ ex_full_batch, kv.1.length ≤ uint16_max ∧ kv.2.length ≤ uint16_max := by
    intro kv hkv
    obtain ⟨h1, h2⟩ := ex_full_batch_lengths kv hkv
    rw [h1, h2]
    exact ⟨by decide, by decide⟩
  have hT := finish_two_batches (bytes "t") ex_full_batch (bytes "a") [] (bytes "c") (bytes "y")
    hfit (le_of_eq ex_full_batch_bytes)
    (by
      rw [ex_full_batch_bytes]
      decide)
    (by decide) (by decide) (by decide) (by decide)
  have hsort : ex_insertion_sort compare_first [(bytes "a", []), (bytes "c", bytes "y")] =
      [(bytes "a", []), (bytes "c", bytes "y")] := by decide
  obtain ⟨fs', t', fs2, r0, hrun, -, hfile, hround⟩ := run_all_two_batches ex_insertion_sort false
    (bytes "t") ex_full_batch [(bytes "a", []), (bytes "c", bytes "y")] []
  rw [hsort] at hfile hround
  have hbad : ∃ rs ∈ run_merge_rounds false fs2
      (thread_control_block.ctor (bytes "t") (bytes "final") 0 []
        [thread_control_block.ctor (bytes "t") (bytes "part") 0 [] [],
         thread_control_block.ctor (bytes "t") (bytes "part") 1 [] []]), ∃ r ∈ rs,
      r.file_name = format_file_name (bytes "t") (bytes "part") 1 ∧ r.at_end = true :=
    ⟨_, hround, _, List.mem_cons_of_mem _ (List.mem_singleton.mpr rfl), by decide, by decide⟩
  refine ⟨?_, hT, ?_, ?_⟩
  · intro kv hkv
    rcases List.mem_append.mp hkv with h | h
    · exact hfit kv h
    · have h2 : kv = (bytes "a", []) ∨ kv = (bytes "c", bytes "y") := by simpa using h
      rcases h2 with rfl | rfl <;> exact ⟨by decide, by decide⟩
  · intro u hu hp
    rw [hT, all_tasks_eq] at hu
    have hne : ex_full_batch ≠ [] := by
      intro h0
      have := ex_full_batch_length
      rw [h0] at this
      exact absurd this (by decide)
    have hu2 : u = thread_control_block.ctor (bytes "t") (bytes "final") 0 []
          [thread_control_block.ctor (bytes "t") (bytes "part") 0 ex_full_batch [],
           thread_control_block.ctor (bytes "t") (bytes "part") 1
             [(bytes "a", []), (bytes "c", bytes "y")] []] ∨
        u = thread_control_block.ctor (bytes "t") (bytes "part") 0 ex_full_batch [] ∨
        u = thread_control_block.ctor (bytes "t") (bytes "part") 1
             [(bytes "a", []), (bytes "c", bytes "y")] [] := by
      simpa [thread_control_block.ctor, thread_control_block.m_waits, all_tasks_list,
        all_tasks] using hu
    rcases hu2 with rfl | rfl | rfl
    · exact absurd hp (by decide)
    · exact hne
    · exact List.cons_ne_nil _ _
  · rw [hT]
    refine ⟨fs', t', _, hrun, rfl, ⟨_, hfile, by decide⟩, hbad, ?_⟩
    intro hsafe
    obtain ⟨rs, hrs, r, hr, -, hend⟩ := hbad
    have := hsafe.2 rs hrs r hr
    rw [hend] at this
    exact absurd this (by decide)

/-! ## The column list of `init` -/

/-- The grammar never succeeds with an empty column list. -/
theorem copy_line_columns (table_name line : Str) : copy_line table_name line ≠ some (some []) := by
  intro h
  rcases copy_line_total table_name line with h1 | ⟨name, names, h1⟩
  · rw [h1] at h
    cases h
  · rw [h1] at h
    cases h

/-- A column list that the loop of `init` returns is not empty, whatever the state of the
filter. -/
theorem init_loop_ok_columns : ∀ (fuel : Nat) (f f' : filter_copy_contents) (cols : List Str),
    filter_copy_contents.init_loop fuel f = some (Except.ok cols, f') → cols ≠ []
  | 0, f, f', cols, h => by
    rw [filter_copy_contents.init_loop] at h
    cases h
  | fuel + 1, f, f', cols, h => by
    rw [filter_copy_contents.init_loop] at h
    cases hr : f.m_source.read with
    | none => rw [hr] at h; cases h
    | some res =>
      obtain ⟨got_data, line, source⟩ := res
      rw [hr] at h
      simp only at h
      by_cases hg : got_data = 0
      · rw [if_pos hg] at h
        cases h
      · rw [if_neg hg] at h
        by_cases hp : line.take m_start_pfx.length = m_start_pfx
        · rw [if_pos hp] at h
          rcases copy_line_total f.m_table_name line with hc | ⟨name, names, hc⟩
          · rw [hc] at h
            cases h
          · rw [hc] at h
            simp only [Bool.not_true, Bool.false_eq_true, if_false, List.isEmpty_cons,
              Option.some.injEq, Prod.mk.injEq, Except.ok.injEq] at h
            rw [← h.1]
            exact List.cons_ne_nil _ _
        · rw [if_neg hp] at h
          exact init_loop_ok_columns fuel _ f' cols h

/-! ## Claim about the column list of `init` -/

/-- Claim C21: a column list that `init()` returns is not empty.  The grammar
`copy_line` never succeeds with an empty column list, since `ident % lit(',')` takes at
least one identifier, so the test `column_names.empty()` after the loop is never true.
Whatever the state of the filter, a list that `init` returns holds a name.  On the filter
that `dump_reader` builds, `init` returns or throws on every stream; a list that it
returns holds a name, and when the stream has a complete line that begins with `COPY `
it does not throw `early_termination_error`, the exception of the two tests after the
loop. -/
theorem init_returns_nonempty_columns (source : process) (buffer_size : Nat)
    (hb : 1 ≤ buffer_size) (table_name : Str) :
    (∀ line, copy_line table_name line ≠ some (some [])) ∧
    (∀ (f f' : filter_copy_contents) (cols : List Str),
      f.init = some (Except.ok cols, f') → cols ≠ []) ∧
    ∃ r f, (pimpl_cont_filter source buffer_size table_name).init = some (r, f) ∧
      (∀ cols, r = Except.ok cols → cols ≠ []) ∧
      (has_copy_line source.pending → r ≠ Except.error error.early_termination_error) := by
  refine ⟨copy_line_columns table_name,
    fun f f' cols h => init_loop_ok_columns _ f f' cols h, ?_⟩
  rcases stream_cases _ source.pending (le_refl _) with
    ⟨pre, header, rest, h1, h2, h3, h4⟩ | ⟨pre, tail, h1, h2, h3⟩
  · obtain ⟨lf, -, -, h⟩ := init_header source buffer_size hb table_name pre header rest h1 h2
      h3 h4
    rcases h with ⟨-, h6⟩ | ⟨name, names, -, h6⟩
    · refine ⟨_, _, h6, ?_, ?_⟩
      · intro cols hc
        cases hc
      · intro _ hc
        cases hc
    · refine ⟨_, _, h6, ?_, ?_⟩
      · intro cols hc
        rw [← Except.ok.inj hc]
        exact List.cons_ne_nil _ _
      · intro _ hc
        cases hc
  · obtain ⟨lf, h⟩ := init_eof source buffer_size hb table_name pre tail h1 h2 h3
    refine ⟨_, _, h, ?_, ?_⟩
    · intro cols hc
      cases hc
    · intro hcopy
      rw [h3] at hcopy
      exact absurd hcopy (no_copy_line_of_skipped pre tail h1 h2)

set_option maxRecDepth 100000 in
theorem init_returns_nonempty_columns_witness :
    1 ≤ 16 ∧
    Option.map Prod.fst (pimpl_cont_filter
        { pending := bytes "COPY t (a, \"b\") FROM stdin;\n1\t2\n", short_reads := [] } 16
        (bytes "t")).init = some (Except.ok [bytes "a", bytes "b"]) ∧
    (∀ line, copy_line (bytes "t") line ≠ some (some [])) ∧
    (∀ (f f' : filter_copy_contents) (cols : List Str),
      f.init = some (Except.ok cols, f') → cols ≠ []) ∧
    ∃ r f, (pimpl_cont_filter
        { pending := bytes "COPY t (a, \"b\") FROM stdin;\n1\t2\n", short_reads := [] } 16
        (bytes "t")).init = some (r, f) ∧
      (∀ cols, r = Except.ok cols → cols ≠ []) ∧
      (has_copy_line (bytes "COPY t (a, \"b\") FROM stdin;\n1\t2\n") →
        r ≠ Except.error error.early_termination_error) :=
  ⟨by decide, by decide,
    init_returns_nonempty_columns
      { pending := bytes "COPY t (a, \"b\") FROM stdin;\n1\t2\n", short_reads := [] } 16
      (by decide) (bytes "t")⟩

end DumpReader
